import Mathlib

/-!
# Colour preset kernel (`wasm-version/filters.c`)

A shallow embedding of the pixel kernel: the per-channel colour operations, the
channel clamp, the per-pixel body and the two batch entry points `applyPreset`
and `applyPresetOptimized`.

Conventions of the embedding

* `float` is IEEE 754 binary32 with round-to-nearest-even, evaluated operation by
  operation (the WebAssembly `f32` instructions the file is compiled to).  The
  type `F32` below carries NaN, the two infinities and the finite values, signed
  zeros and subnormals included; every arithmetic operation computes the exact
  rational result and rounds it once (no wider intermediate precision, no fused
  multiply-add).
* `int` is a 32-bit two's complement integer: every `int` operation of the source
  is followed by `wrap32`.
* The pixel buffer is a list of bytes.  An access outside the list, and a
  conversion of a float to `uint8_t` whose integral part does not fit, are
  undefined behaviour in C; the embedding returns `none` for them.
* `powf` belongs to the C library, not to the source file; the operations that
  call it take it as a parameter.
* The expressions of the contrast, saturation and gamma stages are also written
  once over an arbitrary arithmetic (`contrastFormula`, `lumaFormula`,
  `saturationFormula`, `gammaFormula`): the stage of the source is the expression
  read in binary32, and the same expression can be read over the rationals or the
  reals to state what holds in exact arithmetic.
* For the statements about memory accesses the loop body is run a second time
  with every subscript recorded (`processPixelTraced`); the loops themselves are
  generic in the state they thread, so the same loop definitions are used.
-/

namespace Filters

/-! ## binary32 arithmetic -/

/-- One `uint8_t` channel value. -/
abbrev Byte := Fin 256

/-- A binary32 datum.  `fin neg m k` is the finite value
`(-1)^neg * m * 2^k * 2^(-149)`; the values produced by the operations below have
`m < 2^24`, `k ≤ 253` and `2^23 ≤ m` unless `k = 0` (subnormals and zeros). -/
inductive F32 where
  | nan : F32
  | inf (neg : Bool) : F32
  | fin (neg : Bool) (m : Nat) (k : Nat) : F32
deriving DecidableEq, Repr

/-- One step of the exponent search: keep `j` more dropped bits when the
quotient still has at least 24 bits. -/
def excessStep (q e j : Nat) : Nat := if 2 ^ (23 + e + j) ≤ q then e + j else e

/-- Number of low bits to drop so that `q` fits in 24 bits: the largest `e` with
`2^(23+e) ≤ q` (`0` when there is none), found bit by bit. -/
def excess (q : Nat) : Nat :=
  [512, 256, 128, 64, 32, 16, 8, 4, 2, 1].foldl (excessStep q) 0

namespace F32

/-- Round the non-negative rational `(N / d) * 2^(-149)` (with `0 < d`) to the
nearest binary32 value, ties to the even significand, overflowing to infinity;
`neg` is the sign given to the result. -/
def roundCore (neg : Bool) (N d : Nat) : F32 :=
  let k := excess (N / d)
  let D := d * 2 ^ k
  let M := N / D
  let R := N % D
  let M1 := if D < 2 * R ∨ (2 * R = D ∧ M % 2 = 1) then M + 1 else M
  if M1 = 2 ^ 24 then (if 253 < k + 1 then inf neg else fin neg (2 ^ 23) (k + 1))
  else if 253 < k then inf neg else fin neg M1 k

/-- Round the non-negative rational `n / d` (with `0 < d`) to binary32. -/
def round (neg : Bool) (n d : Nat) : F32 := roundCore neg (n * 2 ^ 149) d

/-- The conversion `(float)n` of a non-negative integer. -/
def ofNat (n : Nat) : F32 := round false n 1

/-- The decimal literal `n/d` written with an `f` suffix, correctly rounded. -/
def lit (n d : Nat) : F32 := round false n d

/-- Unary minus: flips the sign bit. -/
def neg : F32 → F32
  | nan => nan
  | inf s => inf (!s)
  | fin s m k => fin (!s) m k

/-- Binary32 addition. -/
def add : F32 → F32 → F32
  | nan, _ => nan
  | _, nan => nan
  | inf s, inf t => if s = t then inf s else nan
  | inf s, fin _ _ _ => inf s
  | fin _ _ _, inf t => inf t
  | fin s ma ka, fin t mb kb =>
    let k0 := min ka kb
    let A := ma * 2 ^ (ka - k0)
    let B := mb * 2 ^ (kb - k0)
    if s = t then round s ((A + B) * 2 ^ k0) (2 ^ 149)
    else if A = B then fin false 0 0
    else if B < A then round s ((A - B) * 2 ^ k0) (2 ^ 149)
    else round t ((B - A) * 2 ^ k0) (2 ^ 149)

/-- Binary32 subtraction, `a + (-b)`. -/
def sub (a b : F32) : F32 := add a (neg b)

/-- Binary32 multiplication. -/
def mul : F32 → F32 → F32
  | nan, _ => nan
  | _, nan => nan
  | inf s, inf t => inf (xor s t)
  | inf s, fin t m _ => if m = 0 then nan else inf (xor s t)
  | fin s m _, inf t => if m = 0 then nan else inf (xor s t)
  | fin s ma ka, fin t mb kb => round (xor s t) (ma * mb * 2 ^ (ka + kb)) (2 ^ 298)

/-- Binary32 division. -/
def div : F32 → F32 → F32
  | nan, _ => nan
  | _, nan => nan
  | inf _, inf _ => nan
  | inf s, fin t _ _ => inf (xor s t)
  | fin s _ _, inf t => fin (xor s t) 0 0
  | fin s ma ka, fin t mb kb =>
    if mb = 0 then (if ma = 0 then nan else inf (xor s t))
    else round (xor s t) (ma * 2 ^ ka) (mb * 2 ^ kb)

/-- The comparison `a < b` (false as soon as one side is NaN; the two zeros are
equal). -/
def lt : F32 → F32 → Bool
  | nan, _ => false
  | _, nan => false
  | inf s, inf t => s && !t
  | inf s, fin _ _ _ => s
  | fin _ _ _, inf t => !t
  | fin s ma ka, fin t mb kb =>
    let A := ma * 2 ^ ka
    let B := mb * 2 ^ kb
    match s, t with
    | false, false => decide (A < B)
    | true, true => decide (B < A)
    | true, false => decide (0 < A ∨ 0 < B)
    | false, true => false

/-- The conversion `(uint8_t)v`: the value truncated toward zero; undefined
(`none`) when the integral part is not in `0..255`, in particular for NaN and
the infinities. -/
def toUInt8 : F32 → Option Byte
  | nan => none
  | inf _ => none
  | fin s m k =>
    let t := m * 2 ^ k / 2 ^ 149
    if h : t < 256 then (if s = true ∧ t ≠ 0 then none else some ⟨t, h⟩) else none

/-- The exact value of a finite datum (`0` for NaN and the infinities). -/
def toRat : F32 → ℚ
  | nan => 0
  | inf _ => 0
  | fin s m k => (if s then -1 else 1) * ((m : ℚ) * 2 ^ k / 2 ^ 149)

end F32

instance : Add F32 := ⟨F32.add⟩
instance : Sub F32 := ⟨F32.sub⟩
instance : Mul F32 := ⟨F32.mul⟩
instance : Div F32 := ⟨F32.div⟩
instance : Neg F32 := ⟨F32.neg⟩

/-- The `int` wrap-around: the representative of `x` modulo `2^32` in
`[-2^31, 2^31)`. -/
def wrap32 (x : Int) : Int := (x + 2 ^ 31) % 2 ^ 32 - 2 ^ 31

/-! ## The source, function by function -/

/-- The literal `0.0f`. -/
def c0 : F32 := F32.lit 0 1
/-- The literal `255.0f`. -/
def c255 : F32 := F32.lit 255 1
/-- The literal `0.5f`. -/
def cHalf : F32 := F32.lit 5 10
/-- The literal `0.2126f`. -/
def cR : F32 := F32.lit 2126 10000
/-- The literal `0.7152f`. -/
def cG : F32 := F32.lit 7152 10000
/-- The literal `0.0722f`. -/
def cB : F32 := F32.lit 722 10000

/-- `clamp` (filters.c 8-12). -/
def clamp (value : F32) : Option Byte :=
  if F32.lt value c0 then some 0
  else if F32.lt c255 value then some 255
  else F32.toUInt8 value

/-- The three `float` locals `r`, `g`, `b` that the colour operations update
through pointers. -/
structure Rgb where
  r : F32
  g : F32
  b : F32
deriving DecidableEq, Repr

/-- The nine coefficients `matrix[0] .. matrix[8]`. -/
structure Matrix where
  m0 : F32
  m1 : F32
  m2 : F32
  m3 : F32
  m4 : F32
  m5 : F32
  m6 : F32
  m7 : F32
  m8 : F32
deriving DecidableEq, Repr

/-- `apply_matrix` (filters.c 17-25). -/
def apply_matrix (matrix : Matrix) (p : Rgb) : Rgb :=
  let newR := p.r * matrix.m0 + p.g * matrix.m1 + p.b * matrix.m2
  let newG := p.r * matrix.m3 + p.g * matrix.m4 + p.b * matrix.m5
  let newB := p.r * matrix.m6 + p.g * matrix.m7 + p.b * matrix.m8
  let p := { p with r := newR }
  let p := { p with g := newG }
  { p with b := newB }

/-- `apply_saturation` (filters.c 30-37). -/
def apply_saturation (saturation : F32) (p : Rgb) : Rgb :=
  let gray := cR * p.r + cG * p.g + cB * p.b
  let p := { p with r := gray + saturation * (p.r - gray) }
  let p := { p with g := gray + saturation * (p.g - gray) }
  { p with b := gray + saturation * (p.b - gray) }

/-- `apply_contrast` (filters.c 42-46). -/
def apply_contrast (contrast : F32) (p : Rgb) : Rgb :=
  let p := { p with r := ((p.r / c255 - cHalf) * contrast + cHalf) * c255 }
  let p := { p with g := ((p.g / c255 - cHalf) * contrast + cHalf) * c255 }
  { p with b := ((p.b / c255 - cHalf) * contrast + cHalf) * c255 }

/-- `apply_brightness` (filters.c 51-55). -/
def apply_brightness (brightness : F32) (p : Rgb) : Rgb :=
  let p := { p with r := p.r * brightness }
  let p := { p with g := p.g * brightness }
  { p with b := p.b * brightness }

/-- `apply_gamma` (filters.c 60-64); `powf` is the C library function. -/
def apply_gamma (powf : F32 → F32 → F32) (gamma : F32) (p : Rgb) : Rgb :=
  let p := { p with r := powf (p.r / c255) gamma * c255 }
  let p := { p with g := powf (p.g / c255) gamma * c255 }
  { p with b := powf (p.b / c255) gamma * c255 }

/-- The scalar arguments shared by the two entry points. -/
structure Preset where
  matrix : Matrix
  saturation : F32
  contrast : F32
  brightness : F32
  gamma : F32

/-- `pixels[i]` as an rvalue. -/
def readByte (pixels : List Byte) (i : Int) : Option Byte :=
  if 0 ≤ i then pixels[i.toNat]? else none

/-- `pixels[i] = v`. -/
def writeByte (pixels : List Byte) (i : Int) (v : Byte) : Option (List Byte) :=
  if 0 ≤ i ∧ i.toNat < pixels.length then some (pixels.set i.toNat v) else none

/-- The loop body on the pixel that starts at byte `idx`: filters.c 89-103, and
verbatim again at 124-136 and 144-156. -/
def processPixel (powf : F32 → F32 → F32) (ps : Preset) (idx : Int)
    (pixels : List Byte) : Option (List Byte) := do
  let r ← readByte pixels idx
  let g ← readByte pixels (wrap32 (idx + 1))
  let b ← readByte pixels (wrap32 (idx + 2))
  let p : Rgb := ⟨F32.ofNat r.val, F32.ofNat g.val, F32.ofNat b.val⟩
  let p := apply_matrix ps.matrix p
  let p := apply_brightness ps.brightness p
  let p := apply_saturation ps.saturation p
  let p := apply_contrast ps.contrast p
  let p := apply_gamma powf ps.gamma p
  let pixels ← writeByte pixels idx (← clamp p.r)
  let pixels ← writeByte pixels (wrap32 (idx + 1)) (← clamp p.g)
  writeByte pixels (wrap32 (idx + 2)) (← clamp p.b)

/-- `for (int i = start; cond(i); i = next(i)) body(i)` over a state `σ`.  The
first argument bounds the number of condition tests; running out of it yields
`none`. -/
def forLoop {σ : Type} (cond : Int → Bool) (next : Int → Int)
    (body : Int → σ → Option σ) : Nat → Int → σ → Option σ
  | 0, _, _ => none
  | fuel + 1, i, s =>
    if cond i then (body i s).bind (forLoop cond next body fuel (next i)) else some s

/-- The loop structure of `applyPreset` (filters.c 82-105) over an arbitrary
per-pixel action `pixel idx`. -/
def sequentialLoop {σ : Type} (pixel : Int → σ → Option σ) (width height : Int)
    (s : σ) : Option σ :=
  let totalPixels := wrap32 (width * height)
  forLoop (fun i => decide (i < totalPixels)) (fun i => wrap32 (i + 1))
    (fun i s => pixel (wrap32 (i * 4)) s) (totalPixels.toNat + 1) 0 s

/-- The loop structure of `applyPresetOptimized` (filters.c 115-157) over an
arbitrary per-pixel action `pixel idx`. -/
def groupedLoop {σ : Type} (pixel : Int → σ → Option σ) (width height : Int)
    (s : σ) : Option σ :=
  let totalPixels := wrap32 (width * height)
  let remainder := Int.tmod totalPixels 4
  let limit := wrap32 (totalPixels - remainder)
  (forLoop (fun i => decide (i < limit)) (fun i => wrap32 (i + 4))
    (fun i s =>
      forLoop (fun j => decide (j < 4)) (fun j => wrap32 (j + 1))
        (fun j s => pixel (wrap32 (wrap32 (i + j) * 4)) s) 5 0 s)
    (limit.toNat + 1) 0 s).bind
  (forLoop (fun i => decide (i < totalPixels)) (fun i => wrap32 (i + 1))
    (fun i s => pixel (wrap32 (i * 4)) s) (totalPixels.toNat + 1) limit)

/-- `applyPreset` (filters.c 79-106). -/
def applyPreset (powf : F32 → F32 → F32) (pixels : List Byte) (width height : Int)
    (ps : Preset) : Option (List Byte) :=
  sequentialLoop (processPixel powf ps) width height pixels

/-- `applyPresetOptimized` (filters.c 112-158). -/
def applyPresetOptimized (powf : F32 → F32 → F32) (pixels : List Byte)
    (width height : Int) (ps : Preset) : Option (List Byte) :=
  groupedLoop (processPixel powf ps) width height pixels

/-! ## Notions used to state the properties -/

/-- The float `1.0f`. -/
def F32.one : F32 := F32.ofNat 1

/-- The exponent `y` read as a non-negative integer, when it is one. -/
def natExponent : F32 → Option Nat
  | F32.fin s m k =>
    if (m * 2 ^ k) % 2 ^ 149 = 0 ∧ (s = false ∨ m = 0) then some (m * 2 ^ k / 2 ^ 149) else none
  | _ => none

/-- Modelled from the spec: `powf` is the C library power function, which is not
part of the source file; the spec describes it as real-valued exponentiation with
`gamma = 1` the identity.  This reference covers the exponents that are
non-negative integers, for which the real power of a binary32 base is a rational
that is rounded once (exponent `1` returns the base itself, exponent `0` and base
`1` return `1`); for any other exponent it returns NaN and stands for no
particular library.  It is used only to instantiate `powf` at concrete inputs. -/
def powfRef (x y : F32) : F32 :=
  if y = F32.one then x
  else
    match natExponent y with
    | some n =>
      match x with
      | F32.nan => if n = 0 then F32.one else F32.nan
      | F32.inf s => if n = 0 then F32.one else F32.inf (s && decide (n % 2 = 1))
      | F32.fin s m k =>
        F32.round (s && decide (n % 2 = 1)) (m ^ n * 2 ^ (k * n)) (2 ^ (149 * n))
    | none => if x = F32.one then F32.one else F32.nan

/-- The identity matrix `(1,0,0, 0,1,0, 0,0,1)`. -/
def identityMatrix : Matrix :=
  ⟨F32.one, c0, c0, c0, F32.one, c0, c0, c0, F32.one⟩

/-- The preset with the identity matrix and the four scalars equal to `1`. -/
def identityPreset : Preset := ⟨identityMatrix, F32.one, F32.one, F32.one, F32.one⟩

/-- The identity preset with `brightness` replaced. -/
def brightnessPreset (brightness : F32) : Preset :=
  ⟨identityMatrix, F32.one, F32.one, brightness, F32.one⟩

/-- The rational `q` truncated toward zero. -/
def truncToZero (q : ℚ) : ℤ := if 0 ≤ q then ⌊q⌋ else ⌈q⌉

/-- Significand and exponent of a normalised datum. -/
def Canon (m k : Nat) : Prop := m < 2 ^ 24 ∧ (k = 0 ∨ 2 ^ 23 ≤ m) ∧ k ≤ 253

/-- A channel byte as a float: normalised, even significand, exact value. -/
def byteFloatOk (c : Nat) : F32 → Bool
  | F32.fin false m k =>
    decide (m < 2 ^ 24 ∧ 2 ^ 23 ≤ m ∧ m % 2 = 0 ∧ 2 ≤ k ∧ k ≤ 149 ∧ m * 2 ^ k = c * 2 ^ 149)
  | _ => false

/-- A non-negative normalised float below `2^11`. -/
def smallOk : F32 → Bool
  | F32.fin false m k => decide (m < 2 ^ 24 ∧ (k = 0 ∨ 2 ^ 23 ≤ m) ∧ m * 2 ^ k < 2 ^ 160)
  | _ => false

/-- What the identity preset writes for a channel byte: a byte in `1..63` comes
back one lower, every other byte unchanged. -/
def identityByte (c : Byte) : Byte := if 1 ≤ c.val ∧ c.val ≤ 63 then c - 1 else c

/-- `identityByte` on the three colour bytes of a pixel. -/
def identityByte3 (o : Byte × Byte × Byte) : Byte × Byte × Byte :=
  (identityByte o.1, identityByte o.2.1, identityByte o.2.2)

/-- The three bytes written once the working triple is `(x, y, z)` and
saturation, contrast and gamma all have parameter one. -/
def unitStages (powf : F32 → F32 → F32) (x y z : F32) : Option (Byte × Byte × Byte) :=
  (clamp (apply_gamma powf F32.one (apply_contrast F32.one
      (apply_saturation F32.one ⟨x, y, z⟩))).r).bind fun r1 =>
    (clamp (apply_gamma powf F32.one (apply_contrast F32.one
        (apply_saturation F32.one ⟨x, y, z⟩))).g).bind fun g1 =>
      (clamp (apply_gamma powf F32.one (apply_contrast F32.one
          (apply_saturation F32.one ⟨x, y, z⟩))).b).map fun b1 => (r1, g1, b1)

/-- Run `body` at the `n` consecutive indices `i, i+1, ..`, threading the state. -/
def runFrom {σ : Type} (body : Int → σ → Option σ) : Nat → Int → σ → Option σ
  | 0, _, s => some s
  | n + 1, i, s => (body i s).bind (runFrom body n (i + 1))

/-- The working triple of one pixel after the five colour operations, in the
order of the loop body, from the three channel bytes. -/
def pipeline (powf : F32 → F32 → F32) (ps : Preset) (r g b : Byte) : Rgb :=
  apply_gamma powf ps.gamma
    (apply_contrast ps.contrast
      (apply_saturation ps.saturation
        (apply_brightness ps.brightness
          (apply_matrix ps.matrix ⟨F32.ofNat r.val, F32.ofNat g.val, F32.ofNat b.val⟩))))

/-- The three bytes the loop body computes for a pixel with channel bytes
`r`, `g`, `b`: each channel of `pipeline` clamped. -/
def pixelOut (powf : F32 → F32 → F32) (ps : Preset) (r g b : Byte) :
    Option (Byte × Byte × Byte) :=
  (clamp (pipeline powf ps r g b).r).bind fun r1 =>
    (clamp (pipeline powf ps r g b).g).bind fun g1 =>
      (clamp (pipeline powf ps r g b).b).map fun b1 => (r1, g1, b1)

/-- `pixelOut` on a triple. -/
def pixelOut3 (powf : F32 → F32 → F32) (ps : Preset) (o : Byte × Byte × Byte) :
    Option (Byte × Byte × Byte) :=
  pixelOut powf ps o.1 o.2.1 o.2.2

/-- The buffer with the three colour bytes that start at `idx` replaced. -/
def setPixel (pixels : List Byte) (idx : Nat) (o : Byte × Byte × Byte) : List Byte :=
  ((pixels.set idx o.1).set (idx + 1) o.2.1).set (idx + 2) o.2.2

/-- The colour bytes of pixel `i`: positions `4i`, `4i+1`, `4i+2`. -/
def pixelAt (pixels : List Byte) (i : Nat) : Option (Byte × Byte × Byte) :=
  (pixels[4 * i]?).bind fun r =>
    (pixels[4 * i + 1]?).bind fun g => (pixels[4 * i + 2]?).map fun b => (r, g, b)

/-- Two buffers of the same length that agree at every position `3 mod 4`. -/
def AlphaSame (px out : List Byte) : Prop :=
  out.length = px.length ∧ ∀ j : Nat, j % 4 = 3 → out[j]? = px[j]?

/-- A per-pixel action that only records the byte offset it is called with. -/
def tracePixel (idx : Int) (log : List Int) : Option (List Int) := some (log ++ [idx])

/-- The subscripts of one run of the loop body at byte offset `idx`. -/
def bodySubscripts (idx : Int) : List Int :=
  [idx, wrap32 (idx + 1), wrap32 (idx + 2), idx, wrap32 (idx + 1), wrap32 (idx + 2)]

/-- The float `2.0f`. -/
def two : F32 := F32.ofNat 2

/-- The identity preset with `gamma` replaced. -/
def gammaPreset (gamma : F32) : Preset := ⟨identityMatrix, F32.one, F32.one, F32.one, gamma⟩

/-- The matrix `(2,0,0, 0,2,0, 0,0,2)`. -/
def doubleMatrix : Matrix := ⟨two, c0, c0, c0, two, c0, c0, c0, two⟩

/-- The preset with matrix `2 * identity`, brightness `0.5` and saturation, contrast
and gamma equal to one. -/
def doubleHalfPreset : Preset := ⟨doubleMatrix, F32.one, F32.one, cHalf, F32.one⟩

/-- `apply_contrast` on one channel (filters.c 43), over any arithmetic; `c255`
and `half` stand for the two literals. -/
def contrastFormula {α : Type} [Add α] [Sub α] [Mul α] [Div α] (c255 half contrast c : α) : α :=
  ((c / c255 - half) * contrast + half) * c255

/-- The datum `x` is the float immediately below the positive float `y`: adding
one unit in the last place of `x` gives `y`. -/
def justBelow : F32 → F32 → Bool
  | F32.fin false m k, F32.fin false m2 k2 =>
    decide (m < 2 ^ 24 ∧ (k = 0 ∨ 2 ^ 23 ≤ m) ∧ m * 2 ^ k + 2 ^ k = m2 * 2 ^ k2)
  | _, _ => false

/-- The luminance expression of `apply_saturation` (filters.c 32), over any
arithmetic; `wR`, `wG`, `wB` stand for the three literals. -/
def lumaFormula {α : Type} [Add α] [Mul α] (wR wG wB r g b : α) : α :=
  wR * r + wG * g + wB * b

/-- The three assignments of `apply_saturation` (filters.c 34-36), over any
arithmetic, as a triple. -/
def saturationFormula {α : Type} [Add α] [Sub α] [Mul α] (wR wG wB saturation r g b : α) :
    α × α × α :=
  (lumaFormula wR wG wB r g b + saturation * (r - lumaFormula wR wG wB r g b),
   lumaFormula wR wG wB r g b + saturation * (g - lumaFormula wR wG wB r g b),
   lumaFormula wR wG wB r g b + saturation * (b - lumaFormula wR wG wB r g b))

/-- The preset with the identity matrix, contrast, brightness and gamma equal to
one, and the given `saturation`. -/
def saturationPreset (saturation : F32) : Preset :=
  ⟨identityMatrix, saturation, F32.one, F32.one, F32.one⟩

/-- One assignment of `apply_gamma` (filters.c 61), over any arithmetic; `pow`
stands for `powf` and `c255` for the literal. -/
def gammaFormula {α : Type} [Mul α] [Div α] (pow : α → α → α) (c255 gamma c : α) : α :=
  pow (c / c255) gamma * c255

/-- Modelled from the spec: `powf` is the C library power function, which is not
part of the source file; the spec describes it as real-valued exponentiation.
This is the power function of the real numbers. -/
noncomputable def powReal (x y : ℝ) : ℝ := x ^ y

/-- A non-negative finite float that is at most `1`. -/
def unitOk : F32 → Bool
  | F32.fin false m k => decide (m * 2 ^ k ≤ 2 ^ 149)
  | _ => false

/-- `clamp` where the conversion `(uint8_t)value` that C leaves undefined (a NaN
that passed both comparisons) yields the byte `conv value`. -/
def clampWith (conv : F32 → Byte) (value : F32) : Byte := (clamp value).getD (conv value)

/-- The loop body `processPixel` (filters.c 89-103) with `clampWith conv` for
`clamp`: the only way left for it to be undefined is a subscript outside the
buffer. -/
def processPixelWith (conv : F32 → Byte) (powf : F32 → F32 → F32) (ps : Preset) (idx : Int)
    (pixels : List Byte) : Option (List Byte) := do
  let r ← readByte pixels idx
  let g ← readByte pixels (wrap32 (idx + 1))
  let b ← readByte pixels (wrap32 (idx + 2))
  let p : Rgb := ⟨F32.ofNat r.val, F32.ofNat g.val, F32.ofNat b.val⟩
  let p := apply_matrix ps.matrix p
  let p := apply_brightness ps.brightness p
  let p := apply_saturation ps.saturation p
  let p := apply_contrast ps.contrast p
  let p := apply_gamma powf ps.gamma p
  let pixels ← writeByte pixels idx (clampWith conv p.r)
  let pixels ← writeByte pixels (wrap32 (idx + 1)) (clampWith conv p.g)
  writeByte pixels (wrap32 (idx + 2)) (clampWith conv p.b)

/-- `applyPreset` with the loop body `processPixelWith conv`. -/
def applyPresetWith (conv : F32 → Byte) (powf : F32 → F32 → F32) (pixels : List Byte)
    (width height : Int) (ps : Preset) : Option (List Byte) :=
  sequentialLoop (processPixelWith conv powf ps) width height pixels

/-- `applyPresetOptimized` with the loop body `processPixelWith conv`. -/
def applyPresetOptimizedWith (conv : F32 → Byte) (powf : F32 → F32 → F32)
    (pixels : List Byte) (width height : Int) (ps : Preset) : Option (List Byte) :=
  groupedLoop (processPixelWith conv powf ps) width height pixels

/-- The three bytes `processPixelWith conv` computes for a pixel with channel
bytes `o`: each channel of `pipeline` through `clampWith conv`. -/
def pixelOutWith (conv : F32 → Byte) (powf : F32 → F32 → F32) (ps : Preset)
    (o : Byte × Byte × Byte) : Byte × Byte × Byte :=
  (clampWith conv (pipeline powf ps o.1 o.2.1 o.2.2).r,
   clampWith conv (pipeline powf ps o.1 o.2.1 o.2.2).g,
   clampWith conv (pipeline powf ps o.1 o.2.1 o.2.2).b)

/-- The working triple after the saturation, contrast and gamma stages at
parameter one, started from `(x, y, z)`. -/
def unitTriple (powf : F32 → F32 → F32) (x y z : F32) : Rgb :=
  apply_gamma powf F32.one (apply_contrast F32.one (apply_saturation F32.one ⟨x, y, z⟩))

/-! ## 32-bit integers and loops -/

theorem wrap32_eq_self {x : Int} (h1 : -2 ^ 31 ≤ x) (h2 : x < 2 ^ 31) : wrap32 x = x := by
  unfold wrap32
  norm_num at h1 h2 ⊢
  omega

theorem wrap32_range (x : Int) : -2 ^ 31 ≤ wrap32 x ∧ wrap32 x < 2 ^ 31 := by
  unfold wrap32
  norm_num
  omega

theorem wrap32_emod_four (x : Int) : wrap32 x % 4 = x % 4 := by
  unfold wrap32
  norm_num
  omega

theorem runFrom_add {σ : Type} (body : Int → σ → Option σ) (a b : Nat) :
    ∀ (lo : Int) (s : σ),
      runFrom body (a + b) lo s = (runFrom body a lo s).bind (runFrom body b (lo + a)) := by
  induction a with
  | zero => intro lo s; simp [runFrom]
  | succ a ih =>
    intro lo s
    rw [Nat.succ_add]
    simp only [runFrom]
    cases body lo s with
    | none => rfl
    | some s1 =>
      simp only [Option.some_bind, ih]
      have e : lo + 1 + (a : Int) = lo + ((a + 1 : Nat) : Int) := by push_cast; omega
      rw [e]

theorem forLoop_count {σ : Type} (body : Int → σ → Option σ) (hi : Int) (hhi : hi < 2 ^ 31) :
    ∀ (n fuel : Nat) (lo : Int) (s : σ), -2 ^ 31 ≤ lo → lo + n = hi → n < fuel →
      forLoop (fun i => decide (i < hi)) (fun i => wrap32 (i + 1)) body fuel lo s
        = runFrom body n lo s := by
  intro n
  induction n with
  | zero =>
    intro fuel lo s _ hn hf
    obtain ⟨f, rfl⟩ : ∃ f, fuel = f + 1 := ⟨fuel - 1, by omega⟩
    have : ¬ lo < hi := by omega
    simp [forLoop, runFrom, this]
  | succ n ih =>
    intro fuel lo s hlo hn hf
    obtain ⟨f, rfl⟩ : ∃ f, fuel = f + 1 := ⟨fuel - 1, by omega⟩
    have hlt : lo < hi := by omega
    have hw : wrap32 (lo + 1) = lo + 1 := wrap32_eq_self (by omega) (by omega)
    simp only [forLoop, runFrom, hlt, decide_True, if_true, hw]
    cases body lo s with
    | none => rfl
    | some s1 =>
      simp only [Option.some_bind]
      exact ih f (lo + 1) s1 (by omega) (by push_cast at hn ⊢; omega) (by omega)

theorem forLoop_chunks {σ : Type} (pixel : Int → σ → Option σ) (limit : Int)
    (hlim : limit < 2 ^ 31) :
    ∀ (c fuel : Nat) (lo : Int) (s : σ), 0 ≤ lo → lo + 4 * c = limit → c < fuel →
      forLoop (fun i => decide (i < limit)) (fun i => wrap32 (i + 4))
        (fun i s =>
          forLoop (fun j => decide (j < 4)) (fun j => wrap32 (j + 1))
            (fun j s => pixel (wrap32 (wrap32 (i + j) * 4)) s) 5 0 s) fuel lo s
        = runFrom (fun i s => pixel (wrap32 (i * 4)) s) (4 * c) lo s := by
  intro c
  induction c with
  | zero =>
    intro fuel lo s _ hn hf
    obtain ⟨f, rfl⟩ : ∃ f, fuel = f + 1 := ⟨fuel - 1, by omega⟩
    have : ¬ lo < limit := by omega
    simp [forLoop, runFrom, this]
  | succ c ih =>
    intro fuel lo s hlo hn hf
    obtain ⟨f, rfl⟩ : ∃ f, fuel = f + 1 := ⟨fuel - 1, by omega⟩
    have hlt : lo < limit := by omega
    have hw : wrap32 (lo + 4) = lo + 4 := wrap32_eq_self (by omega) (by omega)
    have h0 : wrap32 (lo + 0) = lo := by
      rw [Int.add_zero]; exact wrap32_eq_self (by omega) (by omega)
    have h1 : wrap32 (lo + 1) = lo + 1 := wrap32_eq_self (by omega) (by omega)
    have h2 : wrap32 (lo + 2) = lo + 2 := wrap32_eq_self (by omega) (by omega)
    have h3 : wrap32 (lo + 3) = lo + 3 := wrap32_eq_self (by omega) (by omega)
    have e1 : wrap32 (0 + 1) = 1 := by decide
    have e2 : wrap32 (1 + 1) = 2 := by decide
    have e3 : wrap32 (2 + 1) = 3 := by decide
    have e4 : wrap32 (3 + 1) = 4 := by decide
    have hsplit : 4 * (c + 1) = 4 + 4 * c := by ring
    rw [hsplit, runFrom_add]
    have hinner : forLoop (fun j => decide (j < 4)) (fun j => wrap32 (j + 1))
            (fun j s => pixel (wrap32 (wrap32 (lo + j) * 4)) s) 5 0 s
          = runFrom (fun i s => pixel (wrap32 (i * 4)) s) 4 lo s := by
      have a2 : lo + 1 + 1 = lo + 2 := by omega
      have a3 : lo + 2 + 1 = lo + 3 := by omega
      simp only [forLoop, runFrom, e1, e2, e3, e4, h0, h1, h2, h3, a2, a3]
      simp
    rw [forLoop]
    simp only [hlt, decide_True, if_true, hinner, hw]
    cases runFrom (fun i s => pixel (wrap32 (i * 4)) s) 4 lo s with
    | none => rfl
    | some s1 =>
      simp only [Option.some_bind]
      exact ih f (lo + 4) s1 (by omega) (by push_cast at hn ⊢; omega) (by omega)

theorem groupedLoop_eq_sequentialLoop {σ : Type} (pixel : Int → σ → Option σ)
    (width height : Int) (s : σ) :
    groupedLoop pixel width height s = sequentialLoop pixel width height s := by
  unfold groupedLoop sequentialLoop
  obtain ⟨hlo, hhi⟩ := wrap32_range (width * height)
  generalize wrap32 (width * height) = total at hlo hhi
  simp only
  by_cases hpos : 0 < total
  · have hrem : Int.tmod total 4 = total % 4 := Int.tmod_eq_emod (by omega) (by omega)
    have hlim : wrap32 (total - Int.tmod total 4) = total - total % 4 := by
      rw [hrem]; exact wrap32_eq_self (by omega) (by omega)
    rw [hlim]
    obtain ⟨c, hc⟩ : ∃ c : Nat, total - total % 4 = 4 * (c : Int) :=
      ⟨((total - total % 4) / 4).toNat, by omega⟩
    obtain ⟨r, hr⟩ : ∃ r : Nat, total % 4 = (r : Int) := ⟨(total % 4).toNat, by omega⟩
    rw [forLoop_chunks pixel _ (by omega) c _ 0 s (le_refl _) (by omega) (by omega)]
    rw [forLoop_count _ total hhi (4 * c + r) _ 0 s (by omega) (by push_cast; omega) (by omega)]
    rw [runFrom_add]
    congr 1
    funext s1
    have : (0 : Int) + ((4 * c : Nat) : Int) = total - total % 4 := by push_cast; omega
    rw [this]
    exact forLoop_count _ total hhi r _ _ s1 (by omega) (by omega) (by omega)
  · have h1 : ¬ (0 < total) := hpos
    have ht : Int.tmod total 4 = total + 4 * ((-total) / 4) := by
      rw [Int.tmod_def]
      have e1 := Int.neg_tdiv total 4
      have e2 := Int.tdiv_eq_ediv (a := -total) (b := 4) (by omega) (by omega)
      omega
    have hrem3 : total ≤ total - Int.tmod total 4 := by omega
    have hrem4 : total - Int.tmod total 4 ≤ 0 := by omega
    have hlim : wrap32 (total - Int.tmod total 4) = total - Int.tmod total 4 :=
      wrap32_eq_self (by omega) (by omega)
    rw [hlim]
    generalize total - Int.tmod total 4 = limit at hrem3 hrem4
    have c1 : ¬ (0 < limit) := by omega
    have c2 : ¬ (limit < total) := by omega
    simp [forLoop, c1, c2, h1]

/-! ## The loop body -/

theorem writeByte_some {px out : List Byte} {i : Int} {v : Byte}
    (h : writeByte px i v = some out) : 0 ≤ i ∧ out = px.set i.toNat v := by
  unfold writeByte at h
  split at h
  · next hc => exact ⟨hc.1, by simpa using h.symm⟩
  · simp at h

theorem writeByte_alphaSame {px out : List Byte} {i : Int} {v : Byte}
    (h : writeByte px i v = some out) (hi : i % 4 ≠ 3) : AlphaSame px out := by
  obtain ⟨h0, rfl⟩ := writeByte_some h
  refine ⟨by simp, fun j hj => ?_⟩
  have hne : i.toNat ≠ j := by omega
  simp [List.getElem?_set_ne hne]

theorem AlphaSame.trans {a b c : List Byte} (h1 : AlphaSame a b) (h2 : AlphaSame b c) :
    AlphaSame a c :=
  ⟨h2.1.trans h1.1, fun j hj => (h2.2 j hj).trans (h1.2 j hj)⟩

theorem processPixel_alphaSame {powf : F32 → F32 → F32} {ps : Preset} {idx : Int}
    {px out : List Byte} (h : processPixel powf ps idx px = some out) (hidx : idx % 4 = 0) :
    AlphaSame px out := by
  unfold processPixel at h
  simp only [Option.bind_eq_bind, Option.bind_eq_some] at h
  obtain ⟨r, -, g, -, b, -, r1, -, p1, hp1, g1, -, p2, hp2, b1, -, hp3⟩ := h
  have m1 := wrap32_emod_four (idx + 1)
  have m2 := wrap32_emod_four (idx + 2)
  exact ((writeByte_alphaSame hp1 (by omega)).trans (writeByte_alphaSame hp2 (by omega))).trans
    (writeByte_alphaSame hp3 (by omega))

theorem setPixel_length (px : List Byte) (idx : Nat) (o : Byte × Byte × Byte) :
    (setPixel px idx o).length = px.length := by
  simp [setPixel]

theorem setPixel_getElem?_of_ne (px : List Byte) (idx : Nat) (o : Byte × Byte × Byte)
    (j : Nat) (h : j < idx ∨ idx + 2 < j) : (setPixel px idx o)[j]? = px[j]? := by
  unfold setPixel
  rw [List.getElem?_set_ne (by omega), List.getElem?_set_ne (by omega),
    List.getElem?_set_ne (by omega)]

theorem pixelAt_setPixel_self (px : List Byte) (i : Nat) (o : Byte × Byte × Byte)
    (h : 4 * i + 2 < px.length) : pixelAt (setPixel px (4 * i) o) i = some o := by
  unfold pixelAt setPixel
  have e0 : (((px.set (4 * i) o.1).set (4 * i + 1) o.2.1).set (4 * i + 2) o.2.2)[4 * i]?
      = some o.1 := by
    rw [List.getElem?_set_ne (by omega), List.getElem?_set_ne (by omega),
      List.getElem?_set_self (by omega)]
  have e1 : (((px.set (4 * i) o.1).set (4 * i + 1) o.2.1).set (4 * i + 2) o.2.2)[4 * i + 1]?
      = some o.2.1 := by
    rw [List.getElem?_set_ne (by omega), List.getElem?_set_self (by simp; omega)]
  have e2 : (((px.set (4 * i) o.1).set (4 * i + 1) o.2.1).set (4 * i + 2) o.2.2)[4 * i + 2]?
      = some o.2.2 := by
    rw [List.getElem?_set_self (by simp; omega)]
  rw [e0, e1, e2]
  rfl

theorem pixelAt_setPixel_of_ne (px : List Byte) (i l : Nat) (o : Byte × Byte × Byte)
    (h : i ≠ l) : pixelAt (setPixel px (4 * l) o) i = pixelAt px i := by
  unfold pixelAt
  rw [setPixel_getElem?_of_ne _ _ _ _ (by omega), setPixel_getElem?_of_ne _ _ _ _ (by omega),
    setPixel_getElem?_of_ne _ _ _ _ (by omega)]

theorem pixelAt_congr (px out : List Byte) (i : Nat)
    (h : ∀ j, j < 4 * (i + 1) → out[j]? = px[j]?) : pixelAt out i = pixelAt px i := by
  unfold pixelAt
  rw [h _ (by omega), h _ (by omega), h _ (by omega)]

theorem readByte_natCast (px : List Byte) (i : Nat) : readByte px (i : Int) = px[i]? := by
  simp [readByte]

theorem writeByte_natCast (px : List Byte) (i : Nat) (v : Byte) (h : i < px.length) :
    writeByte px (i : Int) v = some (px.set i v) := by
  simp [writeByte, h]

theorem writeBack_shape (px : List Byte) (i0 i1 i2 : Nat) (t : Rgb)
    (h0 : i0 < px.length) (h1 : i1 < px.length) (h2 : i2 < px.length) :
    ((clamp t.r).bind fun r1 =>
      (writeByte px (i0 : Int) r1).bind fun p1 =>
        (clamp t.g).bind fun g1 =>
          (writeByte p1 (i1 : Int) g1).bind fun p2 =>
            (clamp t.b).bind fun b1 => writeByte p2 (i2 : Int) b1)
      = ((clamp t.r).bind fun r1 => (clamp t.g).bind fun g1 =>
          (clamp t.b).map fun b1 => (r1, g1, b1)).map
          (fun o => ((px.set i0 o.1).set i1 o.2.1).set i2 o.2.2) := by
  cases clamp t.r with
  | none => rfl
  | some r1 =>
    cases clamp t.g with
    | none => simp [writeByte_natCast px i0 r1 h0]
    | some g1 =>
      cases clamp t.b with
      | none =>
        simp [writeByte_natCast px i0 r1 h0,
          writeByte_natCast (px.set i0 r1) i1 g1 (by simpa using h1)]
      | some b1 =>
        simp [writeByte_natCast px i0 r1 h0,
          writeByte_natCast (px.set i0 r1) i1 g1 (by simpa using h1),
          writeByte_natCast ((px.set i0 r1).set i1 g1) i2 b1 (by simpa using h2)]

theorem processPixel_at (powf : F32 → F32 → F32) (ps : Preset) (px : List Byte)
    (i : Nat) (h : 4 * i + 2 < px.length) (hr : px.length < 2 ^ 31) :
    processPixel powf ps (wrap32 ((i : Int) * 4)) px
      = ((pixelAt px i).bind (pixelOut3 powf ps)).map (setPixel px (4 * i)) := by
  have g0 : px[4 * i]? = some px[4 * i] := List.getElem?_eq_getElem (by omega)
  have g1 : px[4 * i + 1]? = some px[4 * i + 1] := List.getElem?_eq_getElem (by omega)
  have g2 : px[4 * i + 2]? = some px[4 * i + 2] := List.getElem?_eq_getElem (by omega)
  have hb : ((4 * i + 2 : Nat) : Int) < 2 ^ 31 := by
    have : 4 * i + 2 < 2 ^ 31 := by omega
    exact_mod_cast this
  have w0 : wrap32 ((i : Int) * 4) = ((4 * i : Nat) : Int) := by
    rw [wrap32_eq_self (by push_cast at hb; omega) (by push_cast at hb; omega)]
    push_cast; ring
  have w1 : wrap32 (((4 * i : Nat) : Int) + 1) = ((4 * i + 1 : Nat) : Int) := by
    rw [wrap32_eq_self (by push_cast at hb ⊢; omega) (by push_cast at hb ⊢; omega)]
    push_cast; rfl
  have w2 : wrap32 (((4 * i : Nat) : Int) + 2) = ((4 * i + 2 : Nat) : Int) := by
    rw [wrap32_eq_self (by push_cast at hb ⊢; omega) (by push_cast at hb ⊢; omega)]
    push_cast; rfl
  clear hb
  rw [w0]
  unfold processPixel pixelAt
  simp only [w1, w2, readByte_natCast, g0, g1, g2, Option.bind_eq_bind, Option.some_bind,
    Option.map_some']
  exact writeBack_shape px (4 * i) (4 * i + 1) (4 * i + 2) _ (by omega) (by omega) (by omega)

/-! ## The two entry points -/

theorem sequentialLoop_eq_runFrom {σ : Type} (pixel : Int → σ → Option σ)
    (width height : Int) (s : σ) :
    sequentialLoop pixel width height s
      = runFrom (fun i s => pixel (wrap32 (i * 4)) s) (wrap32 (width * height)).toNat 0 s := by
  unfold sequentialLoop
  obtain ⟨hlo, hhi⟩ := wrap32_range (width * height)
  generalize wrap32 (width * height) = total at hlo hhi
  simp only
  by_cases hpos : 0 ≤ total
  · exact forLoop_count _ total hhi total.toNat _ 0 s (by omega) (by omega) (by omega)
  · have h0 : total.toNat = 0 := by omega
    have c1 : ¬ (0 < total) := by omega
    simp [h0, forLoop, runFrom, c1]

theorem applyPreset_alphaSame {powf : F32 → F32 → F32} {px out : List Byte}
    {width height : Int} {ps : Preset}
    (h : applyPreset powf px width height ps = some out) : AlphaSame px out := by
  unfold applyPreset at h
  rw [sequentialLoop_eq_runFrom] at h
  revert h
  generalize (wrap32 (width * height)).toNat = n
  generalize (0 : Int) = lo
  induction n generalizing lo px with
  | zero =>
    intro h
    simp only [runFrom, Option.some.injEq] at h
    subst h
    exact ⟨rfl, fun _ _ => rfl⟩
  | succ n ih =>
    intro h
    simp only [runFrom, Option.bind_eq_some] at h
    obtain ⟨p1, h1, h2⟩ := h
    have hm : wrap32 (lo * 4) % 4 = 0 := by rw [wrap32_emod_four]; omega
    exact (processPixel_alphaSame h1 hm).trans (ih (lo + 1) h2)

/-! ## Rounding -/

theorem excessStep_inv {q e j : Nat} (h1 : e = 0 ∨ 2 ^ (23 + e) ≤ q)
    (h2 : q < 2 ^ (23 + e + 2 * j)) :
    (excessStep q e j = 0 ∨ 2 ^ (23 + excessStep q e j) ≤ q) ∧
      q < 2 ^ (23 + excessStep q e j + j) := by
  unfold excessStep
  by_cases h : 2 ^ (23 + e + j) ≤ q
  · rw [if_pos h]
    refine ⟨Or.inr (by rw [← Nat.add_assoc]; exact h), ?_⟩
    have : 23 + (e + j) + j = 23 + e + 2 * j := by omega
    rw [this]; exact h2
  · rw [if_neg h]
    exact ⟨h1, by omega⟩

theorem excess_spec (q w : Nat) (hq : q < 2 ^ w) (hw : w ≤ 23 + 0 + 2 * 512) :
    (excess q = 0 ∧ q < 2 ^ 24) ∨
      (0 < excess q ∧ 2 ^ (23 + excess q) ≤ q ∧ q < 2 ^ (24 + excess q)) := by
  have hq1 := lt_of_lt_of_le hq (Nat.pow_le_pow_right (by norm_num) hw)
  unfold excess
  simp only [List.foldl]
  generalize hj : (512 : Nat) = j0 at hq1 ⊢
  obtain ⟨a1, b1⟩ := excessStep_inv (q := q) (e := 0) (j := j0) (Or.inl rfl) hq1
  have hj2 : 23 + excessStep q 0 j0 + j0 = 23 + excessStep q 0 j0 + 2 * 256 := by omega
  rw [hj2] at b1
  obtain ⟨a2, b2⟩ := excessStep_inv (j := 256) a1 b1
  obtain ⟨a3, b3⟩ := excessStep_inv (j := 128) a2 b2
  obtain ⟨a4, b4⟩ := excessStep_inv (j := 64) a3 b3
  obtain ⟨a5, b5⟩ := excessStep_inv (j := 32) a4 b4
  obtain ⟨a6, b6⟩ := excessStep_inv (j := 16) a5 b5
  obtain ⟨a7, b7⟩ := excessStep_inv (j := 8) a6 b6
  obtain ⟨a8, b8⟩ := excessStep_inv (j := 4) a7 b7
  obtain ⟨a9, b9⟩ := excessStep_inv (j := 2) a8 b8
  obtain ⟨a10, b10⟩ := excessStep_inv (j := 1) a9 b9
  generalize excessStep q _ 1 = e at a10 b10
  have hb : q < 2 ^ (24 + e) := by
    have : 23 + e + 1 = 24 + e := by omega
    rw [← this]; exact b10
  by_cases he : e = 0
  · left; subst he; exact ⟨rfl, hb⟩
  · right
    rcases a10 with h | h
    · exact absurd h he
    · exact ⟨by omega, h, hb⟩

theorem excess_spec_le (q e : Nat) (h : q < 2 ^ (24 + e)) (he : e ≤ 1000) :
    (excess q = 0 ∧ q < 2 ^ 24) ∨
      (0 < excess q ∧ 2 ^ (23 + excess q) ≤ q ∧ q < 2 ^ (24 + excess q)) :=
  excess_spec q (24 + e) h (by omega)

theorem excess_eq_zero {q : Nat} (h : q < 2 ^ 24) : excess q = 0 := by
  rcases excess_spec_le q 0 h (by omega) with ⟨h0, -⟩ | ⟨h0, h1, -⟩
  · exact h0
  · have : 2 ^ 24 ≤ 2 ^ (23 + excess q) := Nat.pow_le_pow_right (by norm_num) (by omega)
    omega

theorem excess_eq {q e : Nat} (h1 : 2 ^ (23 + e) ≤ q) (h2 : q < 2 ^ (24 + e)) (he : e ≤ 1000) :
    excess q = e := by
  rcases excess_spec_le q e h2 (by omega) with ⟨h0, h3⟩ | ⟨h0, h3, h4⟩
  · have : 2 ^ 23 ≤ 2 ^ (23 + e) := Nat.pow_le_pow_right (by norm_num) (by omega)
    by_cases he0 : e = 0
    · rw [h0, he0]
    · have : 2 ^ 24 ≤ 2 ^ (23 + e) := Nat.pow_le_pow_right (by norm_num) (by omega)
      omega
  · by_contra hne
    rcases Nat.lt_or_gt_of_ne hne with hlt | hgt
    · have : 2 ^ (24 + excess q) ≤ 2 ^ (23 + e) :=
        Nat.pow_le_pow_right (by norm_num) (by omega)
      omega
    · have : 2 ^ (24 + e) ≤ 2 ^ (23 + excess q) :=
        Nat.pow_le_pow_right (by norm_num) (by omega)
      omega

theorem excess_canon {M k : Nat} (h : Canon M k) : excess (M * 2 ^ k) = k := by
  obtain ⟨h1, h2, h3⟩ := h
  by_cases hk : k = 0
  · subst hk
    rw [pow_zero, Nat.mul_one]
    exact excess_eq_zero h1
  · have h23 : 2 ^ 23 ≤ M := by rcases h2 with h | h; exact absurd h hk; exact h
    apply excess_eq _ _ (by omega)
    · rw [pow_add]; exact Nat.mul_le_mul_right _ h23
    · rw [pow_add]; exact Nat.mul_lt_mul_of_pos_right h1 (by positivity)

theorem roundCore_exact (s : Bool) {N d M k : Nat} (hd : 0 < d) (hN : N = M * 2 ^ k * d)
    (h : Canon M k) : F32.roundCore s N d = F32.fin s M k := by
  have hq : N / d = M * 2 ^ k := by rw [hN]; exact Nat.mul_div_cancel _ hd
  have hD : 0 < d * 2 ^ k := by positivity
  have hN2 : N = M * (d * 2 ^ k) := by rw [hN]; ring
  have hdiv : N / (d * 2 ^ k) = M := by rw [hN2]; exact Nat.mul_div_cancel _ hD
  have hmod : N % (d * 2 ^ k) = 0 := by rw [hN2]; exact Nat.mul_mod_left _ _
  unfold F32.roundCore
  simp only [hq, excess_canon h, hdiv, hmod]
  have hc : ¬ (d * 2 ^ k < 2 * 0 ∨ (2 * 0 = d * 2 ^ k ∧ M % 2 = 1)) := by
    rintro (h1 | ⟨h1, -⟩) <;> omega
  rw [if_neg hc, if_neg (by have := h.1; omega), if_neg (by have := h.2.2; omega)]

theorem round_exact (s : Bool) {n d M k : Nat} (hd : 0 < d)
    (hN : n * 2 ^ 149 = M * 2 ^ k * d) (h : Canon M k) : F32.round s n d = F32.fin s M k :=
  roundCore_exact s hd hN h

theorem roundCore_units (s : Bool) {S e M R : Nat} (hex : excess S = e)
    (hS : R + 2 ^ e * M = S) (hR : R < 2 ^ e) :
    F32.roundCore s S 1 =
      if (if 2 ^ e < 2 * R ∨ (2 * R = 2 ^ e ∧ M % 2 = 1) then M + 1 else M) = 2 ^ 24 then
        (if 253 < e + 1 then F32.inf s else F32.fin s (2 ^ 23) (e + 1))
      else if 253 < e then F32.inf s
      else F32.fin s (if 2 ^ e < 2 * R ∨ (2 * R = 2 ^ e ∧ M % 2 = 1) then M + 1 else M) e := by
  obtain ⟨hdiv, hmod⟩ := (Nat.div_mod_unique (by positivity)).mpr ⟨hS, hR⟩
  unfold F32.roundCore
  simp only [Nat.div_one, Nat.one_mul, hex, hdiv, hmod]

/-- Rounding interval of a normalised value with even significand: every integer
number of units within half a unit in the last place of `mc * 2^kc` (a quarter
below, when `mc` is the smallest significand) rounds to it. -/
theorem roundCore_near (s : Bool) {mc kc S : Nat} (hc : Canon mc kc) (h23 : 2 ^ 23 ≤ mc)
    (heven : mc % 2 = 0) (hk : 2 ≤ kc)
    (hup : 2 * S ≤ 2 * (mc * 2 ^ kc) + 2 ^ kc)
    (hdn : 2 * (mc * 2 ^ kc) ≤ 2 * S + 2 ^ kc)
    (hlow : mc = 2 ^ 23 → 4 * (mc * 2 ^ kc) ≤ 4 * S + 2 ^ kc) :
    F32.roundCore s S 1 = F32.fin s mc kc := by
  obtain ⟨hm, -, hk253⟩ := hc
  obtain ⟨j, rfl⟩ : ∃ j, kc = j + 2 := ⟨kc - 2, by omega⟩
  have hp0 : (2 : Nat) ^ (j + 2) = 4 * 2 ^ j := by ring
  have hp1 : (2 : Nat) ^ (j + 1) = 2 * 2 ^ j := by ring
  have hp23 : (2 : Nat) ^ (23 + (j + 2)) = 33554432 * 2 ^ j := by ring
  have hp24 : (2 : Nat) ^ (24 + (j + 2)) = 67108864 * 2 ^ j := by ring
  have hq23 : (2 : Nat) ^ (23 + (j + 1)) = 16777216 * 2 ^ j := by ring
  have hq24 : (2 : Nat) ^ (24 + (j + 1)) = 33554432 * 2 ^ j := by ring
  have hu : 0 < 2 ^ j := by positivity
  have ht1 : 2 ^ 23 * 2 ^ j ≤ mc * 2 ^ j := Nat.mul_le_mul_right _ h23
  have ht2 : mc * 2 ^ j + 2 ^ j ≤ 2 ^ 24 * 2 ^ j := by
    have : (mc + 1) * 2 ^ j ≤ 2 ^ 24 * 2 ^ j := Nat.mul_le_mul_right _ (by omega)
    linarith
  have hC : mc * 2 ^ (j + 2) = 4 * (mc * 2 ^ j) := by rw [hp0]; ring
  rw [hC, hp0] at hup hdn hlow
  generalize hu' : 2 ^ j = u at *
  generalize ht' : mc * u = t at *
  norm_num at ht1 ht2
  by_cases hge : 4 * t ≤ S
  · -- at or above the value
    have hex : excess S = j + 2 := excess_eq (by rw [hp23]; omega) (by rw [hp24]; omega)
      (by omega)
    have hS : (S - 4 * t) + 2 ^ (j + 2) * mc = S := by
      rw [hp0, ← ht']; have : 4 * u * mc = 4 * (mc * u) := by ring
      omega
    rw [roundCore_units s hex hS (by rw [hp0]; omega)]
    have hno : ¬ (2 ^ (j + 2) < 2 * (S - 4 * t) ∨
        (2 * (S - 4 * t) = 2 ^ (j + 2) ∧ mc % 2 = 1)) := by
      rw [hp0]; omega
    rw [if_neg hno, if_neg (by omega), if_neg (by omega)]
  · by_cases hmin : mc = 2 ^ 23
    · -- just below the smallest significand of the binade
      have hl := hlow hmin
      have ht23 : t = 8388608 * u := by rw [← ht', hmin]; norm_num
      have hex : excess S = j + 1 := excess_eq (by rw [hq23]; omega) (by rw [hq24]; omega)
        (by omega)
      have hS : (S - 16777215 * (2 * u)) + 2 ^ (j + 1) * 16777215 = S := by
        rw [hp1]; omega
      rw [roundCore_units s hex hS (by rw [hp1]; omega)]
      have hyes : 2 ^ (j + 1) < 2 * (S - 16777215 * (2 * u)) ∨
          (2 * (S - 16777215 * (2 * u)) = 2 ^ (j + 1) ∧ 16777215 % 2 = 1) := by
        rw [hp1]; omega
      rw [if_pos hyes, if_pos (by norm_num), if_neg (by omega), hmin]
    · -- below the value, inside the binade
      have ht3 : 8388609 * u ≤ t := by
        rw [← ht']; exact Nat.mul_le_mul_right _ (by omega)
      have hex : excess S = j + 2 :=
        excess_eq (by rw [hp23]; omega) (by rw [hp24]; omega) (by omega)
      have hS : (S - (4 * t - 4 * u)) + 2 ^ (j + 2) * (mc - 1) = S := by
        rw [hp0, ← ht']
        have : 4 * u * (mc - 1) = 4 * (mc * u) - 4 * u := by
          rw [Nat.mul_sub, Nat.mul_one]; ring_nf
        omega
      rw [roundCore_units s hex hS (by rw [hp0]; omega)]
      have hyes : 2 ^ (j + 2) < 2 * (S - (4 * t - 4 * u)) ∨
          (2 * (S - (4 * t - 4 * u)) = 2 ^ (j + 2) ∧ (mc - 1) % 2 = 1) := by
        rw [hp0]; omega
      have hmc : mc - 1 + 1 = mc := by omega
      rw [if_pos hyes, hmc, if_neg (by omega), if_neg (by omega)]

theorem roundCore_scale (s : Bool) (N d c : Nat) (hc : 0 < c) :
    F32.roundCore s (N * c) (d * c) = F32.roundCore s N d := by
  unfold F32.roundCore
  have h1 : N * c / (d * c) = N / d := Nat.mul_div_mul_right _ _ hc
  simp only [h1]
  generalize excess (N / d) = e
  have h2 : d * c * 2 ^ e = d * 2 ^ e * c := by ring
  have h3 : N * c / (d * 2 ^ e * c) = N / (d * 2 ^ e) := Nat.mul_div_mul_right _ _ hc
  have h4 : N * c % (d * 2 ^ e * c) = N % (d * 2 ^ e) * c := Nat.mul_mod_mul_right _ _ _
  rw [h2, h3, h4]
  have h5 : (d * 2 ^ e * c < 2 * (N % (d * 2 ^ e) * c)) ↔ (d * 2 ^ e < 2 * (N % (d * 2 ^ e))) := by
    rw [← Nat.mul_assoc]
    exact Nat.mul_lt_mul_right hc
  have h6 : (2 * (N % (d * 2 ^ e) * c) = d * 2 ^ e * c) ↔ (2 * (N % (d * 2 ^ e)) = d * 2 ^ e) := by
    rw [← Nat.mul_assoc]
    exact Nat.mul_left_inj (by omega)
  simp only [h5, h6]

theorem excess_le {X k : Nat} (h : X < 2 ^ (24 + k)) (hk : k ≤ 1000) : excess X ≤ k := by
  rcases excess_spec_le X k h (by omega) with ⟨h0, -⟩ | ⟨-, h1, -⟩
  · omega
  · have := (Nat.pow_lt_pow_iff_right (a := 2) (by norm_num)).mp (lt_of_le_of_lt h1 h)
    omega

theorem roundCore_spec (s : Bool) {N d : Nat} (hd : 0 < d) (hq : N / d < 2 ^ 200) :
    ∃ M k, F32.roundCore s N d = F32.fin s M k ∧ Canon M k ∧
      2 * (M * 2 ^ k * d) ≤ 2 * N + d * 2 ^ excess (N / d) ∧
      2 * N ≤ 2 * (M * 2 ^ k * d) + d * 2 ^ excess (N / d) ∧
      (N % (d * 2 ^ excess (N / d)) = 0 → M * 2 ^ k * d = N) ∧
      2 ^ excess (N / d) ∣ M * 2 ^ k := by
  have he176 : excess (N / d) ≤ 176 := excess_le (by simpa using hq) (by omega)
  have hsp := excess_spec_le (N / d) 176 (by simpa using hq) (by omega)
  unfold F32.roundCore
  simp only
  generalize excess (N / d) = e at *
  have hD : 0 < d * 2 ^ e := by positivity
  have hdm := Nat.div_add_mod N (d * 2 ^ e)
  have hR := Nat.mod_lt N hD
  have hM0 : N / (d * 2 ^ e) = N / d / 2 ^ e := (Nat.div_div_eq_div_mul _ _ _).symm
  have hM0lt : N / (d * 2 ^ e) < 2 ^ 24 := by
    rw [hM0, Nat.div_lt_iff_lt_mul (by positivity)]
    rcases hsp with ⟨h0, h1⟩ | ⟨-, -, h2⟩
    · rw [h0]; simpa using h1
    · rw [pow_add] at h2; exact h2
  have hM0ge : e = 0 ∨ 2 ^ 23 ≤ N / (d * 2 ^ e) := by
    rcases hsp with ⟨h0, -⟩ | ⟨-, h1, -⟩
    · left; exact h0
    · right
      rw [hM0, Nat.le_div_iff_mul_le (by positivity)]
      rw [pow_add] at h1; exact h1
  generalize N / (d * 2 ^ e) = M0 at *
  generalize N % (d * 2 ^ e) = R at *
  have hval : ∀ M : Nat, M * 2 ^ e * d = d * 2 ^ e * M := fun M => by ring
  have hval2 : 2 ^ 23 * 2 ^ (e + 1) * d = d * 2 ^ e * 2 ^ 24 := by ring
  generalize hD' : d * 2 ^ e = D at *
  by_cases hup : D < 2 * R ∨ (2 * R = D ∧ M0 % 2 = 1)
  · rw [if_pos hup]
    have hupR : D ≤ 2 * R := by rcases hup with h | ⟨h, -⟩ <;> omega
    by_cases h24 : M0 + 1 = 2 ^ 24
    · rw [if_pos h24, if_neg (by omega)]
      refine ⟨2 ^ 23, e + 1, rfl, ⟨by norm_num, Or.inr (le_refl _), by omega⟩, ?_, ?_, ?_, ?_⟩
      · rw [hval2, ← h24, Nat.mul_add, Nat.mul_one]; omega
      · rw [hval2, ← h24, Nat.mul_add, Nat.mul_one]; omega
      · intro h0; omega
      · exact Dvd.dvd.mul_left (pow_dvd_pow 2 (by omega)) _
    · rw [if_neg h24, if_neg (by omega)]
      refine ⟨M0 + 1, e, rfl, ⟨by omega, by omega, by omega⟩, ?_, ?_, ?_, ?_⟩
      · rw [hval, Nat.mul_add, Nat.mul_one]; omega
      · rw [hval, Nat.mul_add, Nat.mul_one]; omega
      · intro h0; omega
      · exact Dvd.intro_left _ rfl
  · rw [if_neg hup]
    have hupR : 2 * R ≤ D := by
      by_contra hcon
      exact hup (Or.inl (by omega))
    rw [if_neg (by omega), if_neg (by omega)]
    refine ⟨M0, e, rfl, ⟨hM0lt, hM0ge, by omega⟩, ?_, ?_, ?_, ?_⟩
    · rw [hval]; omega
    · rw [hval]; omega
    · intro h0; rw [hval]; omega
    · exact Dvd.intro_left _ rfl

theorem round_units (s : Bool) (n : Nat) : F32.round s n (2 ^ 149) = F32.roundCore s n 1 := by
  unfold F32.round
  have h := roundCore_scale s n 1 (2 ^ 149) (by positivity)
  rw [Nat.one_mul] at h
  exact h

theorem add_fin (s t : Bool) (ma ka mb kb : Nat) :
    F32.add (F32.fin s ma ka) (F32.fin t mb kb) =
      if s = t then F32.roundCore s (ma * 2 ^ ka + mb * 2 ^ kb) 1
      else if ma * 2 ^ ka = mb * 2 ^ kb then F32.fin false 0 0
      else if mb * 2 ^ kb < ma * 2 ^ ka then F32.roundCore s (ma * 2 ^ ka - mb * 2 ^ kb) 1
      else F32.roundCore t (mb * 2 ^ kb - ma * 2 ^ ka) 1 := by
  have hA : ma * 2 ^ (ka - min ka kb) * 2 ^ min ka kb = ma * 2 ^ ka := by
    rw [Nat.mul_assoc, ← pow_add, Nat.sub_add_cancel (Nat.min_le_left _ _)]
  have hB : mb * 2 ^ (kb - min ka kb) * 2 ^ min ka kb = mb * 2 ^ kb := by
    rw [Nat.mul_assoc, ← pow_add, Nat.sub_add_cancel (Nat.min_le_right _ _)]
  have hp : 0 < 2 ^ min ka kb := by positivity
  unfold F32.add
  simp only [round_units]
  generalize ma * 2 ^ (ka - min ka kb) = A at *
  generalize mb * 2 ^ (kb - min ka kb) = B at *
  rw [← hA, ← hB]
  have e1 : (A + B) * 2 ^ min ka kb = A * 2 ^ min ka kb + B * 2 ^ min ka kb := Nat.add_mul _ _ _
  have e2 : (A - B) * 2 ^ min ka kb = A * 2 ^ min ka kb - B * 2 ^ min ka kb :=
    Nat.sub_mul _ _ _
  have e3 : (B - A) * 2 ^ min ka kb = B * 2 ^ min ka kb - A * 2 ^ min ka kb :=
    Nat.sub_mul _ _ _
  have e4 : (A * 2 ^ min ka kb = B * 2 ^ min ka kb) ↔ A = B := Nat.mul_left_inj (by omega)
  have e5 : (B * 2 ^ min ka kb < A * 2 ^ min ka kb) ↔ B < A := Nat.mul_lt_mul_right hp
  rw [e1, e2, e3]
  simp only [e4, e5]

theorem one_eq : F32.one = F32.fin false (2 ^ 23) 126 := by decide!

theorem mul_one_canon (s : Bool) {m k : Nat} (h : Canon m k) :
    F32.mul F32.one (F32.fin s m k) = F32.fin s m k := by
  rw [one_eq]
  show F32.round (xor false s) (2 ^ 23 * m * 2 ^ (126 + k)) (2 ^ 298) = _
  rw [Bool.false_xor]
  exact round_exact s (by positivity) (by ring) h

theorem canon_zero : Canon 0 0 := ⟨by norm_num, Or.inl rfl, by norm_num⟩

theorem sub_fin (s t : Bool) (ma ka mb kb : Nat) :
    F32.sub (F32.fin s ma ka) (F32.fin t mb kb)
      = F32.add (F32.fin s ma ka) (F32.fin (!t) mb kb) := rfl

theorem canon_lt {m k : Nat} (h : Canon m k) : m * 2 ^ k < 2 ^ (24 + k) := by
  rw [pow_add]
  exact Nat.mul_lt_mul_of_pos_right h.1 (by positivity)

/-- The saturation update of one channel at `saturation = 1`, on a channel value
`mc * 2^kc` with even significand and a non-negative `gray`: the result is the
channel value itself. -/
theorem sat_one_channel {mc kc mg kg : Nat} (hc : Canon mc kc) (h23 : 2 ^ 23 ≤ mc)
    (heven : mc % 2 = 0) (hk : 2 ≤ kc) (hC : mc * 2 ^ kc < 2 ^ 200)
    (hg : Canon mg kg) (hG : mg * 2 ^ kg < 2 ^ 200) (hdvd : 2 ^ kg ∣ mc * 2 ^ kc) :
    F32.add (F32.fin false mg kg)
        (F32.mul F32.one (F32.sub (F32.fin false mc kc) (F32.fin false mg kg)))
      = F32.fin false mc kc := by
  have hexact : F32.roundCore false (mc * 2 ^ kc) 1 = F32.fin false mc kc :=
    roundCore_exact false (by norm_num) (by ring) hc
  have hCpos : 0 < mc * 2 ^ kc := by positivity
  rw [sub_fin, add_fin]
  simp only [Bool.not_false, Bool.false_eq_true, if_false]
  generalize hCdef : mc * 2 ^ kc = C at *
  generalize hGdef : mg * 2 ^ kg = G at *
  by_cases h1 : C = G
  · rw [if_pos h1, mul_one_canon false canon_zero, add_fin]
    simp only [if_true, hGdef, Nat.zero_mul, Nat.add_zero]
    rw [← h1]; exact hexact
  · rw [if_neg h1]
    by_cases h2 : G < C
    · rw [if_pos h2]
      have hX : (C - G) / 1 < 2 ^ 200 := by rw [Nat.div_one]; omega
      obtain ⟨M, k, hr, hcan, hub, hlb, hex, -⟩ := roundCore_spec false (by norm_num) hX
      rw [hr, mul_one_canon false hcan, add_fin]
      simp only [if_true, hGdef]
      rw [Nat.div_one, Nat.one_mul, Nat.mul_one] at hub hlb hex
      have hCk : C < 2 ^ (24 + kc) := by rw [← hCdef]; exact canon_lt hc
      have he1 : excess (C - G) ≤ kc := excess_le (by omega) (by have := hc.2.2; omega)
      have hp1 : 2 ^ excess (C - G) ≤ 2 ^ kc := Nat.pow_le_pow_right (by norm_num) he1
      apply roundCore_near false hc h23 heven hk
      · rw [hCdef]; omega
      · rw [hCdef]; omega
      · intro hmin
        rw [hCdef]
        by_cases hmod : (C - G) % 2 ^ excess (C - G) = 0
        · have := hex hmod; omega
        · have hGpos : 0 < G := by
            by_contra hG0
            have hG0' : G = 0 := by omega
            apply hmod
            rw [hG0', Nat.sub_zero]
            have hdC : 2 ^ kc ∣ C := ⟨mc, by rw [← hCdef]; ring⟩
            exact Nat.mod_eq_zero_of_dvd (dvd_trans (pow_dvd_pow 2 (by
              rw [hG0', Nat.sub_zero] at he1; exact he1)) hdC)
          have hC23 : C = 2 ^ (24 + (kc - 1)) := by
            rw [← hCdef, hmin, ← pow_add]; congr 1; omega
          have he2 : excess (C - G) ≤ kc - 1 :=
            excess_le (by rw [← hC23]; omega) (by have := hc.2.2; omega)
          have hp2 : 2 * 2 ^ excess (C - G) ≤ 2 ^ kc := by
            have h := Nat.pow_le_pow_right (n := 2) (by norm_num) he2
            have : (2 : Nat) ^ kc = 2 * 2 ^ (kc - 1) := by
              rw [← pow_succ']; congr 1; omega
            omega
          omega
    · rw [if_neg h2]
      have hlt : C < G := by omega
      have hX : (G - C) / 1 < 2 ^ 200 := by rw [Nat.div_one]; omega
      obtain ⟨M, k, hr, hcan, -, -, hex, -⟩ := roundCore_spec true (by norm_num) hX
      rw [Nat.div_one, Nat.one_mul, Nat.mul_one] at hex
      have hGk : G < 2 ^ (24 + kg) := by rw [← hGdef]; exact canon_lt hg
      have he1 : excess (G - C) ≤ kg := excess_le (by omega) (by have := hg.2.2; omega)
      have hdG : 2 ^ kg ∣ G := ⟨mg, by rw [← hGdef]; ring⟩
      have hdX : 2 ^ excess (G - C) ∣ G - C :=
        dvd_trans (pow_dvd_pow 2 he1) (Nat.dvd_sub' hdG hdvd)
      have hV := hex (Nat.mod_eq_zero_of_dvd hdX)
      rw [hr, mul_one_canon true hcan, add_fin]
      simp only [Bool.false_eq_true, if_false, hGdef, hV]
      rw [if_neg (by omega), if_pos (by omega)]
      have : G - (G - C) = C := by omega
      rw [this]; exact hexact

/-! ## Saturation at parameter one on channel bytes -/

theorem ofNat_byte_ok : ∀ c : Byte, c.val ≠ 0 → byteFloatOk c.val (F32.ofNat c.val) = true := by
  decide!

theorem ofNat_zero : F32.ofNat 0 = F32.fin false 0 0 := by decide!

theorem mul_cR_ok : ∀ c : Byte, smallOk (cR * F32.ofNat c.val) = true := by decide!

theorem mul_cG_ok : ∀ c : Byte, smallOk (cG * F32.ofNat c.val) = true := by decide!

theorem mul_cB_ok : ∀ c : Byte, smallOk (cB * F32.ofNat c.val) = true := by decide!

theorem smallOk_elim {x : F32} (h : smallOk x = true) :
    ∃ m k, x = F32.fin false m k ∧ m < 2 ^ 24 ∧ (k = 0 ∨ 2 ^ 23 ≤ m) ∧ m * 2 ^ k < 2 ^ 160 := by
  match x, h with
  | F32.fin false m k, h =>
    simp only [smallOk, decide_eq_true_eq] at h
    exact ⟨m, k, rfl, h⟩

theorem byteFloatOk_elim {c : Nat} {x : F32} (h : byteFloatOk c x = true) :
    ∃ m k, x = F32.fin false m k ∧ m < 2 ^ 24 ∧ 2 ^ 23 ≤ m ∧ m % 2 = 0 ∧ 2 ≤ k ∧ k ≤ 149 ∧
      m * 2 ^ k = c * 2 ^ 149 := by
  match x, h with
  | F32.fin false m k, h =>
    simp only [byteFloatOk, decide_eq_true_eq] at h
    exact ⟨m, k, rfl, h⟩

theorem pow_excess_le {X : Nat} (h : X < 2 ^ 200) : 2 ^ excess X ≤ X + 1 := by
  rcases excess_spec_le X 176 (by simpa using h) (by omega) with ⟨h0, -⟩ | ⟨-, h1, -⟩
  · rw [h0]; simp
  · have : 2 ^ excess X ≤ 2 ^ (23 + excess X) :=
      Nat.pow_le_pow_right (by norm_num) (by omega)
    omega

theorem add_pos_spec (ma ka mb kb : Nat) (h : ma * 2 ^ ka + mb * 2 ^ kb < 2 ^ 200) :
    ∃ M k, F32.add (F32.fin false ma ka) (F32.fin false mb kb) = F32.fin false M k ∧
      Canon M k ∧ M * 2 ^ k ≤ 2 * (ma * 2 ^ ka + mb * 2 ^ kb) + 1 := by
  rw [add_fin, if_pos rfl]
  generalize ma * 2 ^ ka + mb * 2 ^ kb = N at *
  obtain ⟨M, k, hr, hcan, hub, -, -, -⟩ :=
    roundCore_spec false (N := N) (d := 1) (by norm_num) (by rw [Nat.div_one]; exact h)
  rw [Nat.div_one, Nat.one_mul, Nat.mul_one] at hub
  have := pow_excess_le h
  exact ⟨M, k, hr, hcan, by omega⟩

theorem gray_byte (r g b : Byte) :
    ∃ mg kg, cR * F32.ofNat r.val + cG * F32.ofNat g.val + cB * F32.ofNat b.val
        = F32.fin false mg kg ∧ Canon mg kg ∧ mg * 2 ^ kg < 2 ^ 173 := by
  obtain ⟨m1, k1, e1, -, -, b1⟩ := smallOk_elim (mul_cR_ok r)
  obtain ⟨m2, k2, e2, -, -, b2⟩ := smallOk_elim (mul_cG_ok g)
  obtain ⟨m3, k3, e3, -, -, b3⟩ := smallOk_elim (mul_cB_ok b)
  rw [e1, e2, e3]
  have p160 : (2 : Nat) ^ 160 * 2 ^ 13 = 2 ^ 173 := by norm_num
  have p200 : (2 : Nat) ^ 173 * 2 ^ 27 = 2 ^ 200 := by norm_num
  have q13 : (2 : Nat) ^ 13 = 8192 := by norm_num
  have q27 : (2 : Nat) ^ 27 = 134217728 := by norm_num
  generalize (2 : Nat) ^ 160 = P at *
  obtain ⟨M, k, hr, -, hb⟩ := add_pos_spec m1 k1 m2 k2
    (by rw [← p200, ← p160, q13, q27]; omega)
  change ∃ mg kg, F32.add (F32.add (F32.fin false m1 k1) (F32.fin false m2 k2))
    (F32.fin false m3 k3) = F32.fin false mg kg ∧ Canon mg kg ∧ mg * 2 ^ kg < 2 ^ 173
  rw [hr]
  obtain ⟨M2, kk, hr2, hcan2, hb2⟩ := add_pos_spec M k m3 k3
    (by rw [← p200, ← p160, q13, q27]; omega)
  exact ⟨M2, kk, hr2, hcan2, by rw [← p160, q13]; omega⟩

theorem sat_zero_channel {mg kg : Nat} (hg : Canon mg kg) :
    F32.add (F32.fin false mg kg)
        (F32.mul F32.one (F32.sub (F32.fin false 0 0) (F32.fin false mg kg)))
      = F32.fin false 0 0 := by
  have hz : F32.roundCore false 0 1 = F32.fin false 0 0 :=
    roundCore_exact false (by norm_num) (by norm_num) canon_zero
  rw [sub_fin, add_fin]
  simp only [Bool.not_false, Bool.false_eq_true, if_false, Nat.zero_mul]
  by_cases h0 : 0 = mg * 2 ^ kg
  · rw [if_pos h0, mul_one_canon false canon_zero, add_fin]
    simp only [if_true, Nat.zero_mul, Nat.add_zero, ← h0]
    exact hz
  · rw [if_neg h0, if_neg (by omega), Nat.sub_zero,
      roundCore_exact true (N := mg * 2 ^ kg) (d := 1) (by norm_num) (by ring) hg,
      mul_one_canon true hg, add_fin]
    simp

theorem sat_one_byte (c : Byte) {mg kg : Nat} (hg : Canon mg kg) (hG : mg * 2 ^ kg < 2 ^ 173) :
    F32.add (F32.fin false mg kg)
        (F32.mul F32.one (F32.sub (F32.ofNat c.val) (F32.fin false mg kg)))
      = F32.ofNat c.val := by
  by_cases hc : c.val = 0
  · rw [hc, ofNat_zero]
    exact sat_zero_channel hg
  · obtain ⟨m, k, e, h1, h2, h3, h4, h5, h6⟩ := byteFloatOk_elim (ofNat_byte_ok c hc)
    rw [e]
    have hkg : kg ≤ 149 := by
      rcases hg.2.1 with h | h
      · omega
      · have h7 : 2 ^ (23 + kg) ≤ mg * 2 ^ kg := by
          rw [pow_add]; exact Nat.mul_le_mul_right _ h
        have := (Nat.pow_lt_pow_iff_right (a := 2) (by norm_num)).mp (lt_of_le_of_lt h7 hG)
        omega
    have hC200 : m * 2 ^ k < 2 ^ 200 := by
      have hc256 : c.val < 256 := c.isLt
      rw [h6]
      calc c.val * 2 ^ 149 < 256 * 2 ^ 149 := Nat.mul_lt_mul_of_pos_right hc256 (by positivity)
        _ ≤ 2 ^ 200 := by norm_num
    apply sat_one_channel ⟨h1, Or.inr h2, by omega⟩ h2 h3 h4 hC200 hg
      (lt_of_lt_of_le hG (by norm_num))
    rw [h6]
    exact Dvd.dvd.mul_left (pow_dvd_pow 2 hkg) _

theorem apply_saturation_one_bytes (r g b : Byte) :
    apply_saturation F32.one ⟨F32.ofNat r.val, F32.ofNat g.val, F32.ofNat b.val⟩
      = ⟨F32.ofNat r.val, F32.ofNat g.val, F32.ofNat b.val⟩ := by
  obtain ⟨mg, kg, hgray, hcan, hG⟩ := gray_byte r g b
  unfold apply_saturation
  simp only [hgray]
  have hr := sat_one_byte r hcan hG
  have hg := sat_one_byte g hcan hG
  have hb := sat_one_byte b hcan hG
  show Rgb.mk (F32.add _ (F32.mul _ (F32.sub _ _))) (F32.add _ (F32.mul _ (F32.sub _ _)))
    (F32.add _ (F32.mul _ (F32.sub _ _))) = _
  rw [hr, hg, hb]

/-! ## The stages at parameter one -/

theorem mul_one_byte : ∀ c : Byte, F32.ofNat c.val * F32.one = F32.ofNat c.val := by decide!

theorem mul_zero_byte : ∀ c : Byte, F32.ofNat c.val * c0 = c0 := by decide!

theorem add_zero_byte : ∀ c : Byte, F32.ofNat c.val + c0 = F32.ofNat c.val := by decide!

theorem zero_add_byte : ∀ c : Byte, c0 + F32.ofNat c.val = F32.ofNat c.val := by decide!

theorem zero_add_zero : c0 + c0 = c0 := by decide!

theorem channel_identity : ∀ c : Byte,
    clamp (((((F32.ofNat c.val / c255 - cHalf) * F32.one + cHalf) * c255) / c255) * c255)
      = some (identityByte c) := by decide!

theorem apply_matrix_identity_bytes (r g b : Byte) :
    apply_matrix identityMatrix ⟨F32.ofNat r.val, F32.ofNat g.val, F32.ofNat b.val⟩
      = ⟨F32.ofNat r.val, F32.ofNat g.val, F32.ofNat b.val⟩ := by
  unfold apply_matrix identityMatrix
  simp only [mul_one_byte, mul_zero_byte, add_zero_byte, zero_add_byte, zero_add_zero]

theorem apply_brightness_one_bytes (r g b : Byte) :
    apply_brightness F32.one ⟨F32.ofNat r.val, F32.ofNat g.val, F32.ofNat b.val⟩
      = ⟨F32.ofNat r.val, F32.ofNat g.val, F32.ofNat b.val⟩ := by
  unfold apply_brightness
  simp only [mul_one_byte]

/-- Downstream of brightness: once the working triple holds three channel bytes,
saturation, contrast and gamma at parameter one followed by the clamp write
`identityByte` of each. -/
theorem clamp_after_unit_stages (powf : F32 → F32 → F32) (hpow : ∀ x, powf x F32.one = x)
    (r g b : Byte) :
    (apply_gamma powf F32.one (apply_contrast F32.one (apply_saturation F32.one
        ⟨F32.ofNat r.val, F32.ofNat g.val, F32.ofNat b.val⟩))).r
      = ((((F32.ofNat r.val / c255 - cHalf) * F32.one + cHalf) * c255) / c255) * c255 ∧
    (apply_gamma powf F32.one (apply_contrast F32.one (apply_saturation F32.one
        ⟨F32.ofNat r.val, F32.ofNat g.val, F32.ofNat b.val⟩))).g
      = ((((F32.ofNat g.val / c255 - cHalf) * F32.one + cHalf) * c255) / c255) * c255 ∧
    (apply_gamma powf F32.one (apply_contrast F32.one (apply_saturation F32.one
        ⟨F32.ofNat r.val, F32.ofNat g.val, F32.ofNat b.val⟩))).b
      = ((((F32.ofNat b.val / c255 - cHalf) * F32.one + cHalf) * c255) / c255) * c255 := by
  rw [apply_saturation_one_bytes]
  unfold apply_gamma apply_contrast
  simp only [hpow, and_self]

theorem pixelOut_of_bytes (powf : F32 → F32 → F32) (hpow : ∀ x, powf x F32.one = x)
    (ps : Preset) (hs : ps.saturation = F32.one) (hc : ps.contrast = F32.one)
    (hg : ps.gamma = F32.one) (r g b r1 g1 b1 : Byte)
    (hb : apply_brightness ps.brightness (apply_matrix ps.matrix
        ⟨F32.ofNat r.val, F32.ofNat g.val, F32.ofNat b.val⟩)
      = ⟨F32.ofNat r1.val, F32.ofNat g1.val, F32.ofNat b1.val⟩) :
    pixelOut powf ps r g b = some (identityByte r1, identityByte g1, identityByte b1) := by
  unfold pixelOut pipeline
  rw [hb, hs, hc, hg]
  obtain ⟨e1, e2, e3⟩ := clamp_after_unit_stages powf hpow r1 g1 b1
  rw [e1, e2, e3, channel_identity, channel_identity, channel_identity]
  rfl

theorem pixelOut_identity (powf : F32 → F32 → F32) (hpow : ∀ x, powf x F32.one = x)
    (r g b : Byte) :
    pixelOut powf identityPreset r g b
      = some (identityByte r, identityByte g, identityByte b) :=
  pixelOut_of_bytes powf hpow identityPreset (by simp only [identityPreset])
    (by simp only [identityPreset]) (by simp only [identityPreset]) r g b r g b
    (by
      simp only [identityPreset]
      rw [apply_matrix_identity_bytes, apply_brightness_one_bytes])

/-! ## The channel clamp -/

theorem c0_eq : c0 = F32.fin false 0 0 := by decide!

theorem c255_eq : c255 = F32.fin false 16711680 133 := by decide!

theorem lt_c0_neg (m k : Nat) : F32.lt (F32.fin true m k) c0 = decide (0 < m * 2 ^ k) := by
  rw [c0_eq]
  show decide (0 < m * 2 ^ k ∨ 0 < 0 * 2 ^ 0) = _
  simp

theorem lt_c0_pos (m k : Nat) : F32.lt (F32.fin false m k) c0 = false := by
  rw [c0_eq]
  show decide (m * 2 ^ k < 0 * 2 ^ 0) = _
  simp

theorem c255_lt_neg (m k : Nat) : F32.lt c255 (F32.fin true m k) = false := by
  rw [c255_eq]
  rfl

theorem c255_lt_pos (m k : Nat) :
    F32.lt c255 (F32.fin false m k) = decide (255 * 2 ^ 149 < m * 2 ^ k) := by
  rw [c255_eq]
  show decide (16711680 * 2 ^ 133 < m * 2 ^ k) = _
  have key : (16711680 * 2 ^ 133 : Nat) = 255 * 2 ^ 149 := by norm_num
  rw [key]

theorem clamp_fin_neg (m k : Nat) :
    clamp (F32.fin true m k) = some 0 := by
  unfold clamp
  rw [lt_c0_neg, c255_lt_neg]
  by_cases hA : 0 < m * 2 ^ k
  · rw [if_pos (by simpa using hA)]
  · have h0 : m * 2 ^ k = 0 := by omega
    rw [if_neg (by simpa using hA), if_neg (by simp)]
    unfold F32.toUInt8
    simp only [h0, Nat.zero_div]
    rfl

theorem clamp_fin_pos (m k : Nat) :
    ∃ b : Byte, clamp (F32.fin false m k) = some b ∧
      b.val = if 255 * 2 ^ 149 < m * 2 ^ k then 255 else m * 2 ^ k / 2 ^ 149 := by
  unfold clamp
  rw [lt_c0_pos, c255_lt_pos]
  by_cases hA : 255 * 2 ^ 149 < m * 2 ^ k
  · refine ⟨255, ?_, ?_⟩
    · rw [if_neg (by simp), if_pos (by simpa using hA)]
    · rw [if_pos hA]; rfl
  · have h1 : m * 2 ^ k / 2 ^ 149 < 256 := by
      rw [Nat.div_lt_iff_lt_mul (by positivity)]
      have : (256 : Nat) * 2 ^ 149 = 255 * 2 ^ 149 + 2 ^ 149 := by ring
      have : 0 < 2 ^ 149 := by positivity
      omega
    refine ⟨⟨m * 2 ^ k / 2 ^ 149, h1⟩, ?_, ?_⟩
    · rw [if_neg (by simp), if_neg (by simpa using hA)]
      unfold F32.toUInt8
      simp only [h1, dite_true]
      simp
    · rw [if_neg hA]

theorem toRat_fin_false (m k : Nat) :
    (F32.fin false m k).toRat = ((m * 2 ^ k : Nat) : ℚ) / ((2 ^ 149 : Nat) : ℚ) := by
  show (if false = true then (-1 : ℚ) else 1) * _ = _
  rw [if_neg (by decide)]
  push_cast
  ring

theorem toRat_fin_true (m k : Nat) :
    (F32.fin true m k).toRat = -(((m * 2 ^ k : Nat) : ℚ) / ((2 ^ 149 : Nat) : ℚ)) := by
  show (if true = true then (-1 : ℚ) else 1) * _ = _
  rw [if_pos rfl]
  push_cast
  ring

theorem clamp_fin (s : Bool) (m k : Nat) :
    ∃ b : Byte, clamp (F32.fin s m k) = some b ∧
      (b.val : ℤ) = if (F32.fin s m k).toRat < 0 then 0
        else if 255 < (F32.fin s m k).toRat then 255
        else truncToZero (F32.fin s m k).toRat := by
  have hP : (0 : ℚ) < ((2 ^ 149 : Nat) : ℚ) := by positivity
  cases s with
  | true =>
    refine ⟨0, clamp_fin_neg m k, ?_⟩
    rw [toRat_fin_true]
    generalize m * 2 ^ k = A
    have hq : (0 : ℚ) ≤ (A : ℚ) / ((2 ^ 149 : Nat) : ℚ) := by positivity
    by_cases hA : A = 0
    · subst hA
      have hz : -(((0 : Nat) : ℚ) / ((2 ^ 149 : Nat) : ℚ)) = 0 := by simp
      rw [hz, if_neg (lt_irrefl _), if_neg (by norm_num)]
      simp [truncToZero]
    · have hpos : (0 : ℚ) < (A : ℚ) / ((2 ^ 149 : Nat) : ℚ) := by
        have : (0 : ℚ) < (A : ℚ) := by exact_mod_cast Nat.pos_of_ne_zero hA
        positivity
      rw [if_pos (by linarith)]
      rfl
  | false =>
    obtain ⟨b, hb, hv⟩ := clamp_fin_pos m k
    refine ⟨b, hb, ?_⟩
    rw [toRat_fin_false, hv]
    generalize m * 2 ^ k = A
    have hq : (0 : ℚ) ≤ (A : ℚ) / ((2 ^ 149 : Nat) : ℚ) := by positivity
    have hiff : (255 : ℚ) < (A : ℚ) / ((2 ^ 149 : Nat) : ℚ) ↔ 255 * 2 ^ 149 < A := by
      rw [lt_div_iff₀ hP]
      constructor
      · intro h; exact_mod_cast h
      · intro h; exact_mod_cast h
    by_cases hA : 255 * 2 ^ 149 < A
    · rw [if_pos hA, if_neg (not_lt.mpr hq), if_pos (hiff.mpr hA)]; rfl
    · rw [if_neg hA, if_neg (not_lt.mpr hq), if_neg (fun h => hA (hiff.mp h))]
      unfold truncToZero
      rw [if_pos hq, Rat.floor_natCast_div_natCast]
      push_cast
      rfl

/-! ## Presets with unit parameters -/

theorem powfRef_one (x : F32) : powfRef x F32.one = x := by
  unfold powfRef
  rw [if_pos rfl]

theorem pixelAt_isSome (px : List Byte) (i : Nat) (h : 4 * i + 2 < px.length) :
    ∃ o, pixelAt px i = some o := by
  unfold pixelAt
  rw [List.getElem?_eq_getElem (by omega : 4 * i < px.length),
    List.getElem?_eq_getElem (by omega : 4 * i + 1 < px.length),
    List.getElem?_eq_getElem h]
  exact ⟨_, rfl⟩

theorem applyPreset_single (powf : F32 → F32 → F32) (ps : Preset) (r g b a : Byte) :
    applyPreset powf [r, g, b, a] 1 1 ps
      = (pixelOut powf ps r g b).map (fun o => [o.1, o.2.1, o.2.2, a]) := by
  unfold applyPreset
  rw [sequentialLoop_eq_runFrom]
  have h1 : (wrap32 (1 * 1)).toNat = 1 := by decide
  rw [h1]
  simp only [runFrom]
  have h0 : wrap32 (0 * 4) = wrap32 (((0 : Nat) : Int) * 4) := rfl
  rw [h0, processPixel_at powf ps [r, g, b, a] 0 (by simp) (by simp)]
  cases h : pixelOut powf ps r g b with
  | none => simp [pixelAt, pixelOut3, h]
  | some o => simp [pixelAt, pixelOut3, h, setPixel]

theorem apply_brightness_eq (k x y z : F32) :
    apply_brightness k ⟨x, y, z⟩ = ⟨x * k, y * k, z * k⟩ := rfl

theorem pixelOut_brightness (powf : F32 → F32 → F32) (brightness : F32) (r g b : Byte) :
    pixelOut powf (brightnessPreset brightness) r g b
      = unitStages powf (F32.ofNat r.val * brightness) (F32.ofNat g.val * brightness)
          (F32.ofNat b.val * brightness) := by
  have e1 : (brightnessPreset brightness).matrix = identityMatrix := by
    simp only [brightnessPreset]
  have e2 : (brightnessPreset brightness).brightness = brightness := by
    simp only [brightnessPreset]
  have e3 : (brightnessPreset brightness).saturation = F32.one := by
    simp only [brightnessPreset]
  have e4 : (brightnessPreset brightness).contrast = F32.one := by
    simp only [brightnessPreset]
  have e5 : (brightnessPreset brightness).gamma = F32.one := by
    simp only [brightnessPreset]
  unfold pixelOut pipeline unitStages
  rw [e1, e2, e3, e4, e5, apply_matrix_identity_bytes, apply_brightness_eq]

theorem ofNat_byte_small : ∀ c : Byte, smallOk (F32.ofNat c.val) = true := by decide!

theorem mul_zero_fin (s : Bool) (m k : Nat) :
    F32.mul c0 (F32.fin s m k) = F32.fin s 0 0 := by
  rw [c0_eq]
  show F32.round (xor false s) (0 * m * 2 ^ (0 + k)) (2 ^ 298) = _
  rw [Bool.false_xor]
  exact round_exact s (by positivity) (by simp only [Nat.zero_mul]) canon_zero

theorem add_signed_zero (s : Bool) {mg kg : Nat} (hg : Canon mg kg) :
    F32.add (F32.fin false mg kg) (F32.fin s 0 0) = F32.fin false mg kg := by
  have hexact : F32.roundCore false (mg * 2 ^ kg) 1 = F32.fin false mg kg :=
    roundCore_exact false (by norm_num) (by ring) hg
  rw [add_fin]
  simp only [Nat.zero_mul, Nat.add_zero, Nat.sub_zero]
  cases s with
  | false => simpa using hexact
  | true =>
    simp only [Bool.false_eq_true, if_false]
    by_cases h0 : mg * 2 ^ kg = 0
    · rw [if_pos h0]
      have hm : mg = 0 := by
        rcases Nat.mul_eq_zero.mp h0 with h | h
        · exact h
        · exact absurd h (by positivity)
      have hk : kg = 0 := by
        rcases hg.2.1 with h | h
        · exact h
        · rw [hm] at h; norm_num at h
      rw [hm, hk]
    · rw [if_neg h0, if_pos (Nat.pos_of_ne_zero h0)]
      exact hexact

theorem sub_fin_spec (ma ka mb kb : Nat) (ha : ma * 2 ^ ka < 2 ^ 199)
    (hb : mb * 2 ^ kb < 2 ^ 199) :
    ∃ s M k, F32.sub (F32.fin false ma ka) (F32.fin false mb kb) = F32.fin s M k := by
  rw [sub_fin, add_fin]
  simp only [Bool.not_false, Bool.false_eq_true, if_false]
  by_cases h1 : ma * 2 ^ ka = mb * 2 ^ kb
  · rw [if_pos h1]; exact ⟨false, 0, 0, rfl⟩
  · rw [if_neg h1]
    by_cases h2 : mb * 2 ^ kb < ma * 2 ^ ka
    · rw [if_pos h2]
      obtain ⟨M, k, hr, -⟩ := roundCore_spec false (N := ma * 2 ^ ka - mb * 2 ^ kb) (d := 1)
        (by norm_num) (by rw [Nat.div_one]; omega)
      exact ⟨false, M, k, hr⟩
    · rw [if_neg h2]
      obtain ⟨M, k, hr, -⟩ := roundCore_spec true (N := mb * 2 ^ kb - ma * 2 ^ ka) (d := 1)
        (by norm_num) (by rw [Nat.div_one]; omega)
      exact ⟨true, M, k, hr⟩

theorem sat_zero_byte (c : Byte) {mg kg : Nat} (hg : Canon mg kg) (hG : mg * 2 ^ kg < 2 ^ 173) :
    F32.add (F32.fin false mg kg)
        (F32.mul c0 (F32.sub (F32.ofNat c.val) (F32.fin false mg kg)))
      = F32.fin false mg kg := by
  obtain ⟨m, k, e, -, -, hb⟩ := smallOk_elim (ofNat_byte_small c)
  rw [e]
  obtain ⟨s, M, kk, hs⟩ := sub_fin_spec m k mg kg
    (lt_of_lt_of_le hb (by norm_num)) (lt_of_lt_of_le hG (by norm_num))
  rw [hs, mul_zero_fin, add_signed_zero s hg]

theorem apply_saturation_zero_bytes (r g b : Byte) :
    apply_saturation c0 ⟨F32.ofNat r.val, F32.ofNat g.val, F32.ofNat b.val⟩
      = ⟨cR * F32.ofNat r.val + cG * F32.ofNat g.val + cB * F32.ofNat b.val,
         cR * F32.ofNat r.val + cG * F32.ofNat g.val + cB * F32.ofNat b.val,
         cR * F32.ofNat r.val + cG * F32.ofNat g.val + cB * F32.ofNat b.val⟩ := by
  obtain ⟨mg, kg, hgray, hcan, hG⟩ := gray_byte r g b
  unfold apply_saturation
  simp only [hgray]
  have hr := sat_zero_byte r hcan hG
  have hg := sat_zero_byte g hcan hG
  have hb := sat_zero_byte b hcan hG
  show Rgb.mk (F32.add _ (F32.mul _ (F32.sub _ _))) (F32.add _ (F32.mul _ (F32.sub _ _)))
    (F32.add _ (F32.mul _ (F32.sub _ _))) = _
  rw [hr, hg, hb]

theorem pixel_in_bounds {width height : Int} {len i : Nat}
    (hlen : 4 * width * height ≤ len) (hi : (i : Int) < width * height) : 4 * i + 2 < len := by
  rw [Int.mul_assoc] at hlen
  generalize width * height = n at hlen hi
  omega

theorem pixelOut3_identity (powf : F32 → F32 → F32) (hpow : ∀ x, powf x F32.one = x)
    (o : Byte × Byte × Byte) : pixelOut3 powf identityPreset o = some (identityByte3 o) :=
  pixelOut_identity powf hpow o.1 o.2.1 o.2.2

theorem half_products :
    F32.ofNat 100 * cHalf = F32.ofNat 50 ∧ F32.ofNat 150 * cHalf = F32.ofNat 75 ∧
      F32.ofNat 200 * cHalf = F32.ofNat 100 := by decide!

/-! ## Index ranges, traces and further stages -/

theorem runFrom_tracePixel (f : Int → Int) :
    ∀ (n : Nat) (lo : Int) (log : List Int),
      runFrom (fun i s => tracePixel (f i) s) n lo log
        = some (log ++ (List.range n).map (fun i : Nat => f (lo + (i : Int)))) := by
  intro n
  induction n with
  | zero => intro lo log; simp [runFrom]
  | succ n ih =>
    intro lo log
    have h0 : tracePixel (f lo) log = some (log ++ [f lo]) := rfl
    simp only [runFrom, h0, Option.some_bind]
    rw [ih, List.range_succ_eq_map]
    simp only [List.map_cons, List.map_map, List.append_assoc, List.singleton_append]
    congr 3
    · simp
    · apply List.map_congr_left
      intro i _
      simp only [Function.comp]
      congr 1
      push_cast
      omega

theorem loops_of_total_nonpos {σ : Type} (pixel : Int → σ → Option σ) (width height : Int)
    (s : σ) (h : wrap32 (width * height) ≤ 0) :
    sequentialLoop pixel width height s = some s ∧ groupedLoop pixel width height s = some s := by
  have h1 : sequentialLoop pixel width height s = some s := by
    rw [sequentialLoop_eq_runFrom]
    have : (wrap32 (width * height)).toNat = 0 := by omega
    rw [this]
    rfl
  exact ⟨h1, by rw [groupedLoop_eq_sequentialLoop, h1]⟩

theorem tmod_four_of_nonpos {t : Int} (h : t ≤ 0) :
    Int.tmod t 4 ≤ 0 ∧ -3 ≤ Int.tmod t 4 ∧ t ≤ t - Int.tmod t 4 ∧ t - Int.tmod t 4 ≤ 0 := by
  have ht : Int.tmod t 4 = t + 4 * ((-t) / 4) := by
    rw [Int.tmod_def]
    have e1 := Int.neg_tdiv t 4
    have e2 := Int.tdiv_eq_ediv (a := -t) (b := 4) (by omega) (by omega)
    omega
  omega

theorem processPixel_at_lt (powf : F32 → F32 → F32) (ps : Preset) (px : List Byte)
    (i : Nat) (h : 4 * i + 2 < px.length) (hb : 4 * i + 2 < 2 ^ 31) :
    processPixel powf ps (wrap32 ((i : Int) * 4)) px
      = ((pixelAt px i).bind (pixelOut3 powf ps)).map (setPixel px (4 * i)) := by
  have g0 : px[4 * i]? = some px[4 * i] := List.getElem?_eq_getElem (by omega)
  have g1 : px[4 * i + 1]? = some px[4 * i + 1] := List.getElem?_eq_getElem (by omega)
  have g2 : px[4 * i + 2]? = some px[4 * i + 2] := List.getElem?_eq_getElem (by omega)
  have hb2 : ((4 * i + 2 : Nat) : Int) < 2 ^ 31 := by exact_mod_cast hb
  have w0 : wrap32 ((i : Int) * 4) = ((4 * i : Nat) : Int) := by
    rw [wrap32_eq_self (by push_cast at hb2; omega) (by push_cast at hb2; omega)]
    push_cast; ring
  have w1 : wrap32 (((4 * i : Nat) : Int) + 1) = ((4 * i + 1 : Nat) : Int) := by
    rw [wrap32_eq_self (by push_cast at hb2 ⊢; omega) (by push_cast at hb2 ⊢; omega)]
    push_cast; rfl
  have w2 : wrap32 (((4 * i : Nat) : Int) + 2) = ((4 * i + 2 : Nat) : Int) := by
    rw [wrap32_eq_self (by push_cast at hb2 ⊢; omega) (by push_cast at hb2 ⊢; omega)]
    push_cast; rfl
  clear hb2
  rw [w0]
  unfold processPixel pixelAt
  simp only [w1, w2, readByte_natCast, g0, g1, g2, Option.bind_eq_bind, Option.some_bind,
    Option.map_some']
  exact writeBack_shape px (4 * i) (4 * i + 1) (4 * i + 2) _ (by omega) (by omega) (by omega)

theorem runFrom_pixels_lt (powf : F32 → F32 → F32) (ps : Preset) :
    ∀ (m lo : Nat) (px : List Byte), 4 * (lo + m) ≤ px.length → 4 * (lo + m) ≤ 2 ^ 31 →
      ((∀ i, lo ≤ i → i < lo + m → ((pixelAt px i).bind (pixelOut3 powf ps)).isSome) →
        (runFrom (fun i s => processPixel powf ps (wrap32 (i * 4)) s) m (lo : Int) px).isSome) ∧
      ∀ out, runFrom (fun i s => processPixel powf ps (wrap32 (i * 4)) s) m (lo : Int) px
          = some out →
        out.length = px.length ∧
        (∀ j, j < 4 * lo ∨ 4 * (lo + m) ≤ j → out[j]? = px[j]?) ∧
        ∀ i, lo ≤ i → i < lo + m →
          pixelAt out i = (pixelAt px i).bind (pixelOut3 powf ps) := by
  intro m
  induction m with
  | zero =>
    intro lo px _ _
    refine ⟨fun _ => rfl, fun out h => ?_⟩
    simp only [runFrom, Option.some.injEq] at h
    subst h
    exact ⟨rfl, fun _ _ => rfl, fun i h1 h2 => by omega⟩
  | succ m ih =>
    intro lo px hlen hsz
    have hcast : (lo : Int) + 1 = ((lo + 1 : Nat) : Int) := by push_cast; rfl
    simp only [runFrom]
    rw [processPixel_at_lt powf ps px lo (by omega) (by omega), hcast]
    constructor
    · intro hall
      obtain ⟨o, ho⟩ := Option.isSome_iff_exists.mp (hall lo (le_refl _) (by omega))
      rw [ho]
      simp only [Option.map_some', Option.some_bind]
      refine (ih (lo + 1) (setPixel px (4 * lo) o) (by rw [setPixel_length]; omega)
        (by omega)).1 (fun i hi1 hi2 => ?_)
      rw [pixelAt_setPixel_of_ne _ _ _ _ (by omega)]
      exact hall i (by omega) (by omega)
    · intro out h
      cases ho : (pixelAt px lo).bind (pixelOut3 powf ps) with
      | none => rw [ho] at h; simp at h
      | some o =>
        rw [ho] at h
        simp only [Option.map_some', Option.some_bind] at h
        obtain ⟨h1, h2, h3⟩ := (ih (lo + 1) (setPixel px (4 * lo) o)
          (by rw [setPixel_length]; omega) (by omega)).2 out h
        refine ⟨by rw [h1, setPixel_length], fun j hj => ?_, fun i hi1 hi2 => ?_⟩
        · rw [h2 j (by omega), setPixel_getElem?_of_ne _ _ _ _ (by omega)]
        · by_cases hil : i = lo
          · subst hil
            rw [ho, pixelAt_congr _ _ _ (fun j hj => h2 j (Or.inl hj))]
            exact pixelAt_setPixel_self px i o (by omega)
          · rw [h3 i (by omega) (by omega), pixelAt_setPixel_of_ne _ _ _ _ hil]

theorem applyPreset_range (powf : F32 → F32 → F32) (pixels : List Byte)
    (width height : Int) (ps : Preset) (hw : 0 ≤ width) (hh : 0 ≤ height)
    (hlen : 4 * width * height ≤ pixels.length) (hr : 4 * width * height ≤ 2 ^ 31) :
    ((∀ i : Nat, (i : Int) < width * height →
        ((pixelAt pixels i).bind (pixelOut3 powf ps)).isSome) →
      (applyPreset powf pixels width height ps).isSome) ∧
    ∀ out, applyPreset powf pixels width height ps = some out →
      out.length = pixels.length ∧
      (∀ j : Nat, 4 * width * height ≤ (j : Int) → out[j]? = pixels[j]?) ∧
      ∀ i : Nat, (i : Int) < width * height →
        pixelAt out i = (pixelAt pixels i).bind (pixelOut3 powf ps) := by
  have hnn : 0 ≤ width * height := Int.mul_nonneg hw hh
  unfold applyPreset
  rw [sequentialLoop_eq_runFrom]
  simp only [Int.mul_assoc] at hlen hr ⊢
  generalize width * height = t at hlen hr hnn ⊢
  obtain ⟨n, rfl⟩ : ∃ n : Nat, t = (n : Int) := ⟨t.toNat, by omega⟩
  have hn4 : 4 * (0 + n) ≤ pixels.length := by omega
  have hn31 : 4 * (0 + n) ≤ 2 ^ 31 := by omega
  have hwrap : (wrap32 (n : Int)).toNat = n := by
    rw [wrap32_eq_self (by omega) (by omega)]
    rfl
  clear hr hlen
  rw [hwrap]
  have hzero : (0 : Int) = ((0 : Nat) : Int) := rfl
  rw [hzero]
  obtain ⟨h1, h2⟩ := runFrom_pixels_lt powf ps n 0 pixels hn4 hn31
  constructor
  · intro hall
    exact h1 (fun i _ hi => hall i (by exact_mod_cast (by omega : i < n)))
  · intro out hout
    obtain ⟨e1, e2, e3⟩ := h2 out hout
    refine ⟨e1, fun j hj => e2 j (Or.inr (by omega)), fun i hi => e3 i (by omega) ?_⟩
    have : i < n := by exact_mod_cast hi
    omega

theorem applyPresetOptimized_eq (powf : F32 → F32 → F32) (pixels : List Byte)
    (width height : Int) (ps : Preset) :
    applyPresetOptimized powf pixels width height ps
      = applyPreset powf pixels width height ps :=
  groupedLoop_eq_sequentialLoop (processPixel powf ps) width height pixels

theorem runFrom_fail_last {σ : Type} (body : Int → σ → Option σ) (n : Nat) (s : σ)
    (h : ∀ s1, body (n : Int) s1 = none) : runFrom body (n + 1) 0 s = none := by
  rw [runFrom_add]
  cases runFrom body n 0 s with
  | none => rfl
  | some s1 =>
    simp only [Option.some_bind, runFrom, Int.zero_add, h]
    rfl

theorem readByte_neg (px : List Byte) {i : Int} (h : i < 0) : readByte px i = none := by
  unfold readByte
  rw [if_neg (by omega)]

theorem processPixel_neg (powf : F32 → F32 → F32) (ps : Preset) (px : List Byte) {idx : Int}
    (h : idx < 0) : processPixel powf ps idx px = none := by
  unfold processPixel
  rw [readByte_neg px h]
  rfl

theorem preset_pixels_of_map (powf : F32 → F32 → F32) (ps : Preset)
    (f : Byte × Byte × Byte → Byte × Byte × Byte)
    (hf : ∀ o, pixelOut3 powf ps o = some (f o))
    (pixels : List Byte) (width height : Int) (hw : 0 ≤ width) (hh : 0 ≤ height)
    (hlen : 4 * width * height ≤ pixels.length) (hr : 4 * width * height ≤ 2 ^ 31) :
    ∃ out, applyPreset powf pixels width height ps = some out ∧
      out.length = pixels.length ∧
      ∀ i : Nat, (i : Int) < width * height →
        pixelAt out i = (pixelAt pixels i).map f ∧
          out[4 * i + 3]? = pixels[4 * i + 3]? := by
  obtain ⟨hsome, hpt⟩ := applyPreset_range powf pixels width height ps hw hh hlen hr
  have hbind : ∀ i : Nat, (pixelAt pixels i).bind (pixelOut3 powf ps)
      = (pixelAt pixels i).map f := by
    intro i
    cases pixelAt pixels i with
    | none => rfl
    | some o => exact hf o
  have hdef : (applyPreset powf pixels width height ps).isSome := by
    apply hsome
    intro i hi
    obtain ⟨o, ho⟩ := pixelAt_isSome pixels i (pixel_in_bounds hlen hi)
    rw [hbind, ho]
    rfl
  obtain ⟨out, hout⟩ := Option.isSome_iff_exists.mp hdef
  have ha := applyPreset_alphaSame hout
  refine ⟨out, hout, ha.1, fun i hi => ⟨?_, ha.2 (4 * i + 3) (by omega)⟩⟩
  rw [(hpt out hout).2.2 i hi, hbind]

theorem contrast_one_high : ∀ c : Byte, c.val = 0 ∨ 64 ≤ c.val →
    contrastFormula c255 cHalf F32.one (F32.ofNat c.val) = F32.ofNat c.val := by decide!

theorem gamma_one_byte : ∀ c : Byte, F32.ofNat c.val / c255 * c255 = F32.ofNat c.val := by
  decide!

theorem white_unit : F32.ofNat (255 : Byte).val / c255 = F32.one ∧
    F32.one * c255 = F32.ofNat (255 : Byte).val ∧
    clamp (F32.ofNat (255 : Byte).val) = some 255 := by decide!

theorem apply_contrast_eq (k x y z : F32) :
    apply_contrast k ⟨x, y, z⟩
      = ⟨contrastFormula c255 cHalf k x, contrastFormula c255 cHalf k y,
         contrastFormula c255 cHalf k z⟩ := rfl

theorem apply_gamma_eq (powf : F32 → F32 → F32) (k x y z : F32) :
    apply_gamma powf k ⟨x, y, z⟩
      = ⟨powf (x / c255) k * c255, powf (y / c255) k * c255, powf (z / c255) k * c255⟩ := rfl

theorem pixelOut_white (powf : F32 → F32 → F32) (gamma : F32)
    (hpow : powf F32.one gamma = F32.one) :
    pixelOut powf (gammaPreset gamma) 255 255 255 = some (255, 255, 255) := by
  have e1 : (gammaPreset gamma).matrix = identityMatrix := by simp only [gammaPreset]
  have e2 : (gammaPreset gamma).brightness = F32.one := by simp only [gammaPreset]
  have e3 : (gammaPreset gamma).saturation = F32.one := by simp only [gammaPreset]
  have e4 : (gammaPreset gamma).contrast = F32.one := by simp only [gammaPreset]
  have e5 : (gammaPreset gamma).gamma = gamma := by simp only [gammaPreset]
  unfold pixelOut pipeline
  rw [e1, e2, e3, e4, e5, apply_matrix_identity_bytes, apply_brightness_one_bytes, apply_saturation_one_bytes,
    apply_contrast_eq, contrast_one_high 255 (Or.inr (by decide)), apply_gamma_eq]
  rw [white_unit.1, hpow, white_unit.2.1, white_unit.2.2]
  rfl

theorem double_rows : ∀ c : Byte,
    F32.ofNat c.val * two + c0 + c0 = F32.ofNat (2 * c.val) ∧
    c0 + F32.ofNat c.val * two + c0 = F32.ofNat (2 * c.val) ∧
    c0 + c0 + F32.ofNat c.val * two = F32.ofNat (2 * c.val) ∧
    F32.ofNat (2 * c.val) * cHalf = F32.ofNat c.val := by decide!

theorem double_exceeds : ∀ c : Byte, 128 ≤ c.val →
    F32.lt c255 (F32.ofNat (2 * c.val)) = true ∧ identityByte c = c := by decide!

theorem apply_matrix_double_bytes (r g b : Byte) :
    apply_matrix doubleMatrix ⟨F32.ofNat r.val, F32.ofNat g.val, F32.ofNat b.val⟩
      = ⟨F32.ofNat (2 * r.val), F32.ofNat (2 * g.val), F32.ofNat (2 * b.val)⟩ := by
  unfold apply_matrix doubleMatrix
  simp only [mul_zero_byte, (double_rows r).1, (double_rows g).2.1, (double_rows b).2.2.1]

theorem pixelOut_doubleHalf (powf : F32 → F32 → F32) (hpow : ∀ x, powf x F32.one = x)
    (r g b : Byte) :
    pixelOut powf doubleHalfPreset r g b
      = some (identityByte r, identityByte g, identityByte b) := by
  apply pixelOut_of_bytes powf hpow doubleHalfPreset (by simp only [doubleHalfPreset])
    (by simp only [doubleHalfPreset]) (by simp only [doubleHalfPreset])
  have e1 : doubleHalfPreset.matrix = doubleMatrix := by simp only [doubleHalfPreset]
  have e2 : doubleHalfPreset.brightness = cHalf := by simp only [doubleHalfPreset]
  rw [e1, e2, apply_matrix_double_bytes, apply_brightness_eq, (double_rows r).2.2.2,
    (double_rows g).2.2.2, (double_rows b).2.2.2]

theorem cHalf_eq : cHalf = F32.fin false 8388608 125 := by decide!

theorem toRat_c255 : c255.toRat = 255 := by
  rw [c255_eq, toRat_fin_false]
  norm_num

theorem toRat_cHalf : cHalf.toRat = 1 / 2 := by
  rw [cHalf_eq, toRat_fin_false]
  norm_num

theorem contrast_exact (k c : ℚ) :
    contrastFormula (255 : ℚ) (1 / 2) k c - 255 / 2 = k * (c - 255 / 2) := by
  unfold contrastFormula
  field_simp
  ring

theorem midgray_steps : F32.lit 1275 10 / c255 - cHalf = c0 ∧
    F32.fin false 0 0 + cHalf = cHalf ∧ F32.fin true 0 0 + cHalf = cHalf ∧
    cHalf * c255 = F32.lit 1275 10 := by decide!

theorem contrast_midgray (s : Bool) (m e : Nat) :
    contrastFormula c255 cHalf (F32.fin s m e) (F32.lit 1275 10) = F32.lit 1275 10 := by
  unfold contrastFormula
  rw [midgray_steps.1]
  show (F32.mul c0 (F32.fin s m e) + cHalf) * c255 = _
  rw [mul_zero_fin]
  cases s with
  | false => rw [midgray_steps.2.1, midgray_steps.2.2.2]
  | true => rw [midgray_steps.2.2.1, midgray_steps.2.2.2]

theorem contrast_one_low : ∀ c : Byte, 1 ≤ c.val → c.val ≤ 63 →
    justBelow (contrastFormula c255 cHalf F32.one (F32.ofNat c.val)) (F32.ofNat c.val) = true ∧
      clamp (contrastFormula c255 cHalf F32.one (F32.ofNat c.val)) = some (c - 1) := by
  decide!

theorem weights_eq : cR = F32.fin false 14267344 123 ∧ cG = F32.fin false 11999065 125 ∧
    cB = F32.fin false 9690520 122 := by decide!

theorem weights_sum : cR.toRat + cG.toRat + cB.toRat = 1 := by
  rw [weights_eq.1, weights_eq.2.1, weights_eq.2.2, toRat_fin_false, toRat_fin_false,
    toRat_fin_false]
  norm_num

theorem luma_exact (wR wG wB s r g b : ℚ) (h : wR + wG + wB = 1) :
    lumaFormula wR wG wB (saturationFormula wR wG wB s r g b).1
        (saturationFormula wR wG wB s r g b).2.1 (saturationFormula wR wG wB s r g b).2.2
      = lumaFormula wR wG wB r g b := by
  unfold saturationFormula lumaFormula
  simp only
  have hB : wB = 1 - wR - wG := by linarith
  subst hB
  ring

theorem gray_exact (wR wG wB s c : ℚ) (h : wR + wG + wB = 1) :
    saturationFormula wR wG wB s c c c = (c, c, c) := by
  unfold saturationFormula lumaFormula
  have hB : wB = 1 - wR - wG := by linarith
  subst hB
  have e : wR * c + wG * c + (1 - wR - wG) * c = c := by ring
  rw [e]
  simp

theorem mul_fin_zero (s : Bool) (m k : Nat) :
    F32.mul (F32.fin s m k) (F32.fin false 0 0) = F32.fin s 0 0 := by
  show F32.round (xor s false) (m * 0 * 2 ^ (k + 0)) (2 ^ 298) = _
  rw [Bool.xor_false]
  exact round_exact s (by positivity) (by simp only [Nat.mul_zero, Nat.zero_mul]) canon_zero

theorem sub_self_fin (m k : Nat) :
    F32.sub (F32.fin false m k) (F32.fin false m k) = F32.fin false 0 0 := by
  rw [sub_fin, add_fin]
  simp

theorem gray_fixed_of_exact (c : Byte)
    (h : lumaFormula cR cG cB (F32.ofNat c.val) (F32.ofNat c.val) (F32.ofNat c.val)
      = F32.ofNat c.val) (s : Bool) (m e : Nat) :
    apply_saturation (F32.fin s m e) ⟨F32.ofNat c.val, F32.ofNat c.val, F32.ofNat c.val⟩
      = ⟨F32.ofNat c.val, F32.ofNat c.val, F32.ofNat c.val⟩ := by
  unfold lumaFormula at h
  obtain ⟨mg, kg, hgray, hcan, -⟩ := gray_byte c c c
  have hx : F32.ofNat c.val = F32.fin false mg kg := h.symm.trans hgray
  have hch : F32.ofNat c.val + F32.fin s m e * (F32.ofNat c.val - F32.ofNat c.val)
      = F32.ofNat c.val := by
    rw [hx]
    show F32.add _ (F32.mul _ (F32.sub _ _)) = _
    rw [sub_self_fin, mul_fin_zero, add_signed_zero s hcan]
  unfold apply_saturation
  simp only [h, hch]

theorem gray_near : ∀ c : Byte,
    lumaFormula cR cG cB (F32.ofNat c.val) (F32.ofNat c.val) (F32.ofNat c.val) = F32.ofNat c.val ∨
    justBelow (lumaFormula cR cG cB (F32.ofNat c.val) (F32.ofNat c.val) (F32.ofNat c.val))
      (F32.ofNat c.val) = true ∨
    justBelow (F32.ofNat c.val)
      (lumaFormula cR cG cB (F32.ofNat c.val) (F32.ofNat c.val) (F32.ofNat c.val)) = true := by
  decide!

theorem gamma_real (c γ : ℝ) (hc0 : 0 < c) (hc : c < 255) :
    (γ = 1 → gammaFormula powReal 255 γ c = c) ∧
    (0 < γ → γ < 1 → c < gammaFormula powReal 255 γ c) ∧
    (1 < γ → gammaFormula powReal 255 γ c < c) := by
  have hx0 : 0 < c / 255 := by positivity
  have hx1 : c / 255 < 1 := by rw [div_lt_one (by norm_num)]; exact hc
  have hc255 : c = c / 255 * 255 := by field_simp
  unfold gammaFormula powReal
  refine ⟨fun h => ?_, fun _ h => ?_, fun h => ?_⟩
  · subst h
    simp only [Real.rpow_one]
    exact hc255.symm
  · have := Real.rpow_lt_rpow_of_exponent_gt hx0 hx1 h
    rw [Real.rpow_one] at this
    calc c = c / 255 * 255 := hc255
      _ < (c / 255) ^ γ * 255 := by nlinarith
  · have := Real.rpow_lt_rpow_of_exponent_gt hx0 hx1 h
    rw [Real.rpow_one] at this
    calc (c / 255) ^ γ * 255 < c / 255 * 255 := by nlinarith
      _ = c := hc255.symm

theorem gamma_one_bytes (powf : F32 → F32 → F32) (hpow : ∀ x, powf x F32.one = x) (c : Byte) :
    gammaFormula powf c255 F32.one (F32.ofNat c.val) = F32.ofNat c.val := by
  unfold gammaFormula
  rw [hpow, gamma_one_byte]

theorem gamma_two_bytes : ∀ c : Byte, 1 ≤ c.val → c.val ≤ 254 →
    F32.lt (gammaFormula powfRef c255 two (F32.ofNat c.val)) (F32.ofNat c.val) = true := by
  decide!

theorem excess_mono {q1 q2 : Nat} (h : q1 ≤ q2) (hq : q2 < 2 ^ 200) :
    excess q1 ≤ excess q2 := by
  have sp1 := excess_spec_le q1 176 (lt_of_le_of_lt h (by simpa using hq)) (by omega)
  have sp2 := excess_spec_le q2 176 (by simpa using hq) (by omega)
  by_contra hc
  have hlt : excess q2 < excess q1 := by omega
  rcases sp1 with ⟨h0, -⟩ | ⟨-, h1, -⟩
  · omega
  · have hq2 : q2 < 2 ^ (24 + excess q2) := by
      rcases sp2 with ⟨h0, hb⟩ | ⟨-, -, hb⟩
      · rw [h0]; exact hb
      · exact hb
    have hpow : 2 ^ (24 + excess q2) ≤ 2 ^ (23 + excess q1) :=
      Nat.pow_le_pow_right (by norm_num) (by omega)
    omega

theorem roundCore_mono {N1 N2 d : Nat} (hd : 0 < d) (hN : N1 ≤ N2) (hq : N2 / d < 2 ^ 200) :
    ∃ M1 k1 M2 k2, F32.roundCore false N1 d = F32.fin false M1 k1 ∧
      F32.roundCore false N2 d = F32.fin false M2 k2 ∧ M1 * 2 ^ k1 ≤ M2 * 2 ^ k2 := by
  have hqq : N1 / d ≤ N2 / d := Nat.div_le_div_right hN
  have hq1 : N1 / d < 2 ^ 200 := lt_of_le_of_lt hqq hq
  obtain ⟨M2, k2, h2, -, -, b2, -, dv2⟩ := roundCore_spec false hd hq
  rcases Nat.eq_or_lt_of_le hN with hEq | hLt
  · subst hEq
    exact ⟨M2, k2, M2, k2, h2, h2, le_refl _⟩
  obtain ⟨M1, k1, h1, -, a1, -, -, dv1⟩ := roundCore_spec false hd hq1
  refine ⟨M1, k1, M2, k2, h1, h2, ?_⟩
  have hmono := excess_mono hqq hq
  have sp1 := excess_spec_le (N1 / d) 176 (by simpa using hq1) (by omega)
  have sp2 := excess_spec_le (N2 / d) 176 (by simpa using hq) (by omega)
  have hn1 : N1 < d * (N1 / d + 1) := Nat.lt_mul_div_succ N1 hd
  have hn2 : N2 / d * d ≤ N2 := Nat.div_mul_le_self N2 d
  generalize M1 * 2 ^ k1 = r1 at a1 dv1 ⊢
  generalize M2 * 2 ^ k2 = r2 at b2 dv2 ⊢
  generalize N1 / d = q1 at *
  generalize N2 / d = q2 at *
  generalize excess q1 = e1 at *
  generalize excess q2 = e2 at *
  obtain ⟨t1, rfl⟩ := dv1
  obtain ⟨t2, rfl⟩ := dv2
  rcases Nat.eq_or_lt_of_le hmono with he | he
  · subst he
    have hD : 0 < d * 2 ^ e1 := by positivity
    have e1' : 2 * (2 ^ e1 * t1 * d) = (2 * t1) * (d * 2 ^ e1) := by ring
    have e2' : 2 * (2 ^ e1 * t2 * d) = (2 * t2) * (d * 2 ^ e1) := by ring
    rw [e1'] at a1
    rw [e2'] at b2
    generalize d * 2 ^ e1 = D at *
    have hlt : (2 * t1) * D < (2 * t2 + 2) * D := by
      have : (2 * t2 + 2) * D = 2 * t2 * D + 2 * D := by ring
      omega
    have := Nat.lt_of_mul_lt_mul_right hlt
    exact Nat.mul_le_mul_left _ (by omega)
  · have hq1b : q1 + 1 ≤ 2 ^ (24 + e1) := by
      rcases sp1 with ⟨h0, hb⟩ | ⟨-, -, hb⟩
      · rw [h0]; exact hb
      · exact hb
    have hq2b : 2 ^ (23 + e2) ≤ q2 := by
      rcases sp2 with ⟨h0, -⟩ | ⟨-, hb, -⟩
      · omega
      · exact hb
    have hP1 : 0 < d * 2 ^ e1 := by positivity
    have hP2 : 0 < d * 2 ^ e2 := by positivity
    -- upper bound for t1
    have hu1 : N1 < 2 ^ 24 * (d * 2 ^ e1) := by
      have : d * (q1 + 1) ≤ d * 2 ^ (24 + e1) := Nat.mul_le_mul_left _ hq1b
      have e : d * 2 ^ (24 + e1) = 2 ^ 24 * (d * 2 ^ e1) := by rw [pow_add]; ring
      omega
    have ea : 2 * (2 ^ e1 * t1 * d) = (2 * t1) * (d * 2 ^ e1) := by ring
    rw [ea] at a1
    have ht1 : t1 ≤ 2 ^ 24 := by
      generalize d * 2 ^ e1 = D at *
      have hlt : (2 * t1) * D < (2 * 2 ^ 24 + 1) * D := by
        have : (2 * 2 ^ 24 + 1) * D = 2 * (2 ^ 24 * D) + D := by ring
        omega
      have := Nat.lt_of_mul_lt_mul_right hlt
      omega
    -- lower bound for t2
    have hl2 : 2 ^ 23 * (d * 2 ^ e2) ≤ N2 := by
      have : 2 ^ (23 + e2) * d ≤ q2 * d := Nat.mul_le_mul_right _ hq2b
      have e : 2 ^ (23 + e2) * d = 2 ^ 23 * (d * 2 ^ e2) := by rw [pow_add]; ring
      omega
    have eb : 2 * (2 ^ e2 * t2 * d) = (2 * t2) * (d * 2 ^ e2) := by ring
    rw [eb] at b2
    have ht2 : 2 ^ 23 ≤ t2 := by
      generalize d * 2 ^ e2 = D at *
      have hlt : (2 * 2 ^ 23) * D < (2 * t2 + 2) * D := by
        have h1 : (2 * 2 ^ 23) * D = 2 * (2 ^ 23 * D) := by ring
        have h2 : (2 * t2 + 2) * D = 2 * t2 * D + D + D := by ring
        omega
      have := Nat.lt_of_mul_lt_mul_right hlt
      omega
    calc 2 ^ e1 * t1 ≤ 2 ^ e1 * 2 ^ 24 := Nat.mul_le_mul_left _ ht1
      _ = 2 ^ (24 + e1) := by rw [pow_add]; ring
      _ ≤ 2 ^ (23 + e2) := Nat.pow_le_pow_right (by norm_num) (by omega)
      _ = 2 ^ e2 * 2 ^ 23 := by rw [pow_add]; ring
      _ ≤ 2 ^ e2 * t2 := Nat.mul_le_mul_left _ ht2

theorem unitOk_elim {x : F32} (h : unitOk x = true) :
    ∃ m k, x = F32.fin false m k ∧ m * 2 ^ k ≤ 2 ^ 149 := by
  match x, h with
  | F32.fin false m k, h =>
    simp only [unitOk, decide_eq_true_eq] at h
    exact ⟨m, k, rfl, h⟩

theorem byte_ratio_unit : ∀ c : Byte, unitOk (F32.ofNat c.val / c255) = true := by decide!

theorem lt_fin_pos (a b c d : Nat) :
    F32.lt (F32.fin false a b) (F32.fin false c d) = decide (a * 2 ^ b < c * 2 ^ d) := rfl

theorem mul_c255_mono (ma ka mb kb : Nat) (h : ma * 2 ^ ka ≤ mb * 2 ^ kb)
    (hb : mb * 2 ^ kb ≤ 2 ^ 149) :
    ∃ M1 k1 M2 k2, F32.mul (F32.fin false ma ka) c255 = F32.fin false M1 k1 ∧
      F32.mul (F32.fin false mb kb) c255 = F32.fin false M2 k2 ∧
      M1 * 2 ^ k1 ≤ M2 * 2 ^ k2 := by
  have hm : ∀ m k : Nat, F32.mul (F32.fin false m k) (F32.fin false 16711680 133)
      = F32.round false (m * 16711680 * 2 ^ (k + 133)) (2 ^ 298) := fun _ _ => rfl
  rw [c255_eq, hm, hm]
  unfold F32.round
  have e1 : ma * 16711680 * 2 ^ (ka + 133) * 2 ^ 149 = ma * 2 ^ ka * 255 * 2 ^ 298 := by
    rw [pow_add]; ring
  have e2 : mb * 16711680 * 2 ^ (kb + 133) * 2 ^ 149 = mb * 2 ^ kb * 255 * 2 ^ 298 := by
    rw [pow_add]; ring
  rw [e1, e2]
  generalize ma * 2 ^ ka = A at *
  generalize mb * 2 ^ kb = B at *
  apply roundCore_mono (by positivity)
  · exact Nat.mul_le_mul_right _ (Nat.mul_le_mul_right _ h)
  · rw [Nat.mul_div_cancel _ (by positivity)]
    have : (2 : Nat) ^ 149 * 255 < 2 ^ 200 := by norm_num
    have : B * 255 ≤ 2 ^ 149 * 255 := Nat.mul_le_mul_right _ hb
    omega

theorem gamma_follows_powf (powf : F32 → F32 → F32) (gamma : F32) (c : Byte) (mp kp : Nat)
    (hp : powf (F32.ofNat c.val / c255) gamma = F32.fin false mp kp)
    (hb : mp * 2 ^ kp ≤ 2 ^ 149) :
    (F32.lt (F32.ofNat c.val / c255) (powf (F32.ofNat c.val / c255) gamma) = true →
      F32.lt (gammaFormula powf c255 gamma (F32.ofNat c.val)) (F32.ofNat c.val) = false) ∧
    (F32.lt (powf (F32.ofNat c.val / c255) gamma) (F32.ofNat c.val / c255) = true →
      F32.lt (F32.ofNat c.val) (gammaFormula powf c255 gamma (F32.ofNat c.val)) = false) := by
  obtain ⟨mx, kx, hx, hxb⟩ := unitOk_elim (byte_ratio_unit c)
  have hone := gamma_one_byte c
  unfold gammaFormula
  rw [hp]
  rw [hx] at hone ⊢
  constructor
  · intro hlt
    rw [lt_fin_pos, decide_eq_true_eq] at hlt
    obtain ⟨M1, k1, M2, k2, h1, h2, hle⟩ := mul_c255_mono mx kx mp kp (le_of_lt hlt) hb
    have h1' : F32.fin false mx kx * c255 = F32.fin false M1 k1 := h1
    have h2' : F32.fin false mp kp * c255 = F32.fin false M2 k2 := h2
    rw [← hone, h1', h2', lt_fin_pos]
    simpa using hle
  · intro hlt
    rw [lt_fin_pos, decide_eq_true_eq] at hlt
    obtain ⟨M1, k1, M2, k2, h1, h2, hle⟩ := mul_c255_mono mp kp mx kx (le_of_lt hlt) hxb
    have h1' : F32.fin false mp kp * c255 = F32.fin false M1 k1 := h1
    have h2' : F32.fin false mx kx * c255 = F32.fin false M2 k2 := h2
    rw [← hone, h1', h2', lt_fin_pos]
    simpa using hle

/-! ## The loop body with a total conversion -/

theorem clampWith_of_some {conv : F32 → Byte} {v : F32} {b : Byte} (h : clamp v = some b) :
    clampWith conv v = b := by
  unfold clampWith
  rw [h]
  rfl

theorem processPixel_some_with (conv : F32 → Byte) {powf : F32 → F32 → F32} {ps : Preset}
    {idx : Int} {px out : List Byte} (h : processPixel powf ps idx px = some out) :
    processPixelWith conv powf ps idx px = some out := by
  unfold processPixel at h
  unfold processPixelWith
  simp only [Option.bind_eq_bind, Option.bind_eq_some] at h ⊢
  obtain ⟨r, hr, g, hg, b, hb, r1, hr1, p1, hp1, g1, hg1, p2, hp2, b1, hb1, hp3⟩ := h
  refine ⟨r, hr, g, hg, b, hb, p1, ?_, p2, ?_, ?_⟩
  · rw [clampWith_of_some hr1]; exact hp1
  · rw [clampWith_of_some hg1]; exact hp2
  · rw [clampWith_of_some hb1]; exact hp3

theorem runFrom_some_of_some {σ : Type} (b1 b2 : Int → σ → Option σ)
    (h : ∀ i s t, b1 i s = some t → b2 i s = some t) :
    ∀ (n : Nat) (lo : Int) (s t : σ), runFrom b1 n lo s = some t → runFrom b2 n lo s = some t := by
  intro n
  induction n with
  | zero => intro lo s t ht; exact ht
  | succ n ih =>
    intro lo s t ht
    simp only [runFrom, Option.bind_eq_some] at ht ⊢
    obtain ⟨s1, h1, h2⟩ := ht
    exact ⟨s1, h _ _ _ h1, ih _ _ _ h2⟩

theorem applyPreset_some_with (conv : F32 → Byte) {powf : F32 → F32 → F32} {ps : Preset}
    {pixels out : List Byte} {width height : Int}
    (h : applyPreset powf pixels width height ps = some out) :
    applyPresetWith conv powf pixels width height ps = some out := by
  unfold applyPreset at h
  unfold applyPresetWith
  rw [sequentialLoop_eq_runFrom] at h ⊢
  exact runFrom_some_of_some _ _ (fun i s t ht => processPixel_some_with conv ht) _ _ _ _ h

theorem applyPresetOptimizedWith_eq (conv : F32 → Byte) (powf : F32 → F32 → F32)
    (pixels : List Byte) (width height : Int) (ps : Preset) :
    applyPresetOptimizedWith conv powf pixels width height ps
      = applyPresetWith conv powf pixels width height ps :=
  groupedLoop_eq_sequentialLoop (processPixelWith conv powf ps) width height pixels

theorem processPixelWith_alphaSame {conv : F32 → Byte} {powf : F32 → F32 → F32} {ps : Preset}
    {idx : Int} {px out : List Byte} (h : processPixelWith conv powf ps idx px = some out)
    (hidx : idx % 4 = 0) : AlphaSame px out := by
  unfold processPixelWith at h
  simp only [Option.bind_eq_bind, Option.bind_eq_some] at h
  obtain ⟨r, -, g, -, b, -, p1, hp1, p2, hp2, hp3⟩ := h
  have m1 := wrap32_emod_four (idx + 1)
  have m2 := wrap32_emod_four (idx + 2)
  exact ((writeByte_alphaSame hp1 (by omega)).trans (writeByte_alphaSame hp2 (by omega))).trans
    (writeByte_alphaSame hp3 (by omega))

theorem applyPresetWith_alphaSame {conv : F32 → Byte} {powf : F32 → F32 → F32}
    {px out : List Byte} {width height : Int} {ps : Preset}
    (h : applyPresetWith conv powf px width height ps = some out) : AlphaSame px out := by
  unfold applyPresetWith at h
  rw [sequentialLoop_eq_runFrom] at h
  revert h
  generalize (wrap32 (width * height)).toNat = n
  generalize (0 : Int) = lo
  induction n generalizing lo px with
  | zero =>
    intro h
    simp only [runFrom, Option.some.injEq] at h
    subst h
    exact ⟨rfl, fun _ _ => rfl⟩
  | succ n ih =>
    intro h
    simp only [runFrom, Option.bind_eq_some] at h
    obtain ⟨p1, h1, h2⟩ := h
    have hm : wrap32 (lo * 4) % 4 = 0 := by rw [wrap32_emod_four]; omega
    exact (processPixelWith_alphaSame h1 hm).trans (ih (lo + 1) h2)

theorem processPixelWith_at (conv : F32 → Byte) (powf : F32 → F32 → F32) (ps : Preset)
    (px : List Byte) (i : Nat) (h : 4 * i + 2 < px.length) (hb : 4 * i + 2 < 2 ^ 31) :
    processPixelWith conv powf ps (wrap32 ((i : Int) * 4)) px
      = (pixelAt px i).map (fun o => setPixel px (4 * i) (pixelOutWith conv powf ps o)) := by
  have g0 : px[4 * i]? = some px[4 * i] := List.getElem?_eq_getElem (by omega)
  have g1 : px[4 * i + 1]? = some px[4 * i + 1] := List.getElem?_eq_getElem (by omega)
  have g2 : px[4 * i + 2]? = some px[4 * i + 2] := List.getElem?_eq_getElem (by omega)
  have hb2 : ((4 * i + 2 : Nat) : Int) < 2 ^ 31 := by exact_mod_cast hb
  have w0 : wrap32 ((i : Int) * 4) = ((4 * i : Nat) : Int) := by
    rw [wrap32_eq_self (by push_cast at hb2; omega) (by push_cast at hb2; omega)]
    push_cast; ring
  have w1 : wrap32 (((4 * i : Nat) : Int) + 1) = ((4 * i + 1 : Nat) : Int) := by
    rw [wrap32_eq_self (by push_cast at hb2 ⊢; omega) (by push_cast at hb2 ⊢; omega)]
    push_cast; rfl
  have w2 : wrap32 (((4 * i : Nat) : Int) + 2) = ((4 * i + 2 : Nat) : Int) := by
    rw [wrap32_eq_self (by push_cast at hb2 ⊢; omega) (by push_cast at hb2 ⊢; omega)]
    push_cast; rfl
  clear hb2
  rw [w0]
  unfold processPixelWith pixelAt pixelOutWith pipeline setPixel
  simp only [w1, w2, readByte_natCast, g0, g1, g2, Option.bind_eq_bind, Option.some_bind,
    Option.map_some']
  rw [writeByte_natCast px (4 * i) _ (by omega)]
  simp only [Option.some_bind]
  rw [writeByte_natCast _ (4 * i + 1) _ (by simp; omega)]
  simp only [Option.some_bind]
  rw [writeByte_natCast _ (4 * i + 2) _ (by simp; omega)]

theorem runFrom_pixels_with (conv : F32 → Byte) (powf : F32 → F32 → F32) (ps : Preset) :
    ∀ (m lo : Nat) (px : List Byte), 4 * (lo + m) ≤ px.length → 4 * (lo + m) ≤ 2 ^ 31 →
      ∃ out, runFrom (fun i s => processPixelWith conv powf ps (wrap32 (i * 4)) s) m (lo : Int) px
          = some out ∧
        out.length = px.length ∧
        (∀ j, j < 4 * lo ∨ 4 * (lo + m) ≤ j → out[j]? = px[j]?) ∧
        ∀ i, lo ≤ i → i < lo + m →
          pixelAt out i = (pixelAt px i).map (pixelOutWith conv powf ps) := by
  intro m
  induction m with
  | zero =>
    intro lo px _ _
    exact ⟨px, rfl, rfl, fun _ _ => rfl, fun i h1 h2 => by omega⟩
  | succ m ih =>
    intro lo px hlen hsz
    have hcast : (lo : Int) + 1 = ((lo + 1 : Nat) : Int) := by push_cast; rfl
    obtain ⟨o, ho⟩ := pixelAt_isSome px lo (by omega)
    simp only [runFrom]
    rw [processPixelWith_at conv powf ps px lo (by omega) (by omega), hcast, ho]
    simp only [Option.map_some', Option.some_bind]
    obtain ⟨out, h0, h1, h2, h3⟩ := ih (lo + 1)
      (setPixel px (4 * lo) (pixelOutWith conv powf ps o))
      (by rw [setPixel_length]; omega) (by omega)
    refine ⟨out, h0, by rw [h1, setPixel_length], fun j hj => ?_, fun i hi1 hi2 => ?_⟩
    · rw [h2 j (by omega), setPixel_getElem?_of_ne _ _ _ _ (by omega)]
    · by_cases hil : i = lo
      · subst hil
        rw [ho, pixelAt_congr _ _ _ (fun j hj => h2 j (Or.inl hj))]
        exact pixelAt_setPixel_self px i _ (by omega)
      · rw [h3 i (by omega) (by omega), pixelAt_setPixel_of_ne _ _ _ _ hil]

theorem applyPresetWith_range (conv : F32 → Byte) (powf : F32 → F32 → F32)
    (pixels : List Byte) (width height : Int) (ps : Preset) (hw : 0 ≤ width) (hh : 0 ≤ height)
    (hlen : 4 * width * height ≤ pixels.length) (hr : 4 * width * height ≤ 2 ^ 31) :
    ∃ out, applyPresetWith conv powf pixels width height ps = some out ∧
      applyPresetOptimizedWith conv powf pixels width height ps = some out ∧
      out.length = pixels.length ∧
      (∀ j : Nat, 4 * width * height ≤ (j : Int) → out[j]? = pixels[j]?) ∧
      ∀ i : Nat, (i : Int) < width * height →
        pixelAt out i = (pixelAt pixels i).map (pixelOutWith conv powf ps) := by
  have hnn : 0 ≤ width * height := Int.mul_nonneg hw hh
  rw [applyPresetOptimizedWith_eq]
  unfold applyPresetWith
  rw [sequentialLoop_eq_runFrom]
  simp only [Int.mul_assoc] at hlen hr ⊢
  generalize width * height = t at hlen hr hnn ⊢
  obtain ⟨n, rfl⟩ : ∃ n : Nat, t = (n : Int) := ⟨t.toNat, by omega⟩
  have hn4 : 4 * (0 + n) ≤ pixels.length := by omega
  have hn31 : 4 * (0 + n) ≤ 2 ^ 31 := by omega
  have hwrap : (wrap32 (n : Int)).toNat = n := by
    rw [wrap32_eq_self (by omega) (by omega)]
    rfl
  clear hr hlen
  rw [hwrap]
  have hzero : (0 : Int) = ((0 : Nat) : Int) := rfl
  rw [hzero]
  obtain ⟨out, h0, h1, h2, h3⟩ := runFrom_pixels_with conv powf ps n 0 pixels hn4 hn31
  refine ⟨out, h0, h0, h1, fun j hj => h2 j (Or.inr (by omega)), fun i hi => h3 i (by omega) ?_⟩
  have : i < n := by exact_mod_cast hi
  omega

theorem pixelOutWith_of_pixelOut (conv : F32 → Byte) {powf : F32 → F32 → F32} {ps : Preset}
    {o o1 : Byte × Byte × Byte} (h : pixelOut3 powf ps o = some o1) :
    pixelOutWith conv powf ps o = o1 := by
  unfold pixelOut3 pixelOut at h
  unfold pixelOutWith
  simp only [Option.bind_eq_some, Option.map_eq_some'] at h
  obtain ⟨r1, hr1, g1, hg1, b1, hb1, rfl⟩ := h
  rw [clampWith_of_some hr1, clampWith_of_some hg1, clampWith_of_some hb1]

theorem subscripts_not_alpha (i j : Int) (h : j ∈ bodySubscripts (wrap32 (i * 4))) :
    j % 4 ≠ 3 := by
  have m0 := wrap32_emod_four (i * 4)
  have m1 := wrap32_emod_four (wrap32 (i * 4) + 1)
  have m2 := wrap32_emod_four (wrap32 (i * 4) + 2)
  unfold bodySubscripts at h
  simp only [List.mem_cons, List.mem_singleton, List.not_mem_nil, or_false] at h
  rcases h with h | h | h | h | h | h <;> rw [h] <;> omega

theorem processPixelWith_neg (conv : F32 → Byte) (powf : F32 → F32 → F32) (ps : Preset)
    (px : List Byte) {idx : Int} (h : idx < 0) : processPixelWith conv powf ps idx px = none := by
  unfold processPixelWith
  rw [readByte_neg px h]
  rfl

theorem runFrom_with_alphaSame (conv : F32 → Byte) (powf : F32 → F32 → F32) (ps : Preset) :
    ∀ (n : Nat) (lo : Int) (px out : List Byte),
      runFrom (fun i s => processPixelWith conv powf ps (wrap32 (i * 4)) s) n lo px = some out →
      AlphaSame px out := by
  intro n
  induction n with
  | zero =>
    intro lo px out h
    simp only [runFrom, Option.some.injEq] at h
    subst h
    exact ⟨rfl, fun _ _ => rfl⟩
  | succ n ih =>
    intro lo px out h
    simp only [runFrom, Option.bind_eq_some] at h
    obtain ⟨p1, h1, h2⟩ := h
    have hm : wrap32 (lo * 4) % 4 = 0 := by rw [wrap32_emod_four]; omega
    exact (processPixelWith_alphaSame h1 hm).trans (ih (lo + 1) p1 out h2)

theorem pipeline_brightness (powf : F32 → F32 → F32) (brightness : F32) (r g b : Byte) :
    pipeline powf (brightnessPreset brightness) r g b
      = apply_gamma powf F32.one (apply_contrast F32.one (apply_saturation F32.one
          ⟨F32.ofNat r.val * brightness, F32.ofNat g.val * brightness,
            F32.ofNat b.val * brightness⟩)) := by
  have e1 : (brightnessPreset brightness).matrix = identityMatrix := by
    simp only [brightnessPreset]
  have e2 : (brightnessPreset brightness).brightness = brightness := by
    simp only [brightnessPreset]
  have e3 : (brightnessPreset brightness).saturation = F32.one := by
    simp only [brightnessPreset]
  have e4 : (brightnessPreset brightness).contrast = F32.one := by
    simp only [brightnessPreset]
  have e5 : (brightnessPreset brightness).gamma = F32.one := by
    simp only [brightnessPreset]
  unfold pipeline
  rw [e1, e2, e3, e4, e5, apply_matrix_identity_bytes, apply_brightness_eq]

theorem brightness_with (conv : F32 → Byte) (powf : F32 → F32 → F32) (brightness : F32)
    (pixels : List Byte) (width height : Int) (hw : 0 ≤ width) (hh : 0 ≤ height)
    (hlen : 4 * width * height ≤ pixels.length) (hr : 4 * width * height ≤ 2 ^ 31) :
    ∃ out, applyPresetWith conv powf pixels width height (brightnessPreset brightness)
        = some out ∧
      ∀ i : Nat, (i : Int) < width * height →
        out[4 * i + 3]? = pixels[4 * i + 3]? ∧
        pixelAt out i = (pixelAt pixels i).map (fun o =>
          (clampWith conv (unitTriple powf (F32.ofNat o.1.val * brightness)
              (F32.ofNat o.2.1.val * brightness) (F32.ofNat o.2.2.val * brightness)).r,
           clampWith conv (unitTriple powf (F32.ofNat o.1.val * brightness)
              (F32.ofNat o.2.1.val * brightness) (F32.ofNat o.2.2.val * brightness)).g,
           clampWith conv (unitTriple powf (F32.ofNat o.1.val * brightness)
              (F32.ofNat o.2.1.val * brightness) (F32.ofNat o.2.2.val * brightness)).b)) := by
  obtain ⟨out, h1, -, -, -, h5⟩ := applyPresetWith_range conv powf pixels width height
    (brightnessPreset brightness) hw hh hlen hr
  refine ⟨out, h1, fun i hi => ⟨(applyPresetWith_alphaSame h1).2 (4 * i + 3) (by omega), ?_⟩⟩
  have hfun : pixelOutWith conv powf (brightnessPreset brightness) = fun o =>
      (clampWith conv (unitTriple powf (F32.ofNat o.1.val * brightness)
          (F32.ofNat o.2.1.val * brightness) (F32.ofNat o.2.2.val * brightness)).r,
       clampWith conv (unitTriple powf (F32.ofNat o.1.val * brightness)
          (F32.ofNat o.2.1.val * brightness) (F32.ofNat o.2.2.val * brightness)).g,
       clampWith conv (unitTriple powf (F32.ofNat o.1.val * brightness)
          (F32.ofNat o.2.1.val * brightness) (F32.ofNat o.2.2.val * brightness)).b) := by
    funext o
    unfold pixelOutWith unitTriple
    rw [pipeline_brightness]
  rw [h5 i hi, hfun]

/-! ## The claims -/

/-- C2: alpha invariance.  Every subscript the loop body stores to is congruent to
`0`, `1` or `2` modulo 4.  Whatever the parameter values, and whatever byte an
undefined conversion yields (`conv`): whenever one of the two entry points returns
a buffer, with `clampWith conv` or with `clamp`, that buffer has the length of the
input and the input's byte at every index `4*i+3`; under the caller precondition
with `4*width*height ≤ 2^31` both entry points with `clampWith conv` do return such
a buffer; and the same holds of the buffer after any number `n` of iterations of
the loop, so also of a call that does not run to its end. -/
theorem alpha_invariance (conv : F32 → Byte) (powf : F32 → F32 → F32) (pixels : List Byte)
    (width height : Int) (ps : Preset) :
    (∀ i j : Int, j ∈ bodySubscripts (wrap32 (i * 4)) → j % 4 ≠ 3) ∧
    (∀ out,
      applyPresetWith conv powf pixels width height ps = some out ∨
        applyPresetOptimizedWith conv powf pixels width height ps = some out ∨
        applyPreset powf pixels width height ps = some out ∨
        applyPresetOptimized powf pixels width height ps = some out →
      out.length = pixels.length ∧ ∀ i : Nat, out[4 * i + 3]? = pixels[4 * i + 3]?) ∧
    (0 ≤ width → 0 ≤ height → 4 * width * height ≤ pixels.length →
      4 * width * height ≤ 2 ^ 31 →
      ∃ out, applyPresetWith conv powf pixels width height ps = some out ∧
        applyPresetOptimizedWith conv powf pixels width height ps = some out ∧
        out.length = pixels.length ∧ ∀ i : Nat, out[4 * i + 3]? = pixels[4 * i + 3]?) ∧
    (∀ (n : Nat) (out : List Byte),
      runFrom (fun i s => processPixelWith conv powf ps (wrap32 (i * 4)) s) n 0 pixels
        = some out →
      out.length = pixels.length ∧ ∀ i : Nat, out[4 * i + 3]? = pixels[4 * i + 3]?) := by
  have key : ∀ out, applyPresetWith conv powf pixels width height ps = some out →
      out.length = pixels.length ∧ ∀ i : Nat, out[4 * i + 3]? = pixels[4 * i + 3]? := by
    intro out h
    have h2 := applyPresetWith_alphaSame h
    exact ⟨h2.1, fun i => h2.2 (4 * i + 3) (by omega)⟩
  refine ⟨subscripts_not_alpha, fun out h => key out ?_, fun hw hh hlen hr => ?_,
    fun n out h => ?_⟩
  · rcases h with h | h | h | h
    · exact h
    · rw [← applyPresetOptimizedWith_eq]; exact h
    · exact applyPreset_some_with conv h
    · rw [applyPresetOptimized_eq] at h
      exact applyPreset_some_with conv h
  · obtain ⟨out, h1, h2, -, -, -⟩ :=
      applyPresetWith_range conv powf pixels width height ps hw hh hlen hr
    exact ⟨out, h1, h2, key out h1⟩
  · have h2 := runFrom_with_alphaSame conv powf ps n 0 pixels out h
    exact ⟨h2.1, fun i => h2.2 (4 * i + 3) (by omega)⟩

/-- C2 at a call whose channels are NaN (the reference `powf` at `gamma = 0.5`):
the call is undefined with `clamp`; with the undefined conversion yielding `7` it
returns `(7,7,7,255)`, alpha unchanged. -/
theorem alpha_invariance_witness :
    applyPreset powfRef [10, 20, 30, 255] 1 1 (gammaPreset cHalf) = none ∧
    applyPresetWith (fun _ => 7) powfRef [10, 20, 30, 255] 1 1 (gammaPreset cHalf)
      = some [7, 7, 7, 255] ∧
    (([7, 7, 7, 255] : List Byte).length = ([10, 20, 30, 255] : List Byte).length ∧
      ∀ i : Nat, ([7, 7, 7, 255] : List Byte)[4 * i + 3]?
        = ([10, 20, 30, 255] : List Byte)[4 * i + 3]?) :=
  ⟨by decide!, by decide!,
    (alpha_invariance (fun _ => 7) powfRef [10, 20, 30, 255] 1 1 (gammaPreset cHalf)).2.1 _
      (Or.inl (by decide!))⟩

/-- C3 (as amended): `applyPreset` is a pointwise map.  For `width, height ≥ 0`, a
buffer of at least `4*width*height` bytes and `4*width*height ≤ 2^31`: whatever
byte an undefined conversion yields (`conv`), the call returns a buffer in which
the three colour bytes of every pixel `i < width*height` are `pixelOutWith conv` of
the three colour bytes the input had at that same pixel; with `clamp` itself the
call returns as soon as the pipeline is defined on every pixel, and then the
colour bytes are `pixelOut` of the input's; two input buffers that agree on the
three colour bytes of pixel `i` give the same bytes for pixel `i`. -/
theorem applyPreset_pointwise (conv : F32 → Byte) (powf : F32 → F32 → F32)
    (pixels : List Byte) (width height : Int) (ps : Preset) (hw : 0 ≤ width) (hh : 0 ≤ height)
    (hlen : 4 * width * height ≤ pixels.length) (hr : 4 * width * height ≤ 2 ^ 31) :
    (∃ out, applyPresetWith conv powf pixels width height ps = some out ∧
      ∀ i : Nat, (i : Int) < width * height →
        pixelAt out i = (pixelAt pixels i).map (pixelOutWith conv powf ps)) ∧
    ((∀ i : Nat, (i : Int) < width * height →
        ((pixelAt pixels i).bind (pixelOut3 powf ps)).isSome) →
      (applyPreset powf pixels width height ps).isSome) ∧
    (∀ out, applyPreset powf pixels width height ps = some out →
      applyPresetWith conv powf pixels width height ps = some out ∧
      ∀ i : Nat, (i : Int) < width * height →
        pixelAt out i = (pixelAt pixels i).bind (pixelOut3 powf ps)) ∧
    (∀ (pixels2 out out2 : List Byte), 4 * width * height ≤ pixels2.length →
      applyPresetWith conv powf pixels width height ps = some out →
      applyPresetWith conv powf pixels2 width height ps = some out2 →
      ∀ i : Nat, (i : Int) < width * height → pixelAt pixels i = pixelAt pixels2 i →
        pixelAt out i = pixelAt out2 i) := by
  obtain ⟨out, h1, -, -, -, h5⟩ :=
    applyPresetWith_range conv powf pixels width height ps hw hh hlen hr
  obtain ⟨r1, r2⟩ := applyPreset_range powf pixels width height ps hw hh hlen hr
  refine ⟨⟨out, h1, h5⟩, r1, fun o ho => ⟨applyPreset_some_with conv ho, (r2 o ho).2.2⟩, ?_⟩
  intro pixels2 o o2 hlen2 ho ho2 i hi hp
  obtain ⟨out2, g1, -, -, -, g5⟩ :=
    applyPresetWith_range conv powf pixels2 width height ps hw hh hlen2 hr
  rw [h1] at ho
  rw [g1] at ho2
  cases ho
  cases ho2
  rw [h5 i hi, g5 i hi, hp]

/-- C3 at a concrete call: the 2x1 image `(100,150,200,255), (10,20,30,40)` with
brightness `0.5`. -/
theorem applyPreset_pointwise_witness :
    ∃ out, applyPresetWith (fun _ => 0) powfRef [100, 150, 200, 255, 10, 20, 30, 40] 2 1
        (brightnessPreset cHalf) = some out ∧
      ∀ i : Nat, (i : Int) < 2 * 1 →
        pixelAt out i = (pixelAt [100, 150, 200, 255, 10, 20, 30, 40] i).map
          (pixelOutWith (fun _ => 0) powfRef (brightnessPreset cHalf)) :=
  (applyPreset_pointwise (fun _ => 0) powfRef [100, 150, 200, 255, 10, 20, 30, 40] 2 1
    (brightnessPreset cHalf) (by decide) (by decide) (by decide) (by decide)).1

/-- C3 fails as stated: with `width = 1`, `height = 2^29 + 1` and a buffer of
`2^31 + 4` bytes the claim's precondition holds and the pipeline is defined on
every pixel, but the call returns no buffer (the `int` offset `i * 4` wraps at
pixel `2^29`), whatever an undefined conversion yields. -/
theorem applyPreset_pointwise_counterexample :
    (0 : Int) ≤ 1 ∧ (0 : Int) ≤ 2 ^ 29 + 1 ∧
    (4 : Int) * 1 * (2 ^ 29 + 1) ≤ ((List.replicate (2 ^ 31 + 4) (0 : Byte)).length : Int) ∧
    (∀ o, (pixelOut3 powfRef identityPreset o).isSome) ∧
    applyPreset powfRef (List.replicate (2 ^ 31 + 4) 0) 1 (2 ^ 29 + 1) identityPreset = none ∧
    (∀ conv, applyPresetWith conv powfRef (List.replicate (2 ^ 31 + 4) 0) 1 (2 ^ 29 + 1)
      identityPreset = none) := by
  have e : (wrap32 ((1 : Int) * (2 ^ 29 + 1))).toNat = 2 ^ 29 + 1 := by decide
  refine ⟨by decide, by decide, ?_, fun o => ?_, ?_, fun conv => ?_⟩
  · rw [List.length_replicate]
    decide
  · rw [pixelOut3_identity powfRef powfRef_one]
    rfl
  · unfold applyPreset
    rw [sequentialLoop_eq_runFrom, e]
    apply runFrom_fail_last
    intro s1
    exact processPixel_neg powfRef identityPreset s1 (by decide)
  · unfold applyPresetWith
    rw [sequentialLoop_eq_runFrom, e]
    apply runFrom_fail_last
    intro s1
    exact processPixelWith_neg conv powfRef identityPreset s1 (by decide)

/-- C4: fixed pipeline order.  On a pixel that lies inside the buffer the loop body
writes, at the three colour positions, `clamp` of each channel of
`apply_gamma (apply_contrast (apply_saturation (apply_brightness (apply_matrix ..))))`
applied to the three bytes read there: matrix, brightness, saturation, contrast,
gamma, each stage taking the output of the previous one. -/
theorem pixel_pipeline_order (powf : F32 → F32 → F32) (ps : Preset) (pixels : List Byte)
    (idx : Nat) (h : idx + 2 < pixels.length) (hr : idx + 2 < 2 ^ 31) :
    processPixel powf ps (idx : Int) pixels
      = (clamp (apply_gamma powf ps.gamma (apply_contrast ps.contrast
            (apply_saturation ps.saturation (apply_brightness ps.brightness
              (apply_matrix ps.matrix ⟨F32.ofNat (pixels[idx]).val,
                F32.ofNat (pixels[idx + 1]).val, F32.ofNat (pixels[idx + 2]).val⟩))))).r).bind
        fun r1 =>
        (clamp (apply_gamma powf ps.gamma (apply_contrast ps.contrast
            (apply_saturation ps.saturation (apply_brightness ps.brightness
              (apply_matrix ps.matrix ⟨F32.ofNat (pixels[idx]).val,
                F32.ofNat (pixels[idx + 1]).val, F32.ofNat (pixels[idx + 2]).val⟩))))).g).bind
        fun g1 =>
        (clamp (apply_gamma powf ps.gamma (apply_contrast ps.contrast
            (apply_saturation ps.saturation (apply_brightness ps.brightness
              (apply_matrix ps.matrix ⟨F32.ofNat (pixels[idx]).val,
                F32.ofNat (pixels[idx + 1]).val, F32.ofNat (pixels[idx + 2]).val⟩))))).b).bind
        fun b1 => some (((pixels.set idx r1).set (idx + 1) g1).set (idx + 2) b1) := by
  have g0 : pixels[idx]? = some pixels[idx] := List.getElem?_eq_getElem (by omega)
  have g1 : pixels[idx + 1]? = some pixels[idx + 1] := List.getElem?_eq_getElem (by omega)
  have g2 : pixels[idx + 2]? = some pixels[idx + 2] := List.getElem?_eq_getElem (by omega)
  have w1 : wrap32 ((idx : Int) + 1) = ((idx + 1 : Nat) : Int) := by
    have : (idx : Int) + 2 < 2 ^ 31 := by exact_mod_cast hr
    rw [wrap32_eq_self (by omega) (by omega)]; push_cast; rfl
  have w2 : wrap32 ((idx : Int) + 2) = ((idx + 2 : Nat) : Int) := by
    have : (idx : Int) + 2 < 2 ^ 31 := by exact_mod_cast hr
    rw [wrap32_eq_self (by omega) (by omega)]; push_cast; rfl
  unfold processPixel
  simp only [w1, w2, readByte_natCast, g0, g1, g2, Option.bind_eq_bind, Option.some_bind]
  rw [writeBack_shape pixels idx (idx + 1) (idx + 2) _ (by omega) (by omega) (by omega)]
  generalize apply_gamma powf ps.gamma _ = t
  cases clamp t.r <;> cases clamp t.g <;> cases clamp t.b <;> rfl

/-- C4 at a concrete pixel: the body on `(100,150,200,255)` at byte `0`. -/
theorem pixel_pipeline_order_witness :
    processPixel powfRef (brightnessPreset cHalf) ((0 : Nat) : Int) [100, 150, 200, 255]
      = some [49, 75, 100, 255] :=
  (pixel_pipeline_order powfRef (brightnessPreset cHalf) [100, 150, 200, 255] 0
    (by decide) (by norm_num)).trans (by decide!)

/-- C5: `clamp` is the piecewise quantizer.  On every finite value it returns a
byte: `0` below zero, `255` above `255`, and the value truncated toward zero
otherwise; in particular at the five boundary values of the spec. -/
theorem clamp_quantizer :
    (∀ (s : Bool) (m k : Nat), ∃ b : Byte, clamp (F32.fin s m k) = some b ∧
      (b.val : ℤ) = if (F32.fin s m k).toRat < 0 then 0
        else if 255 < (F32.fin s m k).toRat then 255
        else truncToZero (F32.fin s m k).toRat) ∧
    clamp (-(F32.lit 1 1000)) = some 0 ∧ clamp (F32.lit 0 1) = some 0 ∧
      clamp (F32.lit 255 1) = some 255 ∧ clamp (F32.lit 255999 1000) = some 255 ∧
      clamp (F32.lit 256 1) = some 255 :=
  ⟨clamp_fin, by decide!⟩

/-- C6 (as amended): with the identity matrix and the four scalars equal to one
(and a `powf` for which exponent one is the identity), `applyPreset` under the
caller precondition with `4*width*height ≤ 2^31` returns a buffer in which every
alpha byte is unchanged and every R, G, B byte is unchanged, except that a byte
with value `1..63` comes back one lower; the 1x1 image `(100,150,200,255)` comes
back unchanged. -/
theorem identity_preset (powf : F32 → F32 → F32) (hpow : ∀ x, powf x F32.one = x) :
    (∀ (pixels : List Byte) (width height : Int), 0 ≤ width → 0 ≤ height →
      4 * width * height ≤ pixels.length → 4 * width * height ≤ 2 ^ 31 →
      ∃ out, applyPreset powf pixels width height identityPreset = some out ∧
        out.length = pixels.length ∧
        ∀ i : Nat, (i : Int) < width * height →
          pixelAt out i = (pixelAt pixels i).map identityByte3 ∧
            out[4 * i + 3]? = pixels[4 * i + 3]?) ∧
    applyPreset powf [100, 150, 200, 255] 1 1 identityPreset = some [100, 150, 200, 255] := by
  refine ⟨fun pixels width height hw hh hlen hr =>
    preset_pixels_of_map powf identityPreset identityByte3 (pixelOut3_identity powf hpow)
      pixels width height hw hh hlen hr, ?_⟩
  rw [applyPreset_single, pixelOut_identity powf hpow]
  decide

/-- C6 at the reference `powf`. -/
theorem identity_preset_witness :
    applyPreset powfRef [100, 150, 200, 255] 1 1 identityPreset = some [100, 150, 200, 255] :=
  (identity_preset powfRef powfRef_one).2

/-- C6 fails as stated: the identity preset turns the pixel `(10,20,30,255)` into
`(9,19,29,255)`. -/
theorem identity_preset_counterexample :
    applyPreset powfRef [10, 20, 30, 255] 1 1 identityPreset = some [9, 19, 29, 255] ∧
      applyPreset powfRef [10, 20, 30, 255] 1 1 identityPreset ≠ some [10, 20, 30, 255] := by
  decide!

/-- C7: order sensitivity.  For the pixel `(55,175,135)` with saturation `0.5` and
brightness `1.25`, saturation followed by brightness and brightness followed by
saturation (the pipeline order) give different triples; the red channels are
`125.99999` and `126`, which `clamp` sends to the bytes `125` and `126`. -/
theorem order_sensitivity :
    ∃ (r g b : Byte) (saturation brightness : F32), r ≠ g ∧ g ≠ b ∧ r ≠ b ∧
      apply_brightness brightness (apply_saturation saturation
          ⟨F32.ofNat r.val, F32.ofNat g.val, F32.ofNat b.val⟩)
        ≠ apply_saturation saturation (apply_brightness brightness
          ⟨F32.ofNat r.val, F32.ofNat g.val, F32.ofNat b.val⟩) ∧
      clamp (apply_brightness brightness (apply_saturation saturation
          ⟨F32.ofNat r.val, F32.ofNat g.val, F32.ofNat b.val⟩)).r = some 125 ∧
      clamp (apply_saturation saturation (apply_brightness brightness
          ⟨F32.ofNat r.val, F32.ofNat g.val, F32.ofNat b.val⟩)).r = some 126 :=
  ⟨55, 175, 135, cHalf, F32.lit 125 100, by decide, by decide, by decide, by decide!,
    by decide!, by decide!⟩

/-- C8: `apply_matrix` is the row-major 3x3 product, every output computed from
the original `r`, `g`, `b` (sums taken left to right in binary32); e.g. the
cyclic matrix `(0,1,0, 0,0,1, 1,0,0)` sends `(1,2,3)` to `(2,3,1)`. -/
theorem apply_matrix_rowMajor :
    (∀ (r g b : F32) (M : Matrix),
      apply_matrix M ⟨r, g, b⟩
        = ⟨r * M.m0 + g * M.m1 + b * M.m2,
           r * M.m3 + g * M.m4 + b * M.m5,
           r * M.m6 + g * M.m7 + b * M.m8⟩) ∧
    apply_matrix ⟨c0, F32.one, c0, c0, c0, F32.one, F32.one, c0, c0⟩
        ⟨F32.ofNat 1, F32.ofNat 2, F32.ofNat 3⟩
      = ⟨F32.ofNat 2, F32.ofNat 3, F32.ofNat 1⟩ :=
  ⟨fun _ _ _ _ => rfl, by decide!⟩

/-- C9 (as amended): brightness only.  With the identity matrix and saturation,
contrast and gamma equal to one, under the caller precondition with
`4*width*height ≤ 2^31`: `applyPreset` returns as soon as the conversion to
`uint8_t` is defined for every pixel (and always with `clampWith conv`, where an
undefined conversion yields some byte), and every pixel of a returned buffer keeps
its alpha byte and gets the clamp of the three channels obtained by passing
`(r*brightness, g*brightness, b*brightness)` through saturation, contrast and
gamma at parameter one; when the three products are again integers `0..255` the
bytes written are `identityByte` of them.  The pixel `(100,150,200,255)` with
brightness `0.5` becomes `(49,75,100,255)`. -/
theorem brightness_only (powf : F32 → F32 → F32) (hpow : ∀ x, powf x F32.one = x) :
    (∀ (brightness : F32) (pixels : List Byte) (width height : Int), 0 ≤ width → 0 ≤ height →
      4 * width * height ≤ pixels.length → 4 * width * height ≤ 2 ^ 31 →
      ((∀ i : Nat, (i : Int) < width * height →
          ((pixelAt pixels i).bind (fun o =>
            unitStages powf (F32.ofNat o.1.val * brightness)
              (F32.ofNat o.2.1.val * brightness) (F32.ofNat o.2.2.val * brightness))).isSome) →
        (applyPreset powf pixels width height (brightnessPreset brightness)).isSome) ∧
      (∀ out, applyPreset powf pixels width height (brightnessPreset brightness) = some out →
        ∀ i : Nat, (i : Int) < width * height →
          out[4 * i + 3]? = pixels[4 * i + 3]? ∧
          pixelAt out i = (pixelAt pixels i).bind (fun o =>
            unitStages powf (F32.ofNat o.1.val * brightness) (F32.ofNat o.2.1.val * brightness)
              (F32.ofNat o.2.2.val * brightness)) ∧
          ∀ r g b r1 g1 b1 : Byte, pixelAt pixels i = some (r, g, b) →
            F32.ofNat r.val * brightness = F32.ofNat r1.val →
            F32.ofNat g.val * brightness = F32.ofNat g1.val →
            F32.ofNat b.val * brightness = F32.ofNat b1.val →
            pixelAt out i = some (identityByte r1, identityByte g1, identityByte b1)) ∧
      ∀ conv : F32 → Byte,
        ∃ out, applyPresetWith conv powf pixels width height (brightnessPreset brightness)
            = some out ∧
          ∀ i : Nat, (i : Int) < width * height →
            out[4 * i + 3]? = pixels[4 * i + 3]? ∧
            pixelAt out i = (pixelAt pixels i).map (fun o =>
              (clampWith conv (unitTriple powf (F32.ofNat o.1.val * brightness)
                  (F32.ofNat o.2.1.val * brightness) (F32.ofNat o.2.2.val * brightness)).r,
               clampWith conv (unitTriple powf (F32.ofNat o.1.val * brightness)
                  (F32.ofNat o.2.1.val * brightness) (F32.ofNat o.2.2.val * brightness)).g,
               clampWith conv (unitTriple powf (F32.ofNat o.1.val * brightness)
                  (F32.ofNat o.2.1.val * brightness)
                  (F32.ofNat o.2.2.val * brightness)).b))) ∧
    applyPreset powf [100, 150, 200, 255] 1 1 (brightnessPreset cHalf)
      = some [49, 75, 100, 255] := by
  have hof : ∀ (k : F32) (r g b r1 g1 b1 : Byte),
      F32.ofNat r.val * k = F32.ofNat r1.val → F32.ofNat g.val * k = F32.ofNat g1.val →
      F32.ofNat b.val * k = F32.ofNat b1.val →
      pixelOut powf (brightnessPreset k) r g b
        = some (identityByte r1, identityByte g1, identityByte b1) := by
    intro k r g b r1 g1 b1 h1 h2 h3
    apply pixelOut_of_bytes powf hpow (brightnessPreset k) (by simp only [brightnessPreset])
      (by simp only [brightnessPreset]) (by simp only [brightnessPreset])
    simp only [brightnessPreset]
    rw [apply_matrix_identity_bytes, apply_brightness_eq, h1, h2, h3]
  have hfun : ∀ brightness, pixelOut3 powf (brightnessPreset brightness) = fun o =>
      unitStages powf (F32.ofNat o.1.val * brightness) (F32.ofNat o.2.1.val * brightness)
        (F32.ofNat o.2.2.val * brightness) :=
    fun brightness => funext fun o => pixelOut_brightness powf brightness o.1 o.2.1 o.2.2
  constructor
  · intro brightness pixels width height hw hh hlen hr
    obtain ⟨r1, r2⟩ := applyPreset_range powf pixels width height (brightnessPreset brightness)
      hw hh hlen hr
    rw [hfun brightness] at r1 r2
    refine ⟨r1, fun out hout i hi => ?_, fun conv =>
      brightness_with conv powf brightness pixels width height hw hh hlen hr⟩
    have ha := applyPreset_alphaSame hout
    have hpt := (r2 out hout).2.2 i hi
    refine ⟨ha.2 (4 * i + 3) (by omega), hpt, ?_⟩
    intro r g b r1 g1 b1 hp h1 h2 h3
    rw [hpt, hp]
    have := hof brightness r g b r1 g1 b1 h1 h2 h3
    rw [pixelOut_brightness] at this
    exact this
  · rw [applyPreset_single, hof cHalf 100 150 200 50 75 100 half_products.1 half_products.2.1
      half_products.2.2]
    decide

/-- C9 at the reference `powf`. -/
theorem brightness_only_witness :
    applyPreset powfRef [100, 150, 200, 255] 1 1 (brightnessPreset cHalf)
      = some [49, 75, 100, 255] :=
  (brightness_only powfRef powfRef_one).2

/-- C9 fails as stated: for the pixel `(100,150,200,255)` and brightness `0.5`,
`clamp (r * brightness)` is `50` but `applyPreset` writes `49` to the red byte. -/
theorem brightness_only_counterexample :
    clamp (F32.ofNat 100 * cHalf) = some 50 ∧
      applyPreset powfRef [100, 150, 200, 255] 1 1 (brightnessPreset cHalf)
        = some [49, 75, 100, 255] := by
  decide!

/-- C10 (as amended): every output channel of `apply_saturation` is the binary32
value of `gray + saturation * (channel - gray)`, with `gray` computed once from
the original channels; on channels that are integers `0..255`, `saturation = 1`
returns the triple unchanged and `saturation = 0` returns `(gray, gray, gray)`. -/
theorem saturation_endpoints :
    (∀ (saturation r g b : F32),
      apply_saturation saturation ⟨r, g, b⟩
        = ⟨(cR * r + cG * g + cB * b) + saturation * (r - (cR * r + cG * g + cB * b)),
           (cR * r + cG * g + cB * b) + saturation * (g - (cR * r + cG * g + cB * b)),
           (cR * r + cG * g + cB * b) + saturation * (b - (cR * r + cG * g + cB * b))⟩) ∧
    (∀ r g b : Byte,
      apply_saturation F32.one ⟨F32.ofNat r.val, F32.ofNat g.val, F32.ofNat b.val⟩
        = ⟨F32.ofNat r.val, F32.ofNat g.val, F32.ofNat b.val⟩) ∧
    (∀ r g b : Byte,
      apply_saturation c0 ⟨F32.ofNat r.val, F32.ofNat g.val, F32.ofNat b.val⟩
        = ⟨cR * F32.ofNat r.val + cG * F32.ofNat g.val + cB * F32.ofNat b.val,
           cR * F32.ofNat r.val + cG * F32.ofNat g.val + cB * F32.ofNat b.val,
           cR * F32.ofNat r.val + cG * F32.ofNat g.val + cB * F32.ofNat b.val⟩) :=
  ⟨fun _ _ _ _ => rfl, apply_saturation_one_bytes, apply_saturation_zero_bytes⟩

/-- C10 fails as stated.  At `saturation = 1` the triple `(1/3, 2, 7)` (the floats
nearest to these values) does not come back unchanged: its red channel moves from
`11184811 * 2^-25` to `11184812 * 2^-25`.  At `saturation = 0` the triple
`(FLT_MAX, -FLT_MAX, -FLT_MAX)` has a finite `gray` but a red output that is NaN,
because `r - gray` overflows. -/
theorem saturation_endpoints_counterexample :
    (F32.lit 1 3 = F32.fin false 11184811 124 ∧
      (apply_saturation F32.one ⟨F32.lit 1 3, F32.ofNat 2, F32.ofNat 7⟩).r
        = F32.fin false 11184812 124 ∧
      apply_saturation F32.one ⟨F32.lit 1 3, F32.ofNat 2, F32.ofNat 7⟩
        ≠ ⟨F32.lit 1 3, F32.ofNat 2, F32.ofNat 7⟩) ∧
    (cR * F32.fin false (2 ^ 24 - 1) 253 + cG * F32.fin true (2 ^ 24 - 1) 253
        + cB * F32.fin true (2 ^ 24 - 1) 253 = F32.fin true 9643543 253 ∧
      (apply_saturation c0 ⟨F32.fin false (2 ^ 24 - 1) 253, F32.fin true (2 ^ 24 - 1) 253,
        F32.fin true (2 ^ 24 - 1) 253⟩).r = F32.nan) := by decide!

/-- C11 (as amended): `apply_contrast` evaluates `((c/255 - 0.5)*k + 0.5)*255` on
each channel, in binary32 (the two literals are exactly `255` and `1/2`).  In exact
arithmetic the value `o` of this expression satisfies `o - 127.5 = k*(c - 127.5)`.
In binary32, `127.5` is a fixed point for every finite contrast; at `contrast = 1`
the integer channel values `0` and `64..255` come back unchanged, and `1..63` come
back as the float immediately below, which `clamp` sends to `c - 1`. -/
theorem contrast_pivot :
    (∀ (contrast : F32) (p : Rgb),
      apply_contrast contrast p
        = ⟨contrastFormula c255 cHalf contrast p.r, contrastFormula c255 cHalf contrast p.g,
           contrastFormula c255 cHalf contrast p.b⟩) ∧
    (c255.toRat = 255 ∧ cHalf.toRat = 1 / 2) ∧
    (∀ k c : ℚ, contrastFormula (255 : ℚ) (1 / 2) k c - 255 / 2 = k * (c - 255 / 2)) ∧
    (∀ (s : Bool) (m e : Nat),
      contrastFormula c255 cHalf (F32.fin s m e) (F32.lit 1275 10) = F32.lit 1275 10) ∧
    (∀ c : Byte, c.val = 0 ∨ 64 ≤ c.val →
      contrastFormula c255 cHalf F32.one (F32.ofNat c.val) = F32.ofNat c.val) ∧
    (∀ c : Byte, 1 ≤ c.val → c.val ≤ 63 →
      justBelow (contrastFormula c255 cHalf F32.one (F32.ofNat c.val)) (F32.ofNat c.val) = true ∧
        clamp (contrastFormula c255 cHalf F32.one (F32.ofNat c.val)) = some (c - 1)) :=
  ⟨fun _ _ => rfl, ⟨toRat_c255, toRat_cHalf⟩, contrast_exact, contrast_midgray,
    contrast_one_high, contrast_one_low⟩

/-- C11 at two channel bytes: `200` comes back unchanged at `contrast = 1`, and
`clamp` of the result for `50` is `49`. -/
theorem contrast_pivot_witness :
    contrastFormula c255 cHalf F32.one (F32.ofNat (200 : Byte).val) = F32.ofNat (200 : Byte).val ∧
      clamp (contrastFormula c255 cHalf F32.one (F32.ofNat (50 : Byte).val)) = some (50 - 1) :=
  ⟨contrast_pivot.2.2.2.2.1 200 (Or.inr (by decide)),
    (contrast_pivot.2.2.2.2.2 50 (by decide) (by decide)).2⟩

/-- C11 fails as stated: at `contrast = 1` the channel value `50` becomes
`13107199 * 2^-18 = 49.999996`, not `50`, and `clamp` of it is `49`. -/
theorem contrast_pivot_counterexample :
    (apply_contrast F32.one ⟨F32.ofNat 50, F32.ofNat 50, F32.ofNat 50⟩).r
        = F32.fin false 13107199 131 ∧
      F32.ofNat 50 = F32.fin false 13107200 131 ∧
      clamp (apply_contrast F32.one ⟨F32.ofNat 50, F32.ofNat 50, F32.ofNat 50⟩).r = some 49 ∧
      apply_contrast F32.one ⟨F32.ofNat 50, F32.ofNat 50, F32.ofNat 50⟩
        ≠ ⟨F32.ofNat 50, F32.ofNat 50, F32.ofNat 50⟩ := by decide!

/-- C12: gamma direction.  With `powf` read as the real power, the expression
`powf(c/255, gamma) * 255` of `apply_gamma` satisfies, for every real `0 < c < 255`:
`gamma = 1` gives `c`, `0 < gamma < 1` gives more than `c`, `1 < gamma` gives less
than `c`.  `apply_gamma` is this expression in binary32 on each channel; there,
for every integer channel value `c` in `0..255`: `gamma = 1` returns `c` (for a
`powf` with `powf(x,1) = x`); whenever `powf` returns a value in `[0,1]` above
`c/255` the output is not below `c`, and whenever it returns one below `c/255` the
output is not above `c`; and at `gamma = 2` the reference power darkens every
`c` in `1..254`. -/
theorem gamma_direction :
    (∀ c γ : ℝ, 0 < c → c < 255 →
      (γ = 1 → gammaFormula powReal 255 γ c = c) ∧
      (0 < γ → γ < 1 → c < gammaFormula powReal 255 γ c) ∧
      (1 < γ → gammaFormula powReal 255 γ c < c)) ∧
    (∀ (powf : F32 → F32 → F32) (gamma : F32) (p : Rgb),
      apply_gamma powf gamma p
        = ⟨gammaFormula powf c255 gamma p.r, gammaFormula powf c255 gamma p.g,
           gammaFormula powf c255 gamma p.b⟩) ∧
    c255.toRat = 255 ∧
    (∀ powf : F32 → F32 → F32, (∀ x, powf x F32.one = x) →
      ∀ c : Byte, gammaFormula powf c255 F32.one (F32.ofNat c.val) = F32.ofNat c.val) ∧
    (∀ (powf : F32 → F32 → F32) (gamma : F32) (c : Byte) (mp kp : Nat),
      powf (F32.ofNat c.val / c255) gamma = F32.fin false mp kp → mp * 2 ^ kp ≤ 2 ^ 149 →
      (F32.lt (F32.ofNat c.val / c255) (powf (F32.ofNat c.val / c255) gamma) = true →
        F32.lt (gammaFormula powf c255 gamma (F32.ofNat c.val)) (F32.ofNat c.val) = false) ∧
      (F32.lt (powf (F32.ofNat c.val / c255) gamma) (F32.ofNat c.val / c255) = true →
        F32.lt (F32.ofNat c.val) (gammaFormula powf c255 gamma (F32.ofNat c.val)) = false)) ∧
    (∀ c : Byte, 1 ≤ c.val → c.val ≤ 254 →
      F32.lt (gammaFormula powfRef c255 two (F32.ofNat c.val)) (F32.ofNat c.val) = true) :=
  ⟨gamma_real, fun _ _ _ => rfl, toRat_c255, gamma_one_bytes, gamma_follows_powf,
    gamma_two_bytes⟩

/-- C12 at `c = 100`: over the reals `gamma = 1/2` brightens and `gamma = 2`
darkens; in binary32 with the reference power, `gamma = 2` does not brighten. -/
theorem gamma_direction_witness :
    ((100 : ℝ) < gammaFormula powReal 255 (1 / 2) 100 ∧
      gammaFormula powReal 255 2 100 < 100) ∧
    F32.lt (F32.ofNat (100 : Byte).val)
      (gammaFormula powfRef c255 two (F32.ofNat (100 : Byte).val)) = false :=
  ⟨⟨(gamma_direction.1 100 (1 / 2) (by norm_num) (by norm_num)).2.1 (by norm_num)
        (by norm_num),
      (gamma_direction.1 100 2 (by norm_num) (by norm_num)).2.2 (by norm_num)⟩,
    (gamma_direction.2.2.2.2.1 powfRef two 100 10320472 123 (by decide!) (by norm_num)).2
      (by decide!)⟩

/-- C13: white is a fixed point of gamma.  With the identity matrix and
saturation, contrast and brightness equal to one, for every `gamma` at which
`powf(1, gamma) = 1` (the C library returns `1` there for every exponent), the 1x1
image `(255,255,255,a)` comes back as `(255,255,255,a)`, and in any image under
the caller precondition every pixel whose colour bytes are `(255,255,255)` keeps
them and its alpha byte. -/
theorem white_fixed_point (powf : F32 → F32 → F32) (gamma : F32)
    (hpow : powf F32.one gamma = F32.one) :
    (∀ a : Byte, applyPreset powf [255, 255, 255, a] 1 1 (gammaPreset gamma)
      = some [255, 255, 255, a]) ∧
    ∀ (pixels : List Byte) (width height : Int), 0 ≤ width → 0 ≤ height →
      4 * width * height ≤ pixels.length → 4 * width * height ≤ 2 ^ 31 →
      ∀ out, applyPreset powf pixels width height (gammaPreset gamma) = some out →
        ∀ i : Nat, (i : Int) < width * height → pixelAt pixels i = some (255, 255, 255) →
          pixelAt out i = some (255, 255, 255) ∧ out[4 * i + 3]? = pixels[4 * i + 3]? := by
  constructor
  · intro a
    rw [applyPreset_single, pixelOut_white powf gamma hpow]
    rfl
  · intro pixels width height hw hh hlen hr out hout i hi hp
    have ha := applyPreset_alphaSame hout
    refine ⟨?_, ha.2 (4 * i + 3) (by omega)⟩
    rw [((applyPreset_range powf pixels width height (gammaPreset gamma) hw hh hlen hr).2
      out hout).2.2 i hi, hp]
    exact pixelOut_white powf gamma hpow

/-- C13 at the scenario of the spec: `gamma = 2.0` with the reference power maps
`(255,255,255,255)` to `(255,255,255,255)`. -/
theorem white_fixed_point_witness :
    applyPreset powfRef [255, 255, 255, 255] 1 1 (gammaPreset two)
      = some [255, 255, 255, 255] :=
  (white_fixed_point powfRef two (by decide!)).1 255

/-- C14: zero total pixels is a no-op.  Whenever `width * height = 0`, both
`applyPreset` and `applyPresetOptimized` return the buffer unchanged, whatever the
matrix and the four scalars. -/
theorem zero_pixels_noop (powf : F32 → F32 → F32) (pixels : List Byte) (width height : Int)
    (ps : Preset) (h : width * height = 0) :
    applyPreset powf pixels width height ps = some pixels ∧
      applyPresetOptimized powf pixels width height ps = some pixels :=
  loops_of_total_nonpos (processPixel powf ps) width height pixels (by rw [h]; decide)

/-- C14 at a concrete call: width `0`, height `7`. -/
theorem zero_pixels_noop_witness :
    applyPreset powfRef [1, 2, 3, 4] 0 7 (brightnessPreset cHalf) = some [1, 2, 3, 4] ∧
      applyPresetOptimized powfRef [1, 2, 3, 4] 0 7 (brightnessPreset cHalf)
        = some [1, 2, 3, 4] :=
  zero_pixels_noop powfRef [1, 2, 3, 4] 0 7 (brightnessPreset cHalf) (by decide)

/-- C15: the grouped iteration covers the index range exactly once.  For a
non-negative `totalPixels` (the `int` value of `width*height`), `limit` is
`totalPixels - totalPixels mod 4`, a multiple of 4 between `0` and `totalPixels`;
the chunked loop runs the body at the pixel indices `0 .. limit-1` in increasing
order, the remainder loop at the `totalPixels mod 4` indices `limit ..
totalPixels-1`, and the two together at `0 .. totalPixels-1`, once each and in
increasing order: the byte offsets handed to the body are `4*0, 4*1, ..`. -/
theorem grouped_iteration_cover {σ : Type} (pixel : Int → σ → Option σ) (width height : Int)
    (s : σ) (h : 0 ≤ wrap32 (width * height)) :
    wrap32 (wrap32 (width * height) - Int.tmod (wrap32 (width * height)) 4)
      = wrap32 (width * height) - wrap32 (width * height) % 4 ∧
    (wrap32 (width * height) - wrap32 (width * height) % 4) % 4 = 0 ∧
    0 ≤ wrap32 (width * height) - wrap32 (width * height) % 4 ∧
    wrap32 (width * height) - wrap32 (width * height) % 4 ≤ wrap32 (width * height) ∧
    forLoop (fun i => decide (i < wrap32 (width * height) - wrap32 (width * height) % 4))
        (fun i => wrap32 (i + 4))
        (fun i s =>
          forLoop (fun j => decide (j < 4)) (fun j => wrap32 (j + 1))
            (fun j s => pixel (wrap32 (wrap32 (i + j) * 4)) s) 5 0 s)
        ((wrap32 (width * height) - wrap32 (width * height) % 4).toNat + 1) 0 s
      = runFrom (fun i s => pixel (wrap32 (i * 4)) s)
          (wrap32 (width * height) - wrap32 (width * height) % 4).toNat 0 s ∧
    (∀ s1 : σ,
      forLoop (fun i => decide (i < wrap32 (width * height))) (fun i => wrap32 (i + 1))
          (fun i s => pixel (wrap32 (i * 4)) s) ((wrap32 (width * height)).toNat + 1)
          (wrap32 (width * height) - wrap32 (width * height) % 4) s1
        = runFrom (fun i s => pixel (wrap32 (i * 4)) s) (wrap32 (width * height) % 4).toNat
            (wrap32 (width * height) - wrap32 (width * height) % 4) s1) ∧
    groupedLoop pixel width height s
      = runFrom (fun i s => pixel (wrap32 (i * 4)) s) (wrap32 (width * height)).toNat 0 s ∧
    groupedLoop tracePixel width height []
      = some ((List.range (wrap32 (width * height)).toNat).map
          (fun i : Nat => wrap32 ((i : Int) * 4))) := by
  have hg : groupedLoop pixel width height s
      = runFrom (fun i s => pixel (wrap32 (i * 4)) s) (wrap32 (width * height)).toNat 0 s := by
    rw [groupedLoop_eq_sequentialLoop, sequentialLoop_eq_runFrom]
  have ht : groupedLoop tracePixel width height []
      = some ((List.range (wrap32 (width * height)).toNat).map
          (fun i : Nat => wrap32 ((i : Int) * 4))) := by
    rw [groupedLoop_eq_sequentialLoop, sequentialLoop_eq_runFrom,
      runFrom_tracePixel (fun i => wrap32 (i * 4))]
    simp
  obtain ⟨-, hhi⟩ := wrap32_range (width * height)
  generalize wrap32 (width * height) = total at h hhi hg ht ⊢
  have hrem : Int.tmod total 4 = total % 4 := Int.tmod_eq_emod h (by omega)
  have hlim : wrap32 (total - Int.tmod total 4) = total - total % 4 := by
    rw [hrem]; exact wrap32_eq_self (by omega) (by omega)
  obtain ⟨c, hc⟩ : ∃ c : Nat, total - total % 4 = 4 * (c : Int) :=
    ⟨((total - total % 4) / 4).toNat, by omega⟩
  obtain ⟨r, hr⟩ : ∃ r : Nat, total % 4 = (r : Int) := ⟨(total % 4).toNat, by omega⟩
  refine ⟨hlim, by omega, by omega, by omega, ?_, fun s1 => ?_, hg, ht⟩
  · have e : (total - total % 4).toNat = 4 * c := by omega
    rw [e]
    exact forLoop_chunks pixel _ (by omega) c _ 0 s (le_refl _) (by omega) (by omega)
  · have e : (total % 4).toNat = r := by omega
    rw [e]
    exact forLoop_count _ total hhi r _ _ s1 (by omega) (by omega) (by omega)

/-- C15 at the two scenarios of the spec: a 2x2 image is one full chunk with no
remainder, a 5-pixel image one full chunk plus a remainder of one pixel. -/
theorem grouped_iteration_cover_witness :
    groupedLoop tracePixel 2 2 [] = some [0, 4, 8, 12] ∧
    (forLoop (fun i => decide (i < 4)) (fun i => wrap32 (i + 4))
        (fun i s =>
          forLoop (fun j => decide (j < 4)) (fun j => wrap32 (j + 1))
            (fun j s => tracePixel (wrap32 (wrap32 (i + j) * 4)) s) 5 0 s) 5 0 []
      = some [0, 4, 8, 12] ∧
    forLoop (fun i => decide (i < 5)) (fun i => wrap32 (i + 1))
        (fun i s => tracePixel (wrap32 (i * 4)) s) 6 4 [0, 4, 8, 12]
      = some [0, 4, 8, 12, 16] ∧
    groupedLoop tracePixel 5 1 [] = some [0, 4, 8, 12, 16]) :=
  ⟨(grouped_iteration_cover tracePixel 2 2 [] (by decide)).2.2.2.2.2.2.2.trans (by decide),
    (grouped_iteration_cover tracePixel 5 1 [] (by decide)).2.2.2.2.1.trans (by decide),
    ((grouped_iteration_cover tracePixel 5 1 [] (by decide)).2.2.2.2.2.1 [0, 4, 8, 12]).trans
      (by decide),
    (grouped_iteration_cover tracePixel 5 1 [] (by decide)).2.2.2.2.2.2.2.trans (by decide)⟩

/-- C16 (as amended): no clamping between stages.  With the matrix
`(2,0,0, 0,2,0, 0,0,2)`, brightness `0.5` and saturation, contrast and gamma equal
to one (and `powf(x,1) = x`), `applyPreset` under the caller precondition keeps
every alpha byte and every colour byte, except that a colour byte `1..63` comes
back one lower.  The matrix stage holds `2*c` for the byte `c`, which exceeds `255`
for every `c ≥ 128`, and these bytes come back unchanged. -/
theorem no_intermediate_clamp (powf : F32 → F32 → F32) (hpow : ∀ x, powf x F32.one = x) :
    (∀ (pixels : List Byte) (width height : Int), 0 ≤ width → 0 ≤ height →
      4 * width * height ≤ pixels.length → 4 * width * height ≤ 2 ^ 31 →
      ∃ out, applyPreset powf pixels width height doubleHalfPreset = some out ∧
        out.length = pixels.length ∧
        ∀ i : Nat, (i : Int) < width * height →
          pixelAt out i = (pixelAt pixels i).map identityByte3 ∧
            out[4 * i + 3]? = pixels[4 * i + 3]?) ∧
    (∀ r g b : Byte,
      apply_matrix doubleMatrix ⟨F32.ofNat r.val, F32.ofNat g.val, F32.ofNat b.val⟩
        = ⟨F32.ofNat (2 * r.val), F32.ofNat (2 * g.val), F32.ofNat (2 * b.val)⟩) ∧
    (∀ c : Byte, 128 ≤ c.val →
      F32.lt c255 (F32.ofNat (2 * c.val)) = true ∧ identityByte c = c) ∧
    applyPreset powf [200, 130, 255, 7] 1 1 doubleHalfPreset = some [200, 130, 255, 7] := by
  refine ⟨fun pixels width height hw hh hlen hr =>
      preset_pixels_of_map powf doubleHalfPreset identityByte3
        (fun o => pixelOut_doubleHalf powf hpow o.1 o.2.1 o.2.2) pixels width height hw hh hlen hr,
    apply_matrix_double_bytes, double_exceeds, ?_⟩
  rw [applyPreset_single, pixelOut_doubleHalf powf hpow]
  decide

/-- C16 at the reference `powf`: the pixel `(200,130,255,7)` comes back unchanged. -/
theorem no_intermediate_clamp_witness :
    applyPreset powfRef [200, 130, 255, 7] 1 1 doubleHalfPreset = some [200, 130, 255, 7] :=
  (no_intermediate_clamp powfRef powfRef_one).2.2.2

/-- C16 fails as stated: the preset turns the pixel `(10,20,30,255)` into
`(9,19,29,255)`. -/
theorem no_intermediate_clamp_counterexample :
    applyPreset powfRef [10, 20, 30, 255] 1 1 doubleHalfPreset = some [9, 19, 29, 255] ∧
      applyPreset powfRef [10, 20, 30, 255] 1 1 doubleHalfPreset ≠ some [10, 20, 30, 255] := by
  decide!

/-- C18 (as amended): `apply_saturation` evaluates, in binary32,
`gray + s*(channel - gray)` with `gray = wR*r + wG*g + wB*b`, and the three binary32
weights sum to exactly one.  In exact arithmetic, for weights that sum to one, the
luminance of the output equals the luminance of the input and a gray input is a
fixed point for every saturation.  In binary32, a gray triple of integer channel
values `(c,c,c)` is a fixed point at `saturation = 1`, and for every finite
saturation when its `gray` is exactly `c`; for every such triple `gray` is `c` or
one of the two floats next to it. -/
theorem luminance_preserved :
    (∀ saturation r g b : F32,
      apply_saturation saturation ⟨r, g, b⟩
        = ⟨(saturationFormula cR cG cB saturation r g b).1,
           (saturationFormula cR cG cB saturation r g b).2.1,
           (saturationFormula cR cG cB saturation r g b).2.2⟩) ∧
    cR.toRat + cG.toRat + cB.toRat = 1 ∧
    (∀ wR wG wB s r g b : ℚ, wR + wG + wB = 1 →
      lumaFormula wR wG wB (saturationFormula wR wG wB s r g b).1
          (saturationFormula wR wG wB s r g b).2.1 (saturationFormula wR wG wB s r g b).2.2
        = lumaFormula wR wG wB r g b) ∧
    (∀ wR wG wB s c : ℚ, wR + wG + wB = 1 → saturationFormula wR wG wB s c c c = (c, c, c)) ∧
    (∀ c : Byte,
      apply_saturation F32.one ⟨F32.ofNat c.val, F32.ofNat c.val, F32.ofNat c.val⟩
        = ⟨F32.ofNat c.val, F32.ofNat c.val, F32.ofNat c.val⟩) ∧
    (∀ c : Byte,
      lumaFormula cR cG cB (F32.ofNat c.val) (F32.ofNat c.val) (F32.ofNat c.val)
        = F32.ofNat c.val →
      ∀ (s : Bool) (m e : Nat),
        apply_saturation (F32.fin s m e) ⟨F32.ofNat c.val, F32.ofNat c.val, F32.ofNat c.val⟩
          = ⟨F32.ofNat c.val, F32.ofNat c.val, F32.ofNat c.val⟩) ∧
    (∀ c : Byte,
      lumaFormula cR cG cB (F32.ofNat c.val) (F32.ofNat c.val) (F32.ofNat c.val)
        = F32.ofNat c.val ∨
      justBelow (lumaFormula cR cG cB (F32.ofNat c.val) (F32.ofNat c.val) (F32.ofNat c.val))
        (F32.ofNat c.val) = true ∨
      justBelow (F32.ofNat c.val)
        (lumaFormula cR cG cB (F32.ofNat c.val) (F32.ofNat c.val) (F32.ofNat c.val)) = true) ∧
    lumaFormula cR cG cB (F32.ofNat 128) (F32.ofNat 128) (F32.ofNat 128) = F32.ofNat 128 :=
  ⟨fun _ _ _ _ => rfl, weights_sum, luma_exact, gray_exact,
    fun c => apply_saturation_one_bytes c c c, gray_fixed_of_exact, gray_near, by decide!⟩

/-- C18 at the gray input `(128,128,128)`, whose `gray` is exactly `128`: it is a
fixed point at `saturation = 2.0f`. -/
theorem luminance_preserved_witness :
    apply_saturation (F32.fin false (2 ^ 23) 127)
        ⟨F32.ofNat (128 : Byte).val, F32.ofNat (128 : Byte).val, F32.ofNat (128 : Byte).val⟩
      = ⟨F32.ofNat (128 : Byte).val, F32.ofNat (128 : Byte).val, F32.ofNat (128 : Byte).val⟩ :=
  luminance_preserved.2.2.2.2.2.1 128 luminance_preserved.2.2.2.2.2.2.2 false (2 ^ 23) 127

/-- C18 fails as stated.  The gray input `(91,91,91)` at `saturation = 0` becomes
`11927551 * 2^-17 = 90.99999` on each channel, and the pipeline writes
`(90,90,90)`; the input `(10,200,130)` has luminance `10128721 * 2^-16` and its
output at `saturation = 0.5` has luminance `10128720 * 2^-16`. -/
theorem luminance_preserved_counterexample :
    (apply_saturation c0 ⟨F32.ofNat 91, F32.ofNat 91, F32.ofNat 91⟩
        = ⟨F32.fin false 11927551 132, F32.fin false 11927551 132, F32.fin false 11927551 132⟩ ∧
      F32.ofNat 91 = F32.fin false 11927552 132 ∧
      applyPreset powfRef [91, 91, 91, 255] 1 1 (saturationPreset c0)
        = some [90, 90, 90, 255]) ∧
    (lumaFormula cR cG cB (F32.ofNat 10) (F32.ofNat 200) (F32.ofNat 130)
        = F32.fin false 10128721 133 ∧
      lumaFormula cR cG cB
          (apply_saturation cHalf ⟨F32.ofNat 10, F32.ofNat 200, F32.ofNat 130⟩).r
          (apply_saturation cHalf ⟨F32.ofNat 10, F32.ofNat 200, F32.ofNat 130⟩).g
          (apply_saturation cHalf ⟨F32.ofNat 10, F32.ofNat 200, F32.ofNat 130⟩).b
        = F32.fin false 10128720 133) := by decide!

/-- C19: a negative pixel count is a no-op.  When `totalPixels`, the `int` value
of `width*height`, is negative: the truncating remainder `totalPixels % 4` is
`≤ 0`, `limit = totalPixels - remainder` satisfies `totalPixels ≤ limit ≤ 0`, the
loop of `applyPreset` and the two loops of `applyPresetOptimized` return at once
whatever their body is, and both entry points return the buffer unchanged. -/
theorem negative_pixels_noop (powf : F32 → F32 → F32) (pixels : List Byte) (width height : Int)
    (ps : Preset) (h : wrap32 (width * height) < 0) :
    Int.tmod (wrap32 (width * height)) 4 ≤ 0 ∧
    wrap32 (width * height)
      ≤ wrap32 (wrap32 (width * height) - Int.tmod (wrap32 (width * height)) 4) ∧
    wrap32 (wrap32 (width * height) - Int.tmod (wrap32 (width * height)) 4) ≤ 0 ∧
    (∀ body : Int → List Byte → Option (List Byte),
      forLoop (fun i => decide (i < wrap32 (width * height))) (fun i => wrap32 (i + 1)) body
          ((wrap32 (width * height)).toNat + 1) 0 pixels = some pixels ∧
      forLoop (fun i => decide
            (i < wrap32 (wrap32 (width * height) - Int.tmod (wrap32 (width * height)) 4)))
          (fun i => wrap32 (i + 4)) body
          ((wrap32 (wrap32 (width * height)
            - Int.tmod (wrap32 (width * height)) 4)).toNat + 1) 0 pixels = some pixels ∧
      forLoop (fun i => decide (i < wrap32 (width * height))) (fun i => wrap32 (i + 1)) body
          ((wrap32 (width * height)).toNat + 1)
          (wrap32 (wrap32 (width * height) - Int.tmod (wrap32 (width * height)) 4)) pixels
        = some pixels) ∧
    applyPreset powf pixels width height ps = some pixels ∧
      applyPresetOptimized powf pixels width height ps = some pixels := by
  obtain ⟨hlo, -⟩ := wrap32_range (width * height)
  obtain ⟨t1, t2, t3, t4⟩ := tmod_four_of_nonpos (le_of_lt h)
  have hlim : wrap32 (wrap32 (width * height) - Int.tmod (wrap32 (width * height)) 4)
      = wrap32 (width * height) - Int.tmod (wrap32 (width * height)) 4 :=
    wrap32_eq_self (by omega) (by omega)
  refine ⟨t1, by rw [hlim]; exact t3, by rw [hlim]; exact t4, fun body => ?_,
    loops_of_total_nonpos (processPixel powf ps) width height pixels (le_of_lt h)⟩
  rw [hlim]
  generalize wrap32 (width * height) = total at h t1 t2 t3 t4
  generalize total - Int.tmod total 4 = limit at t3 t4
  have c0 : ¬ (0 < total) := by omega
  have c1 : ¬ (0 < limit) := by omega
  have c2 : ¬ (limit < total) := by omega
  simp [forLoop, c0, c1, c2]

/-- C19 at a concrete call: width `-3`, height `5`. -/
theorem negative_pixels_noop_witness :
    applyPreset powfRef [1, 2, 3, 4] (-3) 5 (brightnessPreset cHalf) = some [1, 2, 3, 4] ∧
      applyPresetOptimized powfRef [1, 2, 3, 4] (-3) 5 (brightnessPreset cHalf)
        = some [1, 2, 3, 4] :=
  (negative_pixels_noop powfRef [1, 2, 3, 4] (-3) 5 (brightnessPreset cHalf) (by decide)).2.2.2.2

/-- C20: 32-bit index arithmetic is exact within range.  For `width, height ≥ 0`
with `4*width*height ≤ 2^31 - 1`, the `int` computations of the two entry points
equal the exact integers: `totalPixels = width*height`, the remainder and `limit`;
for every `0 ≤ i < totalPixels`: `i*4`, `idx + 1`, `idx + 2` and `i + 1`; for every
chunk start `i < limit` and `0 ≤ j < 4`: `i + j`, `(i+j)*4`, `idx + 1`, `idx + 2`,
`j + 1` and `i + 4`.  These are the indices reached: both loops hand the body the
offsets `4*i` for `i = 0 .. totalPixels-1`. -/
theorem index_arithmetic_exact (width height : Int) (hw : 0 ≤ width) (hh : 0 ≤ height)
    (hr : 4 * width * height ≤ 2 ^ 31 - 1) :
    wrap32 (width * height) = width * height ∧
    Int.tmod (wrap32 (width * height)) 4 = width * height % 4 ∧
    wrap32 (wrap32 (width * height) - Int.tmod (wrap32 (width * height)) 4)
      = width * height - width * height % 4 ∧
    (∀ i : Int, 0 ≤ i → i < width * height →
      wrap32 (i * 4) = i * 4 ∧ wrap32 (wrap32 (i * 4) + 1) = i * 4 + 1 ∧
        wrap32 (wrap32 (i * 4) + 2) = i * 4 + 2 ∧ wrap32 (i + 1) = i + 1) ∧
    (∀ i j : Int, 0 ≤ i → i % 4 = 0 → i < width * height - width * height % 4 →
      0 ≤ j → j < 4 →
      i + j < width * height ∧ wrap32 (i + j) = i + j ∧
        wrap32 (wrap32 (i + j) * 4) = (i + j) * 4 ∧
        wrap32 (wrap32 (wrap32 (i + j) * 4) + 1) = (i + j) * 4 + 1 ∧
        wrap32 (wrap32 (wrap32 (i + j) * 4) + 2) = (i + j) * 4 + 2 ∧
        wrap32 (j + 1) = j + 1 ∧ wrap32 (i + 4) = i + 4) ∧
    sequentialLoop tracePixel width height []
      = some ((List.range (width * height).toNat).map (fun i : Nat => (i : Int) * 4)) ∧
    groupedLoop tracePixel width height []
      = some ((List.range (width * height).toNat).map (fun i : Nat => (i : Int) * 4)) := by
  have hnn : 0 ≤ width * height := Int.mul_nonneg hw hh
  rw [Int.mul_assoc] at hr
  have hseq : sequentialLoop tracePixel width height []
      = some ((List.range (wrap32 (width * height)).toNat).map
          (fun i : Nat => wrap32 ((i : Int) * 4))) := by
    rw [sequentialLoop_eq_runFrom, runFrom_tracePixel (fun i => wrap32 (i * 4))]
    simp
  have hgrp := groupedLoop_eq_sequentialLoop tracePixel width height []
  generalize width * height = n at hr hnn hseq hgrp ⊢
  have h0 : wrap32 n = n := wrap32_eq_self (by omega) (by omega)
  rw [h0] at hseq ⊢
  have hrem : Int.tmod n 4 = n % 4 := Int.tmod_eq_emod hnn (by omega)
  have hmap : (List.range n.toNat).map (fun i : Nat => wrap32 ((i : Int) * 4))
      = (List.range n.toNat).map (fun i : Nat => (i : Int) * 4) := by
    apply List.map_congr_left
    intro i hi
    have : i < n.toNat := List.mem_range.mp hi
    exact wrap32_eq_self (by omega) (by omega)
  rw [hmap] at hseq
  refine ⟨rfl, hrem, by rw [hrem]; exact wrap32_eq_self (by omega) (by omega), ?_, ?_, hseq,
    by rw [hgrp, hseq]⟩
  · intro i hi0 hin
    have e0 : wrap32 (i * 4) = i * 4 := wrap32_eq_self (by omega) (by omega)
    rw [e0]
    exact ⟨rfl, wrap32_eq_self (by omega) (by omega), wrap32_eq_self (by omega) (by omega),
      wrap32_eq_self (by omega) (by omega)⟩
  · intro i j hi0 hi4 hil hj0 hj4
    have e0 : wrap32 (i + j) = i + j := wrap32_eq_self (by omega) (by omega)
    have e1 : wrap32 ((i + j) * 4) = (i + j) * 4 := wrap32_eq_self (by omega) (by omega)
    rw [e0, e1]
    exact ⟨by omega, rfl, rfl, wrap32_eq_self (by omega) (by omega),
      wrap32_eq_self (by omega) (by omega), wrap32_eq_self (by omega) (by omega),
      wrap32_eq_self (by omega) (by omega)⟩

/-- C20 at a concrete call: a 5x1 image, pixel `3`. -/
theorem index_arithmetic_exact_witness :
    wrap32 (wrap32 ((3 : Int) * 4) + 2) = 3 * 4 + 2 :=
  ((index_arithmetic_exact 5 1 (by decide) (by decide) (by decide)).2.2.2.1 3 (by decide)
    (by decide)).2.2.1

end Filters
